import Mathlib

/-!
Verification of the array_alg.h sequence-algorithms engine.

The C source instantiates each algorithm per element type via macros; here the
element type is a Lean type variable `α` and the three-way comparator is a
function `cmp : α → α → Int` (the C `int (*cmp)(const T*, const T*, void*)`
with the opaque context already captured).  Arrays are `List α`; a pointer
into the array is a `Nat` index.  An out-of-range access (C undefined
behaviour) is modelled by returning `none`.
-/

namespace ArrayAlg

/-- A three-way comparator is a strict weak ordering when its sign is
antisymmetric and the derived `≤` (comparator result at most zero) is
transitive.  This is the comparator contract of the spec. -/
structure IsSWO {α : Type} (cmp : α → α → Int) : Prop where
  asym : ∀ a b, cmp a b < 0 ↔ cmp b a > 0
  le_trans : ∀ a b c, cmp a b ≤ 0 → cmp b c ≤ 0 → cmp a c ≤ 0

namespace IsSWO

variable {α : Type} {cmp : α → α → Int}

theorem self_eq (h : IsSWO cmp) (a : α) : cmp a a = 0 := by
  have h1 := h.asym a a
  by_contra hne
  rcases lt_or_gt_of_ne hne with hlt | hgt
  · exact absurd (h1.mp hlt) (by omega)
  · exact absurd (h1.mpr hgt) (by omega)

theorem total (h : IsSWO cmp) (a b : α) (hab : ¬ cmp a b ≤ 0) : cmp b a ≤ 0 :=
  le_of_lt ((h.asym b a).mpr (by omega))

theorem le_of_ge (h : IsSWO cmp) (a b : α) (hab : cmp a b ≥ 0) : cmp b a ≤ 0 := by
  rcases eq_or_lt_of_le hab with heq | hgt
  · by_contra hba
    exact absurd ((h.asym a b).mpr (by omega)) (by omega)
  · exact le_of_lt ((h.asym b a).mpr hgt)

theorem ge_of_le (h : IsSWO cmp) (a b : α) (hab : cmp a b ≤ 0) : cmp b a ≥ 0 := by
  by_contra hba
  exact absurd ((h.asym b a).mp (by omega)) (by omega)

theorem ge_trans (h : IsSWO cmp) (a b c : α) (hab : cmp a b ≥ 0) (hbc : cmp b c ≥ 0) :
    cmp a c ≥ 0 :=
  h.ge_of_le c a (h.le_trans c b a (h.le_of_ge b c hbc) (h.le_of_ge a b hab))

theorem ge_of_gt_of_ge (h : IsSWO cmp) (a b c : α) (hab : cmp a b > 0)
    (hbc : cmp b c ≥ 0) : cmp a c ≥ 0 :=
  h.ge_trans a b c (by omega) hbc

theorem lt_trans (h : IsSWO cmp) (a b c : α) (hab : cmp a b < 0) (hbc : cmp b c < 0) :
    cmp a c < 0 := by
  by_contra hac
  have h1 : cmp c a ≤ 0 := h.le_of_ge a c (by omega)
  have h2 : cmp c b ≤ 0 := h.le_trans c a b h1 (by omega)
  have h3 := h.asym b c
  omega

theorem gt_of_gt_of_gt (h : IsSWO cmp) (a b c : α) (hab : cmp a b > 0)
    (hbc : cmp b c > 0) : cmp a c > 0 := by
  have h1 : cmp b a < 0 := (h.asym b a).mpr hab
  have h2 : cmp c b < 0 := (h.asym c b).mpr hbc
  exact (h.asym c a).mp (h.lt_trans c b a h2 h1)

end IsSWO

/-- The integer three-way comparator used by the repository's tests
(`compare_int` returns `*a - *b`, whose sign is that of this comparator). -/
def intCmp (a b : Int) : Int :=
  if a < b then -1 else if b < a then 1 else 0

theorem intCmp_isSWO : IsSWO intCmp := by
  constructor
  · intro a b
    simp only [intCmp]
    split <;> split <;> omega
  · intro a b c
    simp only [intCmp]
    split <;> split <;> split <;> omega


/-- Pair comparator comparing only the first component; the second component
is a comparator-invisible tag (the spec's device for observing stability). -/
def pairCmp (a b : Int × Int) : Int :=
  intCmp a.1 b.1

theorem pairCmp_isSWO : IsSWO pairCmp := by
  constructor
  · intro a b
    exact intCmp_isSWO.asym a.1 b.1
  · intro a b c
    exact intCmp_isSWO.le_trans a.1 b.1 c.1

/-- `cmp`-sortedness: every element compares `≤ 0` against every later one
(the non-decreasing contract checked by the source's `is_sorted`). -/
abbrev SortedLe {α : Type} (cmp : α → α → Int) (l : List α) : Prop :=
  l.Pairwise (fun a b => cmp a b ≤ 0)

/-- `merge` (array_alg.h:1070-1105): two-pointer merge of two sorted ranges
into the separate output buffer `out`.  The output buffer is written
sequentially, so it is modelled as the returned list.  When the heads compare
`>= 0` the element of the second range is taken. -/
def merge {α : Type} (cmp : α → α → Int) : List α → List α → List α
  | l1, [] => l1
  | [], l2 => l2
  | a :: l1, b :: l2 =>
    if cmp a b ≥ 0 then b :: merge cmp (a :: l1) l2
    else a :: merge cmp l1 (b :: l2)
termination_by l1 l2 => l1.length + l2.length

/-- `set_union` (array_alg.h:1268-1298): single forward pass over two sorted
ranges; on a tie (`cmp` result zero) the element of the FIRST range is
emitted and both ranges advance. -/
def set_union {α : Type} (cmp : α → α → Int) : List α → List α → List α
  | [], l2 => l2
  | l1, [] => l1
  | a :: l1, b :: l2 =>
    let result := cmp a b
    if result = 0 then a :: set_union cmp l1 l2
    else if result ≥ 0 then b :: set_union cmp (a :: l1) l2
    else a :: set_union cmp l1 (b :: l2)
termination_by l1 l2 => l1.length + l2.length

theorem merge_perm {α : Type} (cmp : α → α → Int) :
    ∀ l1 l2 : List α, List.Perm (merge cmp l1 l2) (l1 ++ l2)
  | l1, [] => by simp [merge]
  | [], l2 => by
    cases l2 with
    | nil => simp [merge]
    | cons b l2 => simp [merge]
  | a :: l1, b :: l2 => by
    rw [merge]
    split
    · exact ((merge_perm cmp (a :: l1) l2).cons b).trans List.perm_middle.symm
    · exact (merge_perm cmp l1 (b :: l2)).cons a
termination_by l1 l2 => l1.length + l2.length

theorem merge_sorted {α : Type} {cmp : α → α → Int} (h : IsSWO cmp) :
    ∀ l1 l2 : List α, SortedLe cmp l1 → SortedLe cmp l2 →
      SortedLe cmp (merge cmp l1 l2)
  | l1, [] => fun h1 _ => by simpa [merge] using h1
  | [], l2 => fun _ h2 => by
    cases l2 with
    | nil => simp [merge]
    | cons b l2 => simpa [merge] using h2
  | a :: l1, b :: l2 => fun h1 h2 => by
    rw [SortedLe, List.pairwise_cons] at h1 h2
    rw [merge]
    split
    · rename_i hab
      rw [SortedLe, List.pairwise_cons]
      refine ⟨?_, merge_sorted h (a :: l1) l2 (List.pairwise_cons.mpr h1) h2.2⟩
      intro x hx
      rw [(merge_perm cmp (a :: l1) l2).mem_iff] at hx
      have hba : cmp b a ≤ 0 := h.le_of_ge a b hab
      rcases List.mem_append.mp hx with hx1 | hx2
      · rcases List.mem_cons.mp hx1 with rfl | hx1
        · exact hba
        · exact h.le_trans b a x hba (h1.1 x hx1)
      · exact h2.1 x hx2
    · rename_i hab
      rw [SortedLe, List.pairwise_cons]
      refine ⟨?_, merge_sorted h l1 (b :: l2) h1.2 (List.pairwise_cons.mpr h2)⟩
      intro x hx
      rw [(merge_perm cmp l1 (b :: l2)).mem_iff] at hx
      have hab' : cmp a b ≤ 0 := by omega
      rcases List.mem_append.mp hx with hx1 | hx2
      · exact h1.1 x hx1
      · rcases List.mem_cons.mp hx2 with rfl | hx2
        · exact hab'
        · exact h.le_trans a b x hab' (h2.1 x hx2)
termination_by l1 l2 => l1.length + l2.length

/-- C5: `merge` on two `cmp`-sorted inputs produces a permutation of the
concatenation of the inputs that is again `cmp`-sorted. -/
theorem merge_correct {α : Type} (cmp : α → α → Int) (h : IsSWO cmp)
    (l1 l2 : List α) (h1 : SortedLe cmp l1) (h2 : SortedLe cmp l2) :
    List.Perm (merge cmp l1 l2) (l1 ++ l2) ∧ SortedLe cmp (merge cmp l1 l2) :=
  ⟨merge_perm cmp l1 l2, merge_sorted h l1 l2 h1 h2⟩

/-- Witness for C5, including the concrete example of the spec:
merge([1,1,3,4], [-1,1,2,3,4,5]) = [-1,1,1,1,2,3,3,4,4,5]. -/
theorem merge_correct_witness :
    (List.Perm (merge intCmp [1, 1, 3, 4] [-1, 1, 2, 3, 4, 5])
        ([1, 1, 3, 4] ++ [-1, 1, 2, 3, 4, 5]) ∧
      SortedLe intCmp (merge intCmp [1, 1, 3, 4] [-1, 1, 2, 3, 4, 5])) ∧
    merge intCmp [1, 1, 3, 4] [-1, 1, 2, 3, 4, 5] = [-1, 1, 1, 1, 2, 3, 3, 4, 4, 5] :=
  ⟨merge_correct intCmp intCmp_isSWO [1, 1, 3, 4] [-1, 1, 2, 3, 4, 5]
      (by decide) (by decide),
    by norm_num [merge, intCmp]⟩

/-- C3 counterexample: with tagged pairs whose comparator sees only the key,
`set_union` on tying heads emits the FIRST range's element, not the second's:
set_union([(1,10)], [(1,20)]) = [(1,10)], although the claim requires (1,20). -/
theorem set_union_tie_counterexample :
    set_union pairCmp [((1 : Int), (10 : Int))] [((1 : Int), (20 : Int))] =
        [((1 : Int), (10 : Int))] ∧
    pairCmp (1, 10) (1, 20) = 0 ∧
    ((1 : Int), (10 : Int)) ≠ ((1 : Int), (20 : Int)) := by
  refine ⟨by norm_num [set_union, pairCmp, intCmp], by norm_num [pairCmp, intCmp], by decide⟩

/-- C3 amended: whenever the heads of the two ranges compare equal, `set_union`
emits the FIRST range's element and advances both ranges — unlike `merge`,
which on a tie takes the element of the second range. -/
theorem set_union_tie_takes_first {α : Type} (cmp : α → α → Int) (a b : α)
    (l1 l2 : List α) (h : cmp a b = 0) :
    set_union cmp (a :: l1) (b :: l2) = a :: set_union cmp l1 l2 ∧
    merge cmp (a :: l1) (b :: l2) = b :: merge cmp (a :: l1) l2 := by
  constructor
  · rw [set_union]
    simp [h]
  · rw [merge]
    simp [h]

/-- Witness for the amended C3 at a concrete tie. -/
theorem set_union_tie_takes_first_witness :
    set_union pairCmp [((1 : Int), (10 : Int))] [((1 : Int), (20 : Int))] =
        ((1 : Int), (10 : Int)) :: set_union pairCmp [] [] ∧
    merge pairCmp [((1 : Int), (10 : Int))] [((1 : Int), (20 : Int))] =
        ((1 : Int), (20 : Int)) :: merge pairCmp [((1 : Int), (10 : Int))] [] :=
  set_union_tie_takes_first pairCmp (1, 10) (1, 20) [] [] (by norm_num [pairCmp, intCmp])

/-- `partition_point_n` (array_alg.h:1544-1563): binary subdivision over a
monotonic predicate.  `first` is the pointer into the array `l`, `n` the
remaining span; the midpoint read is modelled with `l[i]?` so that an
out-of-range access yields `none`. -/
def partition_point_n {α : Type} (l : List α) (first n : Nat)
    (predicate : α → Bool) : Option Nat :=
  if h : n = 0 then some first
  else
    let half := n / 2
    match l[first + half]? with
    | none => none
    | some middle =>
      if predicate middle then
        partition_point_n l (first + half + 1) (n - (half + 1)) predicate
      else
        partition_point_n l first half predicate
termination_by n
decreasing_by
· omega
· omega

/-- `partition_point` (array_alg.h:1565-1572): the whole-range entry point. -/
def partition_point {α : Type} (l : List α) (predicate : α → Bool) : Option Nat :=
  partition_point_n l 0 l.length predicate

theorem partition_point_n_in_range {α : Type} (predicate : α → Bool) (l : List α) :
    ∀ n first, first + n ≤ l.length →
      ∃ p, partition_point_n l first n predicate = some p ∧
        first ≤ p ∧ p ≤ first + n := by
  intro n
  induction n using Nat.strong_induction_on with
  | _ n ih =>
    intro first hrange
    rw [partition_point_n]
    by_cases h0 : n = 0
    · exact ⟨first, by simp [h0], Nat.le_refl first, by omega⟩
    · simp only [h0, dite_false]
      have hmid : first + n / 2 < l.length := by omega
      rw [List.getElem?_eq_getElem hmid]
      by_cases hp : predicate l[first + n / 2]
      · simp only [hp, if_true]
        obtain ⟨p, heq, hp1, hp2⟩ :=
          ih (n - (n / 2 + 1)) (by omega) (first + n / 2 + 1) (by omega)
        exact ⟨p, heq, by omega, by omega⟩
      · simp only [hp, if_false]
        obtain ⟨p, heq, hp1, hp2⟩ := ih (n / 2) (by omega) first (by omega)
        exact ⟨p, heq, by omega, by omega⟩

theorem partition_point_n_boundary {α : Type} (predicate : α → Bool)
    (l1 l2 : List α)
    (h1 : ∀ x ∈ l1, predicate x = true) (h2 : ∀ x ∈ l2, predicate x = false) :
    ∀ n first, first + n ≤ l1.length + l2.length →
      first ≤ l1.length → l1.length ≤ first + n →
      partition_point_n (l1 ++ l2) first n predicate = some l1.length := by
  intro n
  induction n using Nat.strong_induction_on with
  | _ n ih =>
    intro first hrange hlo hhi
    rw [partition_point_n]
    by_cases h0 : n = 0
    · simp only [h0, dite_true]
      congr 1
      omega
    · simp only [h0, dite_false]
      have hmid : first + n / 2 < (l1 ++ l2).length := by
        simp [List.length_append]; omega
      rw [List.getElem?_eq_getElem hmid]
      by_cases hcase : first + n / 2 < l1.length
      · have hval : (l1 ++ l2)[first + n / 2] = l1[first + n / 2] := by
          rw [List.getElem_append_left hcase]
        have hpred : predicate ((l1 ++ l2)[first + n / 2]) = true := by
          rw [hval]
          exact h1 _ (List.getElem_mem hcase)
        simp only [hpred, if_true]
        exact ih (n - (n / 2 + 1)) (by omega) (first + n / 2 + 1) (by omega)
          (by omega) (by omega)
      · have hge : l1.length ≤ first + n / 2 := by omega
        have hlt2 : first + n / 2 - l1.length < l2.length := by
          have := List.length_append l1 l2
          omega
        have hval : (l1 ++ l2)[first + n / 2] = l2[first + n / 2 - l1.length] := by
          rw [List.getElem_append_right hge]
        have hpred : predicate ((l1 ++ l2)[first + n / 2]) = false := by
          rw [hval]
          exact h2 _ (List.getElem_mem hlt2)
        simp only [hpred, if_false, Bool.false_eq_true]
        exact ih (n / 2) (by omega) first (by omega) (by omega) (by omega)

/-- C9: `partition_point` never returns a position outside `[first, last)`'s
closure for ANY predicate, and for a predicate that is true exactly on a
prefix it returns exactly that boundary. -/
theorem partition_point_correct {α : Type} (predicate : α → Bool) :
    (∀ l : List α, ∃ p, partition_point l predicate = some p ∧ p ≤ l.length) ∧
    (∀ l1 l2 : List α, (∀ x ∈ l1, predicate x = true) →
      (∀ x ∈ l2, predicate x = false) →
      partition_point (l1 ++ l2) predicate = some l1.length) := by
  constructor
  · intro l
    obtain ⟨p, heq, _, hp⟩ :=
      partition_point_n_in_range predicate l l.length 0 (by omega)
    exact ⟨p, heq, by omega⟩
  · intro l1 l2 h1 h2
    have := partition_point_n_boundary predicate l1 l2 h1 h2
      (l1 ++ l2).length 0 (by simp) (by simp) (by simp [List.length_append])
    simpa [partition_point] using this

/-- Witness for C9: a non-monotonic predicate still yields an in-range
boundary, and a monotonic split is located exactly. -/
theorem partition_point_correct_witness :
    (∃ p, partition_point [(5 : Int), 0, 7] (fun x => decide (x ≤ 2)) = some p ∧
      p ≤ ([(5 : Int), 0, 7] : List Int).length) ∧
    partition_point ([(0 : Int), 1] ++ [5]) (fun x => decide (x ≤ 2)) =
      some ([(0 : Int), 1] : List Int).length :=
  ⟨(partition_point_correct (fun x : Int => decide (x ≤ 2))).1 [5, 0, 7],
    (partition_point_correct (fun x : Int => decide (x ≤ 2))).2 [0, 1] [5]
      (by decide) (by decide)⟩

/-- `swap` (array_alg.h:1021-1025) applied to positions `i` and `j` of the
array: `temp = *a; *a = *b; *b = temp`.  `none` when either pointer is out of
range. -/
def swap {α : Type} (l : List α) (i j : Nat) : Option (List α) :=
  match l[i]?, l[j]? with
  | some a, some b => some ((l.set i b).set j a)
  | _, _ => none

theorem set_getElem_id {α : Type} (l : List α) (i : Nat) (h : i < l.length) :
    l.set i l[i] = l := by
  apply List.ext_getElem
  · simp
  · intro n h1 h2
    rw [List.getElem_set]
    split
    · simp_all
    · rfl

theorem swap_eq {α : Type} (l : List α) (i j : Nat)
    (hi : i < l.length) (hj : j < l.length) :
    swap l i j = some ((l.set i l[j]).set j l[i]) := by
  rw [swap, List.getElem?_eq_getElem hi, List.getElem?_eq_getElem hj]

theorem swap_isSome {α : Type} {l l' : List α} {i j : Nat}
    (h : swap l i j = some l') :
    i < l.length ∧ j < l.length := by
  rw [swap] at h
  rcases hi : l[i]? with _ | a <;> rcases hj : l[j]? with _ | b <;>
    simp [hi, hj] at h
  exact ⟨(List.getElem?_eq_some.mp hi).1, (List.getElem?_eq_some.mp hj).1⟩

theorem swap_val {α : Type} {l l' : List α} {i j : Nat}
    (h : swap l i j = some l') :
    ∃ hi : i < l.length, ∃ hj : j < l.length,
      l' = (l.set i l[j]).set j l[i] := by
  obtain ⟨hi, hj⟩ := swap_isSome h
  rw [swap_eq l i j hi hj] at h
  exact ⟨hi, hj, (Option.some_inj.mp h).symm⟩

theorem cons_get_set_perm {α : Type} :
    ∀ (t : List α) (k : Nat) (hk : k < t.length) (x : α),
      List.Perm (t[k] :: t.set k x) (x :: t)
  | a :: t, 0, _, x => List.Perm.swap x a t
  | a :: t, k + 1, hk, x => by
    have hk' : k < t.length := by simpa using hk
    have ih := cons_get_set_perm t k hk' x
    have e1 : (a :: t)[k + 1] :: (a :: t).set (k + 1) x = t[k] :: a :: t.set k x := by
      simp
    rw [e1]
    exact ((List.Perm.swap a t[k] (t.set k x)).trans (ih.cons a)).trans
      (List.Perm.swap x a t)

theorem set_set_swap_perm {α : Type} :
    ∀ (l : List α) (i j : Nat), i < j → (hj : j < l.length) →
      ∀ (hi : i < l.length), List.Perm ((l.set i l[j]).set j l[i]) l
  | a :: t, 0, j + 1, _, hj, hi => by
    have hj' : j < t.length := by simpa using hj
    have e1 : ((a :: t).set 0 (a :: t)[j + 1]).set (j + 1) (a :: t)[0] =
        t[j] :: t.set j a := by simp
    rw [e1]
    exact cons_get_set_perm t j hj' a
  | a :: t, i + 1, j + 1, hij, hj, hi => by
    have hj' : j < t.length := by simpa using hj
    have hi' : i < t.length := by simpa using hi
    have hij' : i < j := by omega
    have ih := set_set_swap_perm t i j hij' hj' hi'
    have e1 : ((a :: t).set (i + 1) (a :: t)[j + 1]).set (j + 1) (a :: t)[i + 1] =
        a :: ((t.set i t[j]).set j t[i]) := by simp
    rw [e1]
    exact ih.cons a

theorem swap_perm {α : Type} {l l' : List α} {i j : Nat}
    (h : swap l i j = some l') : List.Perm l' l := by
  obtain ⟨hi, hj, rfl⟩ := swap_val h
  rcases Nat.lt_trichotomy i j with hij | rfl | hij
  · exact set_set_swap_perm l i j hij hj hi
  · rw [set_getElem_id l i hi]
    rw [set_getElem_id l i hi]
  · rw [List.set_comm _ _ _ (by omega)]
    exact set_set_swap_perm l j i hij hi hj

theorem swap_length {α : Type} {l l' : List α} {i j : Nat}
    (h : swap l i j = some l') : l'.length = l.length :=
  (swap_perm h).length_eq

theorem swap_getElem {α : Type} {l l' : List α} {i j : Nat}
    (h : swap l i j = some l') (k : Nat) (hk : k < l.length)
    (hi : i < l.length) (hj : j < l.length) (hk2 : k < l'.length) :
    l'[k] =
      if k = j then l[i] else if k = i then l[j] else l[k] := by
  obtain ⟨_, _, rfl⟩ := swap_val h
  rcases eq_or_ne k j with rfl | hkj
  · rw [List.getElem_set_self, if_pos rfl]
  · rw [List.getElem_set_ne (by omega), if_neg hkj]
    rcases eq_or_ne k i with rfl | hki
    · rw [List.getElem_set_self, if_pos rfl]
    · rw [List.getElem_set_ne (by omega), if_neg hki]

/-- Loop of `is_heap_until` (array_alg.h:1764-1785).  `half` is the parent
cursor and `i` the child cursor (the C `first` after its initial increment);
each iteration checks the two children of `half`.  Reads are `l[..]?`, so the
out-of-range reads the C performs on an empty range yield `none`. -/
def is_heap_until_loop {α : Type} (cmp : α → α → Int) (l : List α)
    (half i : Nat) : Option Nat :=
  if i = l.length then some i
  else
    match l[half]?, l[i]? with
    | some a, some b =>
      if cmp a b < 0 then some i
      else
        if h1 : i + 1 = l.length then some (i + 1)
        else
          match h2 : l[i + 1]? with
          | some b2 =>
            if cmp a b2 < 0 then some (i + 1)
            else is_heap_until_loop cmp l (half + 1) (i + 2)
          | none => none
    | _, _ => none
termination_by l.length - i
decreasing_by
  have := (List.getElem?_eq_some.mp h2).1
  omega

/-- `is_heap_until` (array_alg.h:1764-1785) over the whole range `l`. -/
def is_heap_until {α : Type} (cmp : α → α → Int) (l : List α) : Option Nat :=
  is_heap_until_loop cmp l 0 1

/-- `is_heap` (array_alg.h:1788-1795): whether `is_heap_until` reaches `last`. -/
def is_heap {α : Type} (cmp : α → α → Int) (l : List α) : Option Bool :=
  (is_heap_until cmp l).map (fun p => decide (p = l.length))

/-- Sift-up loop of `push_heap_n` (array_alg.h:1797-1819). -/
def push_heap_loop {α : Type} (cmp : α → α → Int) (l : List α)
    (index : Nat) : Option (List α) :=
  if h0 : index = 0 then some l
  else
    let parent_index := (index - 1) / 2
    match l[index]?, l[parent_index]? with
    | some elem, some parent =>
      if cmp elem parent ≤ 0 then some l
      else
        match swap l index parent_index with
        | some l' => push_heap_loop cmp l' parent_index
        | none => none
    | _, _ => none
termination_by index
decreasing_by
  omega

/-- `push_heap_n` (array_alg.h:1797-1819). -/
def push_heap_n {α : Type} (cmp : α → α → Int) (l : List α)
    (count : Nat) : Option (List α) :=
  if count ≤ 1 then some l
  else push_heap_loop cmp l (count - 1)

/-- Sift-down loop of `pop_heap_n` (array_alg.h:1842-1867); `index` is the
position of `elem` at the top of each iteration of the C `while (1)` loop. -/
def pop_heap_sift {α : Type} (cmp : α → α → Int) (l : List α)
    (index count : Nat) : Option (List α) :=
  let ci := index * 2 + 1
  if hc : ci ≥ count then some l
  else
    match l[index]?, l[ci]? with
    | some elem, some child =>
      if cmp child elem > 0 then
        -- left child is larger; use the right child instead when it is larger
        if hr : ci + 1 < count then
          match l[ci + 1]? with
          | some child2 =>
            if cmp child2 child > 0 then
              match swap l index (ci + 1) with
              | some l' => pop_heap_sift cmp l' (ci + 1) count
              | none => none
            else
              match swap l index ci with
              | some l' => pop_heap_sift cmp l' ci count
              | none => none
          | none => none
        else
          match swap l index ci with
          | some l' => pop_heap_sift cmp l' ci count
          | none => none
      else
        if hr2 : ci + 1 ≥ count then some l
        else
          match l[ci + 1]? with
          | some child2 =>
            if cmp child2 elem ≤ 0 then some l
            else
              match swap l index (ci + 1) with
              | some l' => pop_heap_sift cmp l' (ci + 1) count
              | none => none
          | none => none
    | _, _ => none
termination_by count - index
decreasing_by
  all_goals omega

/-- `pop_heap_n` (array_alg.h:1830-1868): swap the root with the last active
element, then sift the new root down within the shrunk range. -/
def pop_heap_n {α : Type} (cmp : α → α → Int) (l : List α)
    (count : Nat) : Option (List α) :=
  if count ≤ 1 then some l
  else
    match swap l 0 (count - 1) with
    | some l' => pop_heap_sift cmp l' 0 (count - 1)
    | none => none

/-- Loop of `make_heap_n` (array_alg.h:1879-1888): `push_heap_n` over growing
prefixes `n = 2 .. count`. -/
def make_heap_go {α : Type} (cmp : α → α → Int) (l : List α)
    (n count : Nat) : Option (List α) :=
  if n > count then some l
  else
    match push_heap_n cmp l n with
    | some l' => make_heap_go cmp l' (n + 1) count
    | none => none
termination_by count + 1 - n

/-- `make_heap_n` (array_alg.h:1879-1888). -/
def make_heap_n {α : Type} (cmp : α → α → Int) (l : List α)
    (count : Nat) : Option (List α) :=
  make_heap_go cmp l 2 count

/-- `sort_heap` (array_alg.h:1899-1909) on the active range `[0, count)`:
pop and shrink until the range is exhausted. -/
def sort_heap_n {α : Type} (cmp : α → α → Int) (l : List α)
    (count : Nat) : Option (List α) :=
  if count = 0 then some l
  else
    match pop_heap_n cmp l count with
    | some l' => sort_heap_n cmp l' (count - 1)
    | none => none
termination_by count

/-- Scanning loop of `partial_sort` (array_alg.h:2107-2117): `p` walks from
`middle` to `last`; when `*p` beats the heap maximum, pop the heap, swap the
evicted maximum (now at `middle - 1`) with `*p`, and push.  The guard
`last < p` is unreachable from the entry point and models the C loop running
past `last`. -/
def partial_sort_loop {α : Type} (cmp : α → α → Int) (l : List α)
    (n p last : Nat) : Option (List α) :=
  if p = last then some l
  else if last < p then none
  else
    match l[p]?, l[0]? with
    | some vp, some v0 =>
      if cmp vp v0 < 0 then
        match pop_heap_n cmp l n with
        | some l1 =>
          match swap l1 (n - 1) p with
          | some l2 =>
            match push_heap_n cmp l2 n with
            | some l3 => partial_sort_loop cmp l3 n (p + 1) last
            | none => none
          | none => none
        | none => none
      else partial_sort_loop cmp l n (p + 1) last
    | _, _ => none
termination_by last - p

/-- `partial_sort` (array_alg.h:2093-2119) with `first = 0`: the range is the
whole of `l` and `middle` an index into it. -/
def partial_sort {α : Type} (cmp : α → α → Int) (l : List α)
    (middle : Nat) : Option (List α) :=
  let n := middle
  if n = 0 then some l
  else
    match make_heap_n cmp l n with
    | some l1 =>
      match partial_sort_loop cmp l1 n middle l.length with
      | some l2 => sort_heap_n cmp l2 middle
      | none => none
    | none => none

theorem push_heap_loop_perm {α : Type} (cmp : α → α → Int) (l : List α) (index : Nat) :
    ∀ l', push_heap_loop cmp l index = some l' → List.Perm l' l := by
  induction l, index using push_heap_loop.induct cmp
  all_goals intro l' h
  all_goals rw [push_heap_loop] at h
  all_goals simp_all
  all_goals try rw [if_neg (by omega)] at h
  all_goals try simp_all
  all_goals solve_by_elim [List.Perm.trans, swap_perm, List.Perm.refl]

theorem push_heap_n_perm {α : Type} (cmp : α → α → Int) (l : List α) (count : Nat) :
    ∀ l', push_heap_n cmp l count = some l' → List.Perm l' l := by
  intro l' h
  rw [push_heap_n] at h
  split at h
  · simp at h; subst h; exact List.Perm.refl _
  · exact push_heap_loop_perm cmp l (count - 1) l' h

theorem pop_heap_sift_perm {α : Type} (cmp : α → α → Int) (l : List α) (index count : Nat) :
    ∀ l', pop_heap_sift cmp l index count = some l' → List.Perm l' l := by
  induction l, index, count using pop_heap_sift.induct cmp
  all_goals intro l' h
  all_goals rw [pop_heap_sift] at h
  all_goals simp_all
  all_goals repeat rw [if_neg (by omega)] at h
  all_goals try (rw [List.getElem?_eq_none (by omega)] at h; simp_all)
  all_goals try simp_all
  all_goals solve_by_elim [List.Perm.trans, swap_perm, List.Perm.refl]

theorem pop_heap_n_perm {α : Type} (cmp : α → α → Int) (l : List α) (count : Nat) :
    ∀ l', pop_heap_n cmp l count = some l' → List.Perm l' l := by
  intro l' h
  rw [pop_heap_n] at h
  split at h
  · simp at h; subst h; exact List.Perm.refl _
  · split at h
    · exact (pop_heap_sift_perm cmp _ 0 (count - 1) l' h).trans
        (swap_perm (by assumption))
    · simp at h

theorem make_heap_go_perm {α : Type} (cmp : α → α → Int) (l : List α) (n count : Nat) :
    ∀ l', make_heap_go cmp l n count = some l' → List.Perm l' l := by
  induction l, n, count using make_heap_go.induct cmp
  all_goals intro l' h
  all_goals rw [make_heap_go] at h
  all_goals simp_all
  all_goals repeat rw [if_neg (by omega)] at h
  all_goals try simp_all
  all_goals solve_by_elim [List.Perm.trans, push_heap_n_perm, List.Perm.refl]

theorem make_heap_n_perm {α : Type} (cmp : α → α → Int) (l : List α) (count : Nat) :
    ∀ l', make_heap_n cmp l count = some l' → List.Perm l' l :=
  make_heap_go_perm cmp l 2 count

theorem sort_heap_n_perm {α : Type} (cmp : α → α → Int) (l : List α) (count : Nat) :
    ∀ l', sort_heap_n cmp l count = some l' → List.Perm l' l := by
  induction l, count using sort_heap_n.induct cmp
  all_goals intro l' h
  all_goals rw [sort_heap_n] at h
  all_goals simp_all
  all_goals repeat rw [if_neg (by omega)] at h
  all_goals try simp_all
  all_goals solve_by_elim [List.Perm.trans, pop_heap_n_perm, List.Perm.refl]

theorem partial_sort_loop_perm {α : Type} (cmp : α → α → Int) (l : List α)
    (n p last : Nat) :
    ∀ l', partial_sort_loop cmp l n p last = some l' → List.Perm l' l := by
  induction l, n, p, last using partial_sort_loop.induct cmp
  all_goals intro l' h
  all_goals rw [partial_sort_loop] at h
  all_goals simp_all
  all_goals repeat rw [if_neg (by omega)] at h
  all_goals try (rw [List.getElem?_eq_none (by omega)] at h; simp_all)
  all_goals try simp_all
  all_goals try solve_by_elim [List.Perm.trans, swap_perm, List.Perm.refl]
  all_goals rename_i hpop hswap hpush ih
  all_goals exact ((ih.trans (push_heap_n_perm cmp _ _ _ hpush)).trans
    (swap_perm hswap)).trans (pop_heap_n_perm cmp _ _ _ hpop)

/-- C10: `partial_sort` preserves the multiset of the whole range: every step
of the engine is a swap of two in-range positions, so nothing is lost or
duplicated — in the tail beyond `middle` as well as in the sorted window. -/
theorem partial_sort_preserves_multiset {α : Type} (cmp : α → α → Int)
    (l l' : List α) (middle : Nat)
    (h : partial_sort cmp l middle = some l') :
    List.Perm l' l ∧ (l' : Multiset α) = (l : Multiset α) := by
  have hperm : List.Perm l' l := by
    rw [partial_sort] at h
    split at h
    · simp at h; subst h; exact List.Perm.refl _
    · split at h
      · split at h
        · exact ((sort_heap_n_perm cmp _ middle l' h).trans
            (partial_sort_loop_perm cmp _ middle middle l.length _ (by assumption))).trans
            (make_heap_go_perm cmp l 2 middle _ (by assumption))
        · simp at h
      · simp at h
  exact ⟨hperm, Quot.sound hperm⟩

set_option maxRecDepth 8000 in
/-- Witness for C10: a concrete `partial_sort` run.
partial_sort([3,1,2,0], middle = 2) sorts the two smallest into the window. -/
theorem partial_sort_preserves_multiset_witness :
    List.Perm [(0 : Int), 1, 3, 2] [(3 : Int), 1, 2, 0] ∧
      (([0, 1, 3, 2] : List Int) : Multiset Int) =
        (([3, 1, 2, 0] : List Int) : Multiset Int) :=
  partial_sort_preserves_multiset intCmp [3, 1, 2, 0] [0, 1, 3, 2] 2
    (by simp [partial_sort, make_heap_n, make_heap_go, push_heap_n,
      push_heap_loop, partial_sort_loop, pop_heap_n, pop_heap_sift, swap,
      sort_heap_n, intCmp])

/-- The max-heap property over the active range `[0, count)`: every element
below the root compares `≤` its parent at `(i-1)/2` (spec §3 "Heap view"). -/
def HeapProp {α : Type} (cmp : α → α → Int) (l : List α) (count : Nat) : Prop :=
  ∀ i, 0 < i → i < count → ∀ x y,
    l[(i - 1) / 2]? = some x → l[i]? = some y → cmp x y ≥ 0

theorem heapProp_of_le_one {α : Type} (cmp : α → α → Int) (l : List α)
    {count : Nat} (h : count ≤ 1) : HeapProp cmp l count := by
  intro i h1 h2 x y hx hy
  omega

theorem is_heap_until_loop_of_heapProp {α : Type} (cmp : α → α → Int)
    (l : List α) (hp : HeapProp cmp l l.length) :
    ∀ fuel half i, l.length - i ≤ fuel → i = 2 * half + 1 → i ≤ l.length →
      is_heap_until_loop cmp l half i = some l.length := by
  intro fuel
  induction fuel with
  | zero =>
    intro half i hfuel hrel hle
    have h1 : i = l.length := by omega
    rw [is_heap_until_loop]
    simp [h1]
  | succ fuel ih =>
    intro half i hfuel hrel hle
    rw [is_heap_until_loop]
    by_cases h1 : i = l.length
    · simp [h1]
    · have hilt : i < l.length := by omega
      have hh : half < l.length := by omega
      have e1 : l[half]? = some l[half] := List.getElem?_eq_getElem hh
      have e2 : l[i]? = some l[i] := List.getElem?_eq_getElem hilt
      have hedge : cmp l[half] l[i] ≥ 0 := by
        refine hp i (by omega) hilt l[half] l[i] ?_ e2
        have hpar : (i - 1) / 2 = half := by omega
        rw [hpar, e1]
      rw [if_neg h1]
      simp only [e1, e2]
      rw [if_neg (by omega)]
      by_cases h2 : i + 1 = l.length
      · rw [dif_pos h2, h2]
      · have hi1 : i + 1 < l.length := by omega
        have e3 : l[i + 1]? = some l[i + 1] := List.getElem?_eq_getElem hi1
        have hedge2 : cmp l[half] l[i + 1] ≥ 0 := by
          refine hp (i + 1) (by omega) hi1 l[half] l[i + 1] ?_ e3
          have hpar : (i + 1 - 1) / 2 = half := by omega
          rw [hpar, e1]
        rw [dif_neg h2]
        split
        · rename_i b2 hb2
          rw [e3] at hb2
          obtain rfl := Option.some.inj hb2
          rw [if_neg (by omega)]
          exact ih (half + 1) (i + 2) (by omega) (by omega) (by omega)
        · rename_i hnone
          rw [e3] at hnone
          cases hnone

/-- On a nonempty array satisfying the heap property, the source's `is_heap`
returns true. -/
theorem is_heap_of_heapProp {α : Type} (cmp : α → α → Int) (l : List α)
    (hne : 1 ≤ l.length) (hp : HeapProp cmp l l.length) :
    is_heap cmp l = some true := by
  rw [is_heap, is_heap_until,
    is_heap_until_loop_of_heapProp cmp l hp l.length 0 1 (by omega) (by omega)
      (by omega)]
  simp

/-- Total read with an explicit default, used to state heap-shape invariants
over in-range indices. -/
def gd {α : Type} (d : α) (l : List α) (i : Nat) : α :=
  (l[i]?).getD d

theorem gd_eq_getElem {α : Type} (d : α) {l : List α} {i : Nat}
    (h : i < l.length) : gd d l i = l[i] := by
  rw [gd, List.getElem?_eq_getElem h]
  rfl

theorem gd_eq_default {α : Type} (d : α) {l : List α} {i : Nat}
    (h : l.length ≤ i) : gd d l i = d := by
  rw [gd, List.getElem?_eq_none h]
  rfl

theorem getElem?_eq_gd {α : Type} (d : α) {l : List α} {i : Nat}
    (h : i < l.length) : l[i]? = some (gd d l i) := by
  rw [gd_eq_getElem d h, List.getElem?_eq_getElem h]

theorem gd_of_swap {α : Type} (d : α) {l l' : List α} {i j : Nat}
    (h : swap l i j = some l') (m : Nat) :
    gd d l' m = if m = j then gd d l i else if m = i then gd d l j else gd d l m := by
  obtain ⟨hi, hj, hval⟩ := swap_val h
  have hlen : l'.length = l.length := swap_length h
  by_cases hm : m < l.length
  · rw [gd_eq_getElem d (by omega), swap_getElem h m hm hi hj (by omega)]
    rcases eq_or_ne m j with rfl | h1
    · rw [if_pos rfl, if_pos rfl, gd_eq_getElem d hi]
    · rw [if_neg h1, if_neg h1]
      rcases eq_or_ne m i with rfl | h2
      · rw [if_pos rfl, if_pos rfl, gd_eq_getElem d hj]
      · rw [if_neg h2, if_neg h2, gd_eq_getElem d hm]
  · rcases eq_or_ne m j with rfl | h1
    · omega
    · rcases eq_or_ne m i with rfl | h2
      · omega
      · rw [if_neg h1, if_neg h2, gd_eq_default d (by omega),
          gd_eq_default d (by omega)]

theorem heapProp_iff_gd {α : Type} (d : α) (cmp : α → α → Int) (l : List α)
    (count : Nat) (hlen : count ≤ l.length) :
    HeapProp cmp l count ↔
      ∀ i, 0 < i → i < count → cmp (gd d l ((i - 1) / 2)) (gd d l i) ≥ 0 := by
  constructor
  · intro hp i h1 h2
    exact hp i h1 h2 _ _ (getElem?_eq_gd d (by omega)) (getElem?_eq_gd d (by omega))
  · intro hp i h1 h2 x y hx hy
    rw [getElem?_eq_gd d (show (i - 1) / 2 < l.length by omega)] at hx
    rw [getElem?_eq_gd d (show i < l.length by omega)] at hy
    obtain rfl := Option.some.inj hx
    obtain rfl := Option.some.inj hy
    exact hp i h1 h2

theorem push_heap_loop_heapProp {α : Type} (d : α) {cmp : α → α → Int}
    (hswo : IsSWO cmp) (count : Nat) :
    ∀ (k : Nat) (l : List α), k < count → count ≤ l.length →
      (∀ i, 0 < i → i < count → i ≠ k →
        cmp (gd d l ((i - 1) / 2)) (gd d l i) ≥ 0) →
      (k ≠ 0 → ∀ j, j < count → (j - 1) / 2 = k →
        cmp (gd d l ((k - 1) / 2)) (gd d l j) ≥ 0) →
      ∀ l', push_heap_loop cmp l k = some l' →
        ∀ i, 0 < i → i < count → cmp (gd d l' ((i - 1) / 2)) (gd d l' i) ≥ 0 := by
  intro k
  induction k using Nat.strong_induction_on with
  | _ k ih =>
    intro l hk hlen inv1 inv2 l' hrun
    rw [push_heap_loop] at hrun
    by_cases h0 : k = 0
    · rw [dif_pos h0] at hrun
      obtain rfl := Option.some.inj hrun
      subst h0
      intro i h1 h2
      exact inv1 i h1 h2 (by omega)
    · rw [dif_neg h0] at hrun
      simp only [] at hrun
      have hklen : k < l.length := by omega
      have hpklen : (k - 1) / 2 < l.length := by omega
      split at hrun
      · rename_i elem parent h1 h2
        rw [getElem?_eq_gd d hklen] at h1
        rw [getElem?_eq_gd d hpklen] at h2
        obtain rfl := Option.some.inj h1
        obtain rfl := Option.some.inj h2
        by_cases hle : cmp (gd d l k) (gd d l ((k - 1) / 2)) ≤ 0
        · rw [if_pos hle] at hrun
          obtain rfl := Option.some.inj hrun
          intro i h1 h2
          rcases eq_or_ne i k with rfl | hne
          · exact hswo.ge_of_le _ _ hle
          · exact inv1 i h1 h2 hne
        · rw [if_neg hle] at hrun
          have hgt : cmp (gd d l k) (gd d l ((k - 1) / 2)) > 0 := by omega
          split at hrun
          · rename_i l1 hs
            have hlen1 : l1.length = l.length := swap_length hs
            have hgd1 := gd_of_swap d hs
            have hpk0 : (k - 1) / 2 < k := by omega
            refine ih ((k - 1) / 2) hpk0 l1 (by omega) (by omega) ?_ ?_ l' hrun
            · -- heap edges away from the new cursor, after the swap
              intro i h1 h2 hne
              by_cases hik : i = k
              · rw [hgd1 i, if_neg (by omega), if_pos hik]
                have hpi : (i - 1) / 2 = (k - 1) / 2 := by omega
                rw [hpi, hgd1 ((k - 1) / 2), if_pos rfl]
                omega
              · have hgi : gd d l1 i = gd d l i := by
                  rw [hgd1 i, if_neg hne, if_neg hik]
                rcases eq_or_ne ((i - 1) / 2) ((k - 1) / 2) with hpp | hpp
                · rw [hgi, hpp, hgd1 ((k - 1) / 2), if_pos rfl]
                  refine hswo.ge_of_gt_of_ge _ _ _ hgt ?_
                  have hold := inv1 i h1 h2 hik
                  rwa [hpp] at hold
                · rcases eq_or_ne ((i - 1) / 2) k with hpk2 | hpk2
                  · rw [hgi, hpk2, hgd1 k, if_neg (by omega), if_pos rfl]
                    exact inv2 h0 i h2 hpk2
                  · rw [hgi, hgd1 ((i - 1) / 2), if_neg hpp, if_neg hpk2]
                    exact inv1 i h1 h2 hik
            · -- the grandparent still dominates the new cursor's children
              intro hpkne j hj hpar
              have hgpg : gd d l1 ((((k - 1) / 2) - 1) / 2) =
                  gd d l ((((k - 1) / 2) - 1) / 2) := by
                rw [hgd1, if_neg (by omega), if_neg (by omega)]
              by_cases hjk : j = k
              · rw [hgpg, hgd1 j, if_neg (by omega), if_pos hjk]
                exact inv1 ((k - 1) / 2) (by omega) (by omega) (by omega)
              · have hjpk : j ≠ (k - 1) / 2 := by omega
                rw [hgpg, hgd1 j, if_neg hjpk, if_neg hjk]
                refine hswo.ge_trans _ _ _
                  (inv1 ((k - 1) / 2) (by omega) (by omega) (by omega)) ?_
                have hold := inv1 j (by omega) hj hjk
                rwa [hpar] at hold
          · rename_i hs
            rw [swap_eq l k ((k - 1) / 2) hklen hpklen] at hs
            exact Option.noConfusion hs
      · exact Option.noConfusion hrun

theorem push_heap_n_heapProp {α : Type} {cmp : α → α → Int} (hswo : IsSWO cmp)
    (l : List α) (count : Nat) (hc : count ≤ l.length)
    (hp : HeapProp cmp l (count - 1)) :
    ∀ l', push_heap_n cmp l count = some l' → HeapProp cmp l' count := by
  intro l' hrun
  rw [push_heap_n] at hrun
  by_cases h1 : count ≤ 1
  · rw [if_pos h1] at hrun
    obtain rfl := Option.some.inj hrun
    exact heapProp_of_le_one cmp l h1
  · rw [if_neg h1] at hrun
    have hne : l ≠ [] := by
      intro heq
      rw [heq] at hc
      simp at hc
      omega
    set d := l.head hne with hd
    have hlen' : l'.length = l.length := (push_heap_loop_perm cmp l _ l' hrun).length_eq
    rw [heapProp_iff_gd d cmp l' count (by omega)]
    refine push_heap_loop_heapProp d hswo count (count - 1) l (by omega) hc ?_ ?_ l' hrun
    · intro i hi1 hi2 hi3
      exact (heapProp_iff_gd d cmp l (count - 1) (by omega)).mp hp i hi1 (by omega)
    · intro hk0 j hj hpar
      omega

theorem heapProp_of_no_cursor {α : Type} (d : α) {cmp : α → α → Int}
    {l : List α} {count k : Nat}
    (inv1 : ∀ i, 0 < i → i < count → (i - 1) / 2 ≠ k →
      cmp (gd d l ((i - 1) / 2)) (gd d l i) ≥ 0)
    (hch : ∀ i, 0 < i → i < count → (i - 1) / 2 = k →
      cmp (gd d l ((i - 1) / 2)) (gd d l i) ≥ 0) :
    ∀ i, 0 < i → i < count → cmp (gd d l ((i - 1) / 2)) (gd d l i) ≥ 0 := by
  intro i h1 h2
  by_cases hp : (i - 1) / 2 = k
  · exact hch i h1 h2 hp
  · exact inv1 i h1 h2 hp

/-- After swapping the sift-down cursor `k` with its winning child `t`, the
sift-down invariants hold at cursor `t`. -/
theorem sift_down_swap_inv {α : Type} (d : α) {cmp : α → α → Int}
    {l l1 : List α} {count k t : Nat}
    (ht : t < count) (ht0 : 0 < t)
    (hchild : (t - 1) / 2 = k)
    (hs : swap l k t = some l1)
    (hw : cmp (gd d l t) (gd d l k) > 0)
    (hsib : ∀ s, 0 < s → s < count → (s - 1) / 2 = k → s ≠ t →
      cmp (gd d l t) (gd d l s) ≥ 0)
    (inv1 : ∀ i, 0 < i → i < count → (i - 1) / 2 ≠ k →
      cmp (gd d l ((i - 1) / 2)) (gd d l i) ≥ 0)
    (inv2 : k ≠ 0 → ∀ j, j < count → (j - 1) / 2 = k →
      cmp (gd d l ((k - 1) / 2)) (gd d l j) ≥ 0) :
    (∀ i, 0 < i → i < count → (i - 1) / 2 ≠ t →
      cmp (gd d l1 ((i - 1) / 2)) (gd d l1 i) ≥ 0) ∧
    (t ≠ 0 → ∀ j, j < count → (j - 1) / 2 = t →
      cmp (gd d l1 ((t - 1) / 2)) (gd d l1 j) ≥ 0) := by
  have hkt : k < t := by omega
  have hgd1 := gd_of_swap d hs
  constructor
  · intro i h1 h2 hpi
    by_cases hit : i = t
    · -- edge (t, k): the winner moved up
      rw [hgd1 i, if_pos hit]
      rw [show (i - 1) / 2 = k by omega, hgd1 k, if_neg (by omega), if_pos rfl]
      omega
    · by_cases hik : i = k
      · -- edge (k, parent k): the winner is dominated by the old parent of k
        have hk0 : k ≠ 0 := by omega
        rw [hgd1 i, if_neg hit, if_pos hik]
        rw [show (i - 1) / 2 = (k - 1) / 2 by omega, hgd1 ((k - 1) / 2),
          if_neg (by omega), if_neg (by omega)]
        exact inv2 hk0 t ht hchild
      · have hgi : gd d l1 i = gd d l i := by
          rw [hgd1 i, if_neg hit, if_neg hik]
        by_cases hpik : (i - 1) / 2 = k
        · -- sibling of t under k: dominated by the winner
          rw [hgi, hpik, hgd1 k, if_neg (by omega), if_pos rfl]
          exact hsib i h1 h2 hpik hit
        · -- untouched edge
          rw [hgi, hgd1 ((i - 1) / 2), if_neg hpi, if_neg hpik]
          exact inv1 i h1 h2 hpik
  · intro ht0 j hj hpar
    have hj0 : 0 < j := by omega
    have hjk : j ≠ k := by omega
    have hjt : j ≠ t := by omega
    rw [show (t - 1) / 2 = k from hchild, hgd1 k, if_neg (by omega),
      if_pos rfl, hgd1 j, if_neg hjt, if_neg hjk]
    have hold := inv1 j hj0 hj (by omega)
    rwa [hpar] at hold


theorem pop_heap_sift_heapProp {α : Type} (d : α) {cmp : α → α → Int}
    (hswo : IsSWO cmp) (count : Nat) :
    ∀ (fuel : Nat) (k : Nat) (l : List α), count - k ≤ fuel → k < count →
      count ≤ l.length →
      (∀ i, 0 < i → i < count → (i - 1) / 2 ≠ k →
        cmp (gd d l ((i - 1) / 2)) (gd d l i) ≥ 0) →
      (k ≠ 0 → ∀ j, j < count → (j - 1) / 2 = k →
        cmp (gd d l ((k - 1) / 2)) (gd d l j) ≥ 0) →
      ∀ l', pop_heap_sift cmp l k count = some l' →
        ∀ i, 0 < i → i < count → cmp (gd d l' ((i - 1) / 2)) (gd d l' i) ≥ 0 := by
  intro fuel
  induction fuel with
  | zero =>
    intro k l hf hk
    omega
  | succ fuel ih =>
    intro k l hf hk hcl inv1 inv2 l' hrun
    rw [pop_heap_sift] at hrun
    by_cases hc : k * 2 + 1 ≥ count
    · rw [dif_pos hc] at hrun
      obtain rfl := Option.some.inj hrun
      refine heapProp_of_no_cursor d inv1 ?_
      intro i h1 h2 hpar
      omega
    · rw [dif_neg hc] at hrun
      have hklen : k < l.length := by omega
      have hcilen : k * 2 + 1 < l.length := by omega
      split at hrun
      · rename_i elem child hek hec
        rw [getElem?_eq_gd d hklen] at hek
        rw [getElem?_eq_gd d hcilen] at hec
        obtain rfl := Option.some.inj hek
        obtain rfl := Option.some.inj hec
        by_cases hgt : cmp (gd d l (k * 2 + 1)) (gd d l k) > 0
        · rw [if_pos hgt] at hrun
          by_cases hr : k * 2 + 1 + 1 < count
          · rw [dif_pos hr] at hrun
            have hci1len : k * 2 + 1 + 1 < l.length := by omega
            split at hrun
            · rename_i child2 heq2
              rw [getElem?_eq_gd d hci1len] at heq2
              obtain rfl := Option.some.inj heq2
              by_cases hgt2 : cmp (gd d l (k * 2 + 1 + 1)) (gd d l (k * 2 + 1)) > 0
              · rw [if_pos hgt2] at hrun
                split at hrun
                · rename_i l1 hs
                  have hinv := sift_down_swap_inv d (t := k * 2 + 1 + 1) hr
                    (by omega) (by omega) hs
                    (hswo.gt_of_gt_of_gt _ _ _ hgt2 hgt)
                    (fun s hs0 hsc hsp hst => by
                      have hseq : s = k * 2 + 1 := by omega
                      rw [hseq]
                      omega)
                    inv1 inv2
                  refine ih (k * 2 + 1 + 1) l1 (by omega) hr
                    (by rw [swap_length hs]; exact hcl) hinv.1 hinv.2 l' hrun
                · rename_i hs
                  rw [swap_eq l k (k * 2 + 1 + 1) hklen hci1len] at hs
                  exact Option.noConfusion hs
              · rw [if_neg hgt2] at hrun
                split at hrun
                · rename_i l1 hs
                  have hinv := sift_down_swap_inv d (t := k * 2 + 1)
                    (by omega) (by omega) (by omega) hs hgt
                    (fun s hs0 hsc hsp hst => by
                      have hseq : s = k * 2 + 1 + 1 := by omega
                      rw [hseq]
                      exact hswo.ge_of_le _ _ (by omega))
                    inv1 inv2
                  refine ih (k * 2 + 1) l1 (by omega) (by omega)
                    (by rw [swap_length hs]; exact hcl) hinv.1 hinv.2 l' hrun
                · rename_i hs
                  rw [swap_eq l k (k * 2 + 1) hklen hcilen] at hs
                  exact Option.noConfusion hs
            · rename_i heq2
              rw [getElem?_eq_gd d hci1len] at heq2
              exact Option.noConfusion heq2
          · rw [dif_neg hr] at hrun
            split at hrun
            · rename_i l1 hs
              have hinv := sift_down_swap_inv d (t := k * 2 + 1)
                (by omega) (by omega) (by omega) hs hgt
                (fun s hs0 hsc hsp hst => by omega)
                inv1 inv2
              refine ih (k * 2 + 1) l1 (by omega) (by omega)
                (by rw [swap_length hs]; exact hcl) hinv.1 hinv.2 l' hrun
            · rename_i hs
              rw [swap_eq l k (k * 2 + 1) hklen hcilen] at hs
              exact Option.noConfusion hs
        · rw [if_neg hgt] at hrun
          by_cases hr2 : k * 2 + 1 + 1 ≥ count
          · rw [dif_pos hr2] at hrun
            obtain rfl := Option.some.inj hrun
            refine heapProp_of_no_cursor d inv1 ?_
            intro i h1 h2 hpar
            have hieq : i = k * 2 + 1 := by omega
            rw [hpar, hieq]
            exact hswo.ge_of_le _ _ (by omega)
          · rw [dif_neg hr2] at hrun
            have hci1len : k * 2 + 1 + 1 < l.length := by omega
            split at hrun
            · rename_i child2 heq2
              rw [getElem?_eq_gd d hci1len] at heq2
              obtain rfl := Option.some.inj heq2
              by_cases hle2 : cmp (gd d l (k * 2 + 1 + 1)) (gd d l k) ≤ 0
              · rw [if_pos hle2] at hrun
                obtain rfl := Option.some.inj hrun
                refine heapProp_of_no_cursor d inv1 ?_
                intro i h1 h2 hpar
                rw [hpar]
                rcases show i = k * 2 + 1 ∨ i = k * 2 + 1 + 1 by omega with hieq | hieq
                · rw [hieq]
                  exact hswo.ge_of_le _ _ (by omega)
                · rw [hieq]
                  exact hswo.ge_of_le _ _ hle2
              · rw [if_neg hle2] at hrun
                split at hrun
                · rename_i l1 hs
                  have hinv := sift_down_swap_inv d (t := k * 2 + 1 + 1)
                    (by omega) (by omega) (by omega) hs (by omega)
                    (fun s hs0 hsc hsp hst => by
                      have hseq : s = k * 2 + 1 := by omega
                      rw [hseq]
                      exact hswo.ge_of_gt_of_ge _ (gd d l k) _ (by omega)
                        (hswo.ge_of_le _ _ (by omega)))
                    inv1 inv2
                  refine ih (k * 2 + 1 + 1) l1 (by omega) (by omega)
                    (by rw [swap_length hs]; exact hcl) hinv.1 hinv.2 l' hrun
                · rename_i hs
                  rw [swap_eq l k (k * 2 + 1 + 1) hklen hci1len] at hs
                  exact Option.noConfusion hs
            · rename_i heq2
              rw [getElem?_eq_gd d hci1len] at heq2
              exact Option.noConfusion heq2
      · exact Option.noConfusion hrun


theorem pop_heap_n_heapProp {α : Type} {cmp : α → α → Int} (hswo : IsSWO cmp)
    (l : List α) (count : Nat) (hc : count ≤ l.length)
    (hp : HeapProp cmp l count) :
    ∀ l', pop_heap_n cmp l count = some l' → HeapProp cmp l' (count - 1) := by
  intro l' hrun
  rw [pop_heap_n] at hrun
  by_cases h1 : count ≤ 1
  · rw [if_pos h1] at hrun
    obtain rfl := Option.some.inj hrun
    exact heapProp_of_le_one cmp l (by omega)
  · rw [if_neg h1] at hrun
    have hne : l ≠ [] := by
      intro heq
      rw [heq] at hc
      simp at hc
      omega
    set d := l.head hne with hd
    split at hrun
    · rename_i l1 hs
      have hlen1 : l1.length = l.length := swap_length hs
      have hgd1 := gd_of_swap d hs
      have hgd := (heapProp_iff_gd d cmp l count hc).mp hp
      have hlen' : l'.length = l.length := by
        rw [(pop_heap_sift_perm cmp l1 0 (count - 1) l' hrun).length_eq, hlen1]
      rw [heapProp_iff_gd d cmp l' (count - 1) (by omega)]
      refine pop_heap_sift_heapProp d hswo (count - 1) (count - 1) 0 l1 (by omega)
        (by omega) (by omega) ?_ ?_ l' hrun
      · intro i h1 h2 hpar
        have hine : i ≠ 0 := by omega
        have hime : i ≠ count - 1 := by omega
        have hpne : (i - 1) / 2 ≠ count - 1 := by omega
        rw [hgd1 i, if_neg hime, if_neg hine, hgd1 ((i - 1) / 2), if_neg hpne,
          if_neg hpar]
        exact hgd i (by omega) (by omega)
      · intro h0
        omega
    · rename_i hs
      rw [swap_eq l 0 (count - 1) (by omega) (by omega)] at hs
      exact Option.noConfusion hs

/-- A caller-driven heap operation on the active range: `push` appends the
next array slot to the range and calls `push_heap_n`; `pop` calls
`pop_heap_n` and shrinks the range by one (as `sort_heap` does). -/
inductive HeapOp : Type
  | push : HeapOp
  | pop : HeapOp

/-- Run a sequence of `push_heap_n`/`pop_heap_n` calls against an array and
an active count, mirroring how the engine's callers drive the heap. -/
def apply_heap_ops {α : Type} (cmp : α → α → Int) :
    List HeapOp → List α × Nat → Option (List α × Nat)
  | [], s => some s
  | HeapOp.push :: ops, (l, c) =>
    if c < l.length then
      match push_heap_n cmp l (c + 1) with
      | some l' => apply_heap_ops cmp ops (l', c + 1)
      | none => none
    else none
  | HeapOp.pop :: ops, (l, c) =>
    match pop_heap_n cmp l c with
    | some l' => apply_heap_ops cmp ops (l', c - 1)
    | none => none

theorem heapProp_take {α : Type} {cmp : α → α → Int} {l : List α} {c : Nat}
    (hc : c ≤ l.length) (hp : HeapProp cmp l c) :
    HeapProp cmp (l.take c) c := by
  intro i h1 h2 x y hx hy
  rw [List.getElem?_take_of_lt (by omega)] at hx
  rw [List.getElem?_take_of_lt (by omega)] at hy
  exact hp i h1 h2 x y hx hy

theorem apply_heap_ops_heapProp {α : Type} {cmp : α → α → Int}
    (hswo : IsSWO cmp) (ops : List HeapOp) :
    ∀ (l : List α) (c : Nat), c ≤ l.length → HeapProp cmp l c →
      ∀ l' c', apply_heap_ops cmp ops (l, c) = some (l', c') →
        HeapProp cmp l' c' ∧ c' ≤ l'.length := by
  induction ops with
  | nil =>
    intro l c hc hp l' c' hrun
    rw [apply_heap_ops] at hrun
    obtain ⟨rfl, rfl⟩ := Prod.mk.injEq .. ▸ Option.some.inj hrun
    exact ⟨hp, hc⟩
  | cons op ops ih =>
    intro l c hc hp l' c' hrun
    cases op with
    | push =>
      rw [apply_heap_ops] at hrun
      by_cases hcl : c < l.length
      · rw [if_pos hcl] at hrun
        split at hrun
        · rename_i l1 hpush
          have hlen1 : l1.length = l.length :=
            (push_heap_n_perm cmp l (c + 1) l1 hpush).length_eq
          refine ih l1 (c + 1) (by omega) ?_ l' c' hrun
          exact push_heap_n_heapProp hswo l (c + 1) (by omega)
            (by simpa using hp) l1 hpush
        · exact Option.noConfusion hrun
      · rw [if_neg hcl] at hrun
        exact Option.noConfusion hrun
    | pop =>
      rw [apply_heap_ops] at hrun
      split at hrun
      · rename_i l1 hpop
        have hlen1 : l1.length = l.length :=
          (pop_heap_n_perm cmp l c l1 hpop).length_eq
        refine ih l1 (c - 1) (by omega) ?_ l' c' hrun
        exact pop_heap_n_heapProp hswo l c hc hp l1 hpop
      · exact Option.noConfusion hrun

/-- C8: the max-heap property is an invariant of the heap engine.  Starting
from an active range [0, c) of `l` on which the heap shape holds (for a push,
the prefix excluding the newly appended last element is the heap), any
sequence of `push_heap_n`/`pop_heap_n` calls leaves the heap shape intact,
and the source's `is_heap` reports true on any nonempty resulting range. -/
theorem heap_ops_preserve_is_heap {α : Type} (cmp : α → α → Int)
    (hswo : IsSWO cmp) (ops : List HeapOp) (l : List α) (c : Nat)
    (hc : c ≤ l.length) (hheap : HeapProp cmp l c) (l' : List α) (c' : Nat)
    (hrun : apply_heap_ops cmp ops (l, c) = some (l', c')) :
    HeapProp cmp l' c' ∧
      (1 ≤ c' → is_heap cmp (l'.take c') = some true) := by
  obtain ⟨hp, hlen⟩ := apply_heap_ops_heapProp hswo ops l c hc hheap l' c' hrun
  refine ⟨hp, fun h1 => ?_⟩
  have htlen : (l'.take c').length = c' := by
    rw [List.length_take]
    omega
  exact is_heap_of_heapProp cmp (l'.take c') (by omega)
    (by rw [htlen]; exact heapProp_take hlen hp)

set_option maxRecDepth 8000 in
/-- Witness for C8: from the heap [5,3,4] inside [5,3,4,9], pushing the 9 and
popping twice leaves a two-element range satisfying `is_heap`. -/
theorem heap_ops_preserve_is_heap_witness :
    HeapProp intCmp [4, 3, 5, 9] 2 ∧
      (1 ≤ 2 → is_heap intCmp (([4, 3, 5, 9] : List Int).take 2) = some true) :=
  heap_ops_preserve_is_heap intCmp intCmp_isSWO
    [HeapOp.push, HeapOp.pop, HeapOp.pop] [5, 3, 4, 9] 3 (by simp)
    (by
      intro i h1 h2 x y hx hy
      interval_cases i <;> simp_all [intCmp] <;> subst hx <;> subst hy <;> decide)
    [4, 3, 5, 9] 2
    (by simp [apply_heap_ops, push_heap_n, push_heap_loop, pop_heap_n,
      pop_heap_sift, swap, intCmp])

/-- Checked store `*i = v`; the C write is out of range when `i` is past the
end of the array. -/
def writeA {α : Type} (l : List α) (i : Nat) (v : α) : Option (List α) :=
  if i < l.length then some (l.set i v) else none

/-- Upward scan of `_sort_partition` (array_alg.h:1969-1971):
`while (compare(first, &pivot, ctx) < 0) ++first;`.  The scan is unguarded;
running past the end of the array is `none`. -/
def sort_partition_scan_up {α : Type} (cmp : α → α → Int) (pivot : α)
    (l : List α) (i : Nat) : Option Nat :=
  match h : l[i]? with
  | none => none
  | some v =>
    if cmp v pivot < 0 then sort_partition_scan_up cmp pivot l (i + 1)
    else some i
termination_by l.length - i
decreasing_by
  have := (List.getElem?_eq_some.mp h).1
  omega

/-- Downward scan of `_sort_partition` (array_alg.h:1972-1974):
`while (compare(&pivot, last, ctx) < 0) --last;`.  Stepping below the start
of the array is `none`. -/
def sort_partition_scan_down {α : Type} (cmp : α → α → Int) (pivot : α)
    (l : List α) (j : Nat) : Option Nat :=
  match l[j]? with
  | none => none
  | some v =>
    if cmp pivot v < 0 then
      if h0 : j = 0 then none
      else sort_partition_scan_down cmp pivot l (j - 1)
    else some j
termination_by j

theorem sort_partition_scan_up_ge_aux {α : Type} (cmp : α → α → Int) (pivot : α)
    (l : List α) : ∀ fuel i i2, l.length - i ≤ fuel →
      sort_partition_scan_up cmp pivot l i = some i2 →
      i ≤ i2 ∧ i2 < l.length := by
  intro fuel
  induction fuel with
  | zero =>
    intro i i2 hf h
    rw [sort_partition_scan_up] at h
    split at h
    · exact Option.noConfusion h
    · rename_i v hv
      have hlen := (List.getElem?_eq_some.mp hv).1
      omega
  | succ fuel ih =>
    intro i i2 hf h
    rw [sort_partition_scan_up] at h
    split at h
    · exact Option.noConfusion h
    · rename_i v hv
      have hlen := (List.getElem?_eq_some.mp hv).1
      split at h
      · have := ih (i + 1) i2 (by omega) h
        omega
      · obtain rfl := Option.some.inj h
        omega

theorem sort_partition_scan_up_ge {α : Type} (cmp : α → α → Int) (pivot : α)
    (l : List α) (i i2 : Nat)
    (h : sort_partition_scan_up cmp pivot l i = some i2) :
    i ≤ i2 ∧ i2 < l.length :=
  sort_partition_scan_up_ge_aux cmp pivot l l.length i i2 (by omega) h

theorem sort_partition_scan_down_le {α : Type} (cmp : α → α → Int) (pivot : α)
    (l : List α) : ∀ j j2, sort_partition_scan_down cmp pivot l j = some j2 →
      j2 ≤ j ∧ j2 < l.length := by
  intro j
  induction j using Nat.strong_induction_on with
  | _ j ih =>
    intro j2 h
    rw [sort_partition_scan_down] at h
    split at h
    · exact Option.noConfusion h
    · rename_i v hv
      have hlen := (List.getElem?_eq_some.mp hv).1
      split at h
      · split at h
        · exact Option.noConfusion h
        · have := ih (j - 1) (by omega) j2 h
          omega
      · obtain rfl := Option.some.inj h
        omega

/-- Cursor-crossing loop of `_sort_partition` (array_alg.h:1968-1981).
`i` and `j` are the `first` and `last` cursors of the C `while (1)` loop. -/
def sort_partition_loop {α : Type} (cmp : α → α → Int) (pivot : α)
    (l : List α) (i j : Nat) : Option (List α × Nat) :=
  match hi : sort_partition_scan_up cmp pivot l i with
  | none => none
  | some i2 =>
    match hj : sort_partition_scan_down cmp pivot l j with
    | none => none
    | some j2 =>
      if i2 ≥ j2 then some (l, j2 + 1)
      else
        match swap l i2 j2 with
        | some l1 => sort_partition_loop cmp pivot l1 (i2 + 1) (j2 - 1)
        | none => none
termination_by j + 1 - i
decreasing_by
  have h1 := sort_partition_scan_up_ge cmp pivot l i i2 hi
  have h2 := sort_partition_scan_down_le cmp pivot l j j2 hj
  omega

/-- `_sort_partition` (array_alg.h:1954-1982) over `[first, last)` of `l`.
The pivot VALUE is copied out of the middle slot.  An empty span trips the
source's `assert(n != 0)` and, in a release build, underflows `n - 1`; both
are modelled as `none`. -/
def sort_partition {α : Type} (cmp : α → α → Int) (l : List α)
    (first last : Nat) : Option (List α × Nat) :=
  let n := last - first
  if n = 0 then none
  else
    match l[first + (n - 1) / 2]? with
    | none => none
    | some pivot => sort_partition_loop cmp pivot l first (last - 1)

/-- `_quick_sort_early_stop` (array_alg.h:1984-1999).  The C recursion/loop
terminates because the partition point falls strictly inside the span
whenever the comparator is a strict weak ordering; `fuel` pays for one loop
iteration or recursive call, and `sort` passes `l.length`, which the
quick-sort lemmas show is sufficient under that contract.  Running out of
fuel (possible only for a non-SWO comparator, where the C loops forever)
is `none`. -/
def quick_sort_early_stop {α : Type} (cmp : α → α → Int) (fuel : Nat)
    (l : List α) (first last : Nat) : Option (List α × Nat) :=
  if last - first > 32 then
    match fuel with
    | 0 => none
    | fuel + 1 =>
      match sort_partition cmp l first last with
      | none => none
      | some (l1, p) =>
        match quick_sort_early_stop cmp fuel l1 p last with
        | none => none
        | some (l2, _) => quick_sort_early_stop cmp fuel l2 first p
  else some (l, last)

/-- Loop of `min_element` (array_alg.h:1400-1405); `best` is the current
minimum's index.  The `last < i` guard is unreachable from the entry point
and models the C loop running past `last`. -/
def min_element_loop {α : Type} (cmp : α → α → Int) (l : List α)
    (best i last : Nat) : Option Nat :=
  if i = last then some best
  else if last < i then none
  else
    match l[i]?, l[best]? with
    | some v, some b =>
      if cmp v b < 0 then min_element_loop cmp l i (i + 1) last
      else min_element_loop cmp l best (i + 1) last
    | _, _ => none
termination_by last - i

/-- `min_element` (array_alg.h:1389-1407) over `[first, last)` of `l`;
returns `last` on an empty range. -/
def min_element {α : Type} (cmp : α → α → Int) (l : List α)
    (first last : Nat) : Option Nat :=
  if first = last then some last
  else min_element_loop cmp l first (first + 1) last

/-- Inner shift loop of `_insertion_sort_unguarded` (array_alg.h:1928-1932):
`while (compare(&x, prev, ctx) < 0) { *(prev + 1) = *prev; --prev; }` and the
final `*(prev + 1) = x`.  There is no lower bound check: when the loop is
about to step below the start of the array the C dereferences out of range,
modelled as `none`. -/
def insertion_shift {α : Type} (cmp : α → α → Int) (x : α) (l : List α)
    (prev : Nat) : Option (List α) :=
  match l[prev]? with
  | none => none
  | some v =>
    if cmp x v < 0 then
      match writeA l (prev + 1) v with
      | none => none
      | some l1 =>
        if h0 : prev = 0 then none
        else insertion_shift cmp x l1 (prev - 1)
    else writeA l (prev + 1) x
termination_by prev

/-- Outer loop of `_insertion_sort_unguarded` (array_alg.h:1922-1935); `c` is
the C `first` cursor. -/
def insertion_sort_unguarded_loop {α : Type} (cmp : α → α → Int) (l : List α)
    (c last : Nat) : Option (List α) :=
  if c = last then some l
  else if last < c then none
  else
    match l[c]? with
    | none => none
    | some x =>
      match insertion_shift cmp x l (c - 1) with
      | some l1 => insertion_sort_unguarded_loop cmp l1 (c + 1) last
      | none => none
termination_by last - c

/-- `_insertion_sort_unguarded` (array_alg.h:1911-1936) over `[first, last)`. -/
def insertion_sort_unguarded {α : Type} (cmp : α → α → Int) (l : List α)
    (first last : Nat) : Option (List α) :=
  if first = last then some l
  else insertion_sort_unguarded_loop cmp l (first + 1) last

/-- `sort` (array_alg.h:2001-2013) over the whole of `l`: quicksort down to
32-element spans, swap the minimum of the leftmost span to the front as a
sentinel, then one unguarded insertion-sort pass.  On an empty range the
sentinel `swap(first, min)` dereferences one past the end: `none`. -/
def sort {α : Type} (cmp : α → α → Int) (l : List α) : Option (List α) :=
  match quick_sort_early_stop cmp l.length l 0 l.length with
  | none => none
  | some (l1, min_partition) =>
    match min_element cmp l1 0 min_partition with
    | none => none
    | some m =>
      match swap l1 0 m with
      | some l2 => insertion_sort_unguarded cmp l2 0 l.length
      | none => none

/-- `_rotate_right_by_one` (array_alg.h:2015-2027) over `[first, last)`:
`temp = *butlast; memmove(first + 1, first, (butlast - first) * sizeof(T));
*first = temp`, i.e. the last slice element moves to the front of the slice
and the rest shifts up by one.  The read of `*butlast` past the array, or a
reversed span (whose `memmove` size underflows), is `none`. -/
def rotate_right_by_one {α : Type} (l : List α) (first last : Nat) :
    Option (List α) :=
  if first = last then some l
  else
    match l[last - 1]? with
    | none => none
    | some temp =>
      if last < first then none
      else some (l.take first ++ temp :: (l.drop first).take (last - 1 - first)
        ++ l.drop last)

/-- `insertion_sort_stable` (array_alg.h:2029-2043) over `[first, last)`:
rotate the minimum to the front as a sentinel (stably), then the unguarded
insertion pass over the suffix. -/
def insertion_sort_stable {α : Type} (cmp : α → α → Int) (l : List α)
    (first last : Nat) : Option (List α) :=
  if first = last then some l
  else if first + 1 = last then some l
  else
    match min_element cmp l first last with
    | none => none
    | some m =>
      match rotate_right_by_one l first (m + 1) with
      | some l1 => insertion_sort_unguarded cmp l1 (first + 1) last
      | none => none

/-- `merge_with_buffer` (array_alg.h:1107-1117) over `[first, last)` split at
`middle`: the first sub-range is copied into the caller's scratch buffer and
then merged with the second sub-range back into `[first, last)`.  The output
cursor never overtakes the second input's read cursor, so the net effect is
the merged sequence spliced over `[first, last)`; degenerate pointer
arguments the C would misuse are `none`. -/
def merge_with_buffer {α : Type} (cmp : α → α → Int) (l : List α)
    (first middle last : Nat) : Option (List α) :=
  if first ≤ middle ∧ middle ≤ last ∧ last ≤ l.length then
    some (l.take first ++
      merge cmp ((l.drop first).take (middle - first))
        ((l.drop middle).take (last - middle)) ++
      l.drop last)
  else none

/-- `_merge_sort_adaptive_with_buffer_n` (array_alg.h:2045-2067): spans of at
most 24 go to `insertion_sort_stable`; larger spans are split at the
midpoint, sorted recursively and combined with `merge_with_buffer`.  Returns
the new array and the C function's result pointer. -/
def merge_sort_adaptive_with_buffer_n {α : Type} (cmp : α → α → Int)
    (l : List α) (first count : Nat) : Option (List α × Nat) :=
  if h0 : count < 1 then some (l, first)
  else if h24 : count ≤ 24 then
    match insertion_sort_stable cmp l first (first + count) with
    | some l1 => some (l1, first + count)
    | none => none
  else
    let half := count / 2
    if h1 : half < 1 then some (l, first + 1)
    else
      match merge_sort_adaptive_with_buffer_n cmp l first half with
      | none => none
      | some (l1, middle) =>
        match merge_sort_adaptive_with_buffer_n cmp l1 middle (count - half) with
        | none => none
        | some (l2, last) =>
          match merge_with_buffer cmp l2 first middle last with
          | some l3 => some (l3, last)
          | none => none
termination_by count
decreasing_by
· omega
· omega

/-- `stable_sort` (array_alg.h:2069-2079) over the whole of `l`; the
temporary half-size buffer is allocated and freed inside the call. -/
def stable_sort {α : Type} (cmp : α → α → Int) (l : List α) :
    Option (List α) :=
  match merge_sort_adaptive_with_buffer_n cmp l 0 l.length with
  | some (l1, _) => some l1
  | none => none

/-- Loop of `nth_element` (array_alg.h:2170-2178): iterative quickselect over
the shrinking window `[first, last)`.  As with the quicksort driver, `fuel`
models the C loop's reliance on the partition making progress, which the
nth-element lemmas show holds under the comparator contract; the final debug
`assert(first == nth)` does not run in a release build. -/
def nth_element_loop {α : Type} (cmp : α → α → Int) (l : List α)
    (nth first last fuel : Nat) : Option (List α) :=
  if last - first > 1 then
    match fuel with
    | 0 => none
    | fuel + 1 =>
      match sort_partition cmp l first last with
      | none => none
      | some (l1, m) =>
        if m ≤ nth then nth_element_loop cmp l1 nth m last fuel
        else nth_element_loop cmp l1 nth first m fuel
  else some l

/-- `nth_element` (array_alg.h:2162-2181) over the whole of `l`. -/
def nth_element {α : Type} (cmp : α → α → Int) (l : List α) (nth : Nat) :
    Option (List α) :=
  nth_element_loop cmp l nth 0 l.length l.length

/-- `reverse` (array_alg.h:1041-1053) over `[first, last)`: the symmetric
swap loop, whose net effect is reversing the slice in place. -/
def reverse {α : Type} (l : List α) (first last : Nat) : Option (List α) :=
  if first ≤ last ∧ last ≤ l.length then
    some (l.take first ++ ((l.drop first).take (last - first)).reverse
      ++ l.drop last)
  else none

/-- Suffix scan of `next_permutation` (array_alg.h:1690-1695):
`while (l != first && cmp(next, l) >= 0) { l = next; --next; }`; returns the
index of the C pointer `l`, the start of the longest non-increasing suffix
(0 when the whole range is that suffix). -/
def np_find_suffix {α : Type} (cmp : α → α → Int) (l : List α)
    (li : Nat) : Nat :=
  if h : li = 0 then 0
  else
    match l[li - 1]?, l[li]? with
    | some a, some b =>
      if cmp a b ≥ 0 then np_find_suffix cmp l (li - 1) else li
    | _, _ => li
termination_by li

/-- Swap-target scan of `next_permutation` (array_alg.h:1699-1703):
`while (f != next && cmp(next, f) >= 0) --f;` with `next` at index `pivot`.
The `f = 0` guard is unreachable from the entry point (the C loop always
stops at `next` at the latest). -/
def np_find_swap {α : Type} (cmp : α → α → Int) (l : List α)
    (pivot f : Nat) : Nat :=
  if h : f = pivot then f
  else if h0 : f = 0 then f
  else
    match l[pivot]?, l[f]? with
    | some a, some b =>
      if cmp a b ≥ 0 then np_find_swap cmp l pivot (f - 1) else f
    | _, _ => f
termination_by f

/-- `next_permutation` (array_alg.h:1678-1714): locate the non-increasing
suffix; if it is the whole range, reverse and report false, otherwise swap
the pivot with the rightmost suffix element exceeding it, reverse the
suffix, and report true. -/
def next_permutation {α : Type} (cmp : α → α → Int) (l : List α) :
    Option (List α × Bool) :=
  if l.length = 0 then some (l, false)
  else
    let li := np_find_suffix cmp l (l.length - 1)
    if li ≠ 0 then
      let f := np_find_swap cmp l (li - 1) (l.length - 1)
      match swap l (li - 1) f with
      | none => none
      | some l1 =>
        match reverse l1 li l.length with
        | some l2 => some (l2, true)
        | none => none
    else
      match reverse l 0 l.length with
      | some l2 => some (l2, false)
      | none => none

/-- Loop of `partition` (array_alg.h:1497-1516): Lomuto-style growing true
prefix; `out` is the output cursor.  The `last < i` guard is unreachable
from the entry point. -/
def partition_loop {α : Type} (predicate : α → Bool) (l : List α)
    (out i last : Nat) : Option (List α × Nat) :=
  if i = last then some (l, out)
  else if last < i then none
  else
    match l[i]? with
    | none => none
    | some v =>
      if predicate v then
        match swap l out i with
        | some l1 => partition_loop predicate l1 (out + 1) (i + 1) last
        | none => none
      else partition_loop predicate l out (i + 1) last
termination_by last - i

/-- `partition` (array_alg.h:1497-1516) over the whole of `l`. -/
def partition {α : Type} (predicate : α → Bool) (l : List α) :
    Option (List α × Nat) :=
  partition_loop predicate l 0 0 l.length

/-- `random_shuffle_n` (array_alg.h:1717-1727), Fisher-Yates from the end;
`rand n` models `ARRAY_ALG_RANDOM(n)`, the caller-configured uniform draw
from `[0, n)`. -/
def random_shuffle_n {α : Type} (rand : Nat → Nat) (l : List α) (n : Nat) :
    Option (List α) :=
  if n > 1 then
    let j := rand n
    match swap l (n - 1) j with
    | some l1 => random_shuffle_n rand l1 (n - 1)
    | none => none
  else some l
termination_by n

/-- C4 (code bug): the operations of the claim are no-ops on an empty active
range — except `sort` and `is_heap_until`/`is_heap`.  `sort` runs its
sentinel `swap(first, min_element(first, last))` with `min == first == last`
on an empty range, reading and writing the one-past-the-end slot
(array_alg.h:2010-2011); `is_heap_until` advances `first` past `last` before
comparing, so on an empty range it reads past the range
(array_alg.h:1770-1774).  Both out-of-range accesses evaluate to `none`. -/
theorem empty_range_ops {α : Type} (cmp : α → α → Int) (rand : Nat → Nat) :
    (∀ l : List α, push_heap_n cmp l 0 = some l) ∧
    (∀ l : List α, pop_heap_n cmp l 0 = some l) ∧
    (∀ l : List α, make_heap_n cmp l 0 = some l) ∧
    (∀ l : List α, sort_heap_n cmp l 0 = some l) ∧
    (∀ l : List α, partial_sort cmp l 0 = some l) ∧
    next_permutation cmp ([] : List α) = some ([], false) ∧
    (∀ l : List α, random_shuffle_n rand l 0 = some l) ∧
    (∀ predicate : α → Bool, partition predicate ([] : List α) = some ([], 0)) ∧
    stable_sort cmp ([] : List α) = some [] ∧
    sort cmp ([] : List α) = none ∧
    is_heap_until cmp ([] : List α) = none := by
  refine ⟨?_, ?_, ?_, ?_, ?_, ?_, ?_, ?_, ?_, ?_, ?_⟩
  · intro l
    rw [push_heap_n]
    simp
  · intro l
    rw [pop_heap_n]
    simp
  · intro l
    rw [make_heap_n, make_heap_go]
    simp
  · intro l
    rw [sort_heap_n]
    simp
  · intro l
    rw [partial_sort]
    simp
  · rw [next_permutation]
    simp
  · intro l
    rw [random_shuffle_n]
    simp
  · intro predicate
    rw [partition, partition_loop]
    simp
  · rw [stable_sort, merge_sort_adaptive_with_buffer_n]
    simp
  · rw [sort]
    simp [quick_sort_early_stop, min_element, swap]
  · rw [is_heap_until, is_heap_until_loop]
    simp

set_option maxRecDepth 20000 in
/-- C2 (code bug): `stable_sort` is NOT stable.  `merge` takes the SECOND
input's element on ties (array_alg.h:1087-1090), so when `stable_sort` merges
the two recursively sorted halves, equal elements of the right half overtake
those of the left half.  On 25 elements with equal keys and distinct tags
(count 25 > the insertion-sort threshold 24, so the merge path runs), the
output order of the comparator-equal elements is tags 12..24 followed by
0..11 instead of 0..24: the original relative order is not preserved. -/
theorem stable_sort_not_stable :
    stable_sort pairCmp [((0 : Int), (0 : Int)), ((0 : Int), (1 : Int)), ((0 : Int), (2 : Int)), ((0 : Int), (3 : Int)), ((0 : Int), (4 : Int)), ((0 : Int), (5 : Int)), ((0 : Int), (6 : Int)), ((0 : Int), (7 : Int)), ((0 : Int), (8 : Int)), ((0 : Int), (9 : Int)), ((0 : Int), (10 : Int)), ((0 : Int), (11 : Int)), ((0 : Int), (12 : Int)), ((0 : Int), (13 : Int)), ((0 : Int), (14 : Int)), ((0 : Int), (15 : Int)), ((0 : Int), (16 : Int)), ((0 : Int), (17 : Int)), ((0 : Int), (18 : Int)), ((0 : Int), (19 : Int)), ((0 : Int), (20 : Int)), ((0 : Int), (21 : Int)), ((0 : Int), (22 : Int)), ((0 : Int), (23 : Int)), ((0 : Int), (24 : Int))] =
      some [((0 : Int), (12 : Int)), ((0 : Int), (13 : Int)), ((0 : Int), (14 : Int)), ((0 : Int), (15 : Int)), ((0 : Int), (16 : Int)), ((0 : Int), (17 : Int)), ((0 : Int), (18 : Int)), ((0 : Int), (19 : Int)), ((0 : Int), (20 : Int)), ((0 : Int), (21 : Int)), ((0 : Int), (22 : Int)), ((0 : Int), (23 : Int)), ((0 : Int), (24 : Int)), ((0 : Int), (0 : Int)), ((0 : Int), (1 : Int)), ((0 : Int), (2 : Int)), ((0 : Int), (3 : Int)), ((0 : Int), (4 : Int)), ((0 : Int), (5 : Int)), ((0 : Int), (6 : Int)), ((0 : Int), (7 : Int)), ((0 : Int), (8 : Int)), ((0 : Int), (9 : Int)), ((0 : Int), (10 : Int)), ((0 : Int), (11 : Int))] ∧
    pairCmp (0, 0) (0, 12) = 0 := by
  constructor
  · simp [stable_sort, merge_sort_adaptive_with_buffer_n, insertion_sort_stable,
      min_element, min_element_loop, rotate_right_by_one, insertion_sort_unguarded,
      insertion_sort_unguarded_loop, insertion_shift, writeA, merge_with_buffer,
      merge, pairCmp, intCmp]
  · simp [pairCmp, intCmp]


/-- The sub-range `[a, b)` of `l` as a list. -/
def slice {α : Type} (l : List α) (a b : Nat) : List α :=
  (l.drop a).take (b - a)

theorem slice_getElem? {α : Type} (l : List α) (a b k : Nat) :
    (slice l a b)[k]? = if k < b - a then l[a + k]? else none := by
  rw [slice, List.getElem?_take]
  split
  · rw [List.getElem?_drop]
  · rfl

theorem mem_slice {α : Type} {l : List α} {a b : Nat} {x : α} :
    x ∈ slice l a b ↔ ∃ m, a ≤ m ∧ m < b ∧ l[m]? = some x := by
  rw [List.mem_iff_getElem?]
  constructor
  · rintro ⟨k, hk⟩
    rw [slice_getElem? l a b k] at hk
    split at hk
    · exact ⟨a + k, by omega, by omega, hk⟩
    · exact Option.noConfusion hk
  · rintro ⟨m, h1, h2, h3⟩
    refine ⟨m - a, ?_⟩
    rw [slice_getElem? l a b (m - a), if_pos (by omega),
      show a + (m - a) = m by omega]
    exact h3

theorem slice_decomp {α : Type} (l : List α) (a b : Nat) (hab : a ≤ b) :
    l = l.take a ++ slice l a b ++ l.drop b := by
  rw [slice]
  conv_lhs => rw [← List.take_append_drop a l]
  rw [List.append_assoc]
  congr 1
  conv_lhs => rw [← List.take_append_drop (b - a) (l.drop a)]
  rw [List.drop_drop, show a + (b - a) = b by omega]

theorem slice_perm_of_perm_outside_eq {α : Type} {l l' : List α}
    (hperm : List.Perm l' l) (a b : Nat)
    (hout : ∀ m, m < a ∨ b ≤ m → l'[m]? = l[m]?) (hab : a ≤ b) :
    List.Perm (slice l' a b) (slice l a b) := by
  have htake : l'.take a = l.take a := by
    apply List.ext_getElem?
    intro n
    rw [List.getElem?_take, List.getElem?_take]
    split
    · exact hout n (Or.inl (by omega))
    · rfl
  have hdrop : l'.drop b = l.drop b := by
    apply List.ext_getElem?
    intro n
    rw [List.getElem?_drop, List.getElem?_drop]
    exact hout (b + n) (Or.inr (by omega))
  have hd' := slice_decomp l' a b hab
  have hd := slice_decomp l a b hab
  rw [hd', hd, htake, hdrop, List.append_assoc, List.append_assoc] at hperm
  rw [List.perm_append_left_iff] at hperm
  rw [List.perm_append_right_iff] at hperm
  exact hperm

theorem gd_mem_slice {α : Type} (d : α) {l : List α} {a b m : Nat}
    (h1 : a ≤ m) (h2 : m < b) (h3 : b ≤ l.length) :
    gd d l m ∈ slice l a b :=
  mem_slice.mpr ⟨m, h1, h2, getElem?_eq_gd d (by omega)⟩


theorem sort_partition_scan_up_step {α : Type} (cmp : α → α → Int) (piv : α)
    (l : List α) (i : Nat) (v : α) (h : l[i]? = some v) :
    sort_partition_scan_up cmp piv l i =
      if cmp v piv < 0 then sort_partition_scan_up cmp piv l (i + 1)
      else some i := by
  rw [sort_partition_scan_up]
  split
  · rename_i h2
    rw [h] at h2
    exact Option.noConfusion h2
  · rename_i v2 h2
    rw [h] at h2
    obtain rfl := Option.some.inj h2
    rfl

theorem sort_partition_scan_down_step {α : Type} (cmp : α → α → Int) (piv : α)
    (l : List α) (j : Nat) (v : α) (h : l[j]? = some v) :
    sort_partition_scan_down cmp piv l j =
      if cmp piv v < 0 then
        (if j = 0 then none else sort_partition_scan_down cmp piv l (j - 1))
      else some j := by
  rw [sort_partition_scan_down]
  split
  · rename_i h2
    rw [h] at h2
    exact Option.noConfusion h2
  · rename_i v2 h2
    rw [h] at h2
    obtain rfl := Option.some.inj h2
    split
    · split
      · rfl
      · rfl
    · rfl

theorem sort_partition_scan_up_spec {α : Type} (d : α) (cmp : α → α → Int)
    (piv : α) (l : List α) :
    ∀ fuel i q, q + 1 - i ≤ fuel → i ≤ q → q < l.length →
      cmp (gd d l q) piv ≥ 0 →
      ∃ i2, sort_partition_scan_up cmp piv l i = some i2 ∧ i ≤ i2 ∧ i2 ≤ q ∧
        (∀ m, i ≤ m → m < i2 → cmp (gd d l m) piv < 0) ∧
        cmp (gd d l i2) piv ≥ 0 := by
  intro fuel
  induction fuel with
  | zero =>
    intro i q hf hiq
    omega
  | succ fuel ih =>
    intro i q hf hiq hql hq
    rw [sort_partition_scan_up_step cmp piv l i (gd d l i)
      (getElem?_eq_gd d (by omega))]
    by_cases hlt : cmp (gd d l i) piv < 0
    · rw [if_pos hlt]
      have hiq2 : i < q := by
        rcases Nat.lt_or_ge i q with h | h
        · exact h
        · have : i = q := by omega
          rw [this] at hlt
          omega
      obtain ⟨i2, heq, h1, h2, h3, h4⟩ := ih (i + 1) q (by omega) (by omega) hql hq
      exact ⟨i2, heq, by omega, h2, fun m hm1 hm2 => by
        rcases Nat.eq_or_lt_of_le hm1 with rfl | hm
        · exact hlt
        · exact h3 m (by omega) hm2, h4⟩
    · rw [if_neg hlt]
      exact ⟨i, rfl, Nat.le_refl i, hiq, fun m hm1 hm2 => by omega, by omega⟩

theorem sort_partition_scan_down_spec {α : Type} (d : α) (cmp : α → α → Int)
    (piv : α) (l : List α) :
    ∀ fuel j r, j + 1 - r ≤ fuel → r ≤ j → j < l.length →
      cmp piv (gd d l r) ≥ 0 →
      ∃ j2, sort_partition_scan_down cmp piv l j = some j2 ∧ r ≤ j2 ∧ j2 ≤ j ∧
        (∀ m, j2 < m → m ≤ j → cmp piv (gd d l m) < 0) ∧
        cmp piv (gd d l j2) ≥ 0 := by
  intro fuel
  induction fuel with
  | zero =>
    intro j r hf hrj
    omega
  | succ fuel ih =>
    intro j r hf hrj hjl hr
    rw [sort_partition_scan_down_step cmp piv l j (gd d l j)
      (getElem?_eq_gd d hjl)]
    by_cases hlt : cmp piv (gd d l j) < 0
    · rw [if_pos hlt]
      have hrj2 : r < j := by
        rcases Nat.lt_or_ge r j with h | h
        · exact h
        · have : r = j := by omega
          rw [this] at hr
          omega
      rw [if_neg (by omega)]
      obtain ⟨j2, heq, h1, h2, h3, h4⟩ := ih (j - 1) r (by omega) (by omega)
        (by omega) hr
      exact ⟨j2, heq, h1, by omega, fun m hm1 hm2 => by
        rcases Nat.eq_or_lt_of_le hm2 with rfl | hm
        · exact hlt
        · exact h3 m hm1 (by omega), h4⟩
    · rw [if_neg hlt]
      exact ⟨j, rfl, hrj, Nat.le_refl j, fun m hm1 hm2 => by omega, by omega⟩

theorem swap_getElem?_ne {α : Type} {l l' : List α} {i j : Nat}
    (h : swap l i j = some l') (m : Nat) (hmi : m ≠ i) (hmj : m ≠ j) :
    l'[m]? = l[m]? := by
  obtain ⟨hi, hj, rfl⟩ := swap_val h
  rw [List.getElem?_set_ne (Ne.symm hmj), List.getElem?_set_ne (Ne.symm hmi)]

theorem sort_partition_loop_step {α : Type} (cmp : α → α → Int) (piv : α)
    (l : List α) (i j i2 j2 : Nat)
    (hi : sort_partition_scan_up cmp piv l i = some i2)
    (hj : sort_partition_scan_down cmp piv l j = some j2) :
    sort_partition_loop cmp piv l i j =
      if i2 ≥ j2 then some (l, j2 + 1)
      else
        match swap l i2 j2 with
        | some l1 => sort_partition_loop cmp piv l1 (i2 + 1) (j2 - 1)
        | none => none := by
  rw [sort_partition_loop]
  split
  · rename_i h2
    rw [hi] at h2
    exact Option.noConfusion h2
  · rename_i v2 h2
    rw [hi] at h2
    obtain rfl := Option.some.inj h2
    split
    · rename_i h3
      rw [hj] at h3
      exact Option.noConfusion h3
    · rename_i w2 h3
      rw [hj] at h3
      obtain rfl := Option.some.inj h3
      rfl

/-- Postcondition of `_sort_partition`'s loop at the cursor-crossing exit. -/
theorem sort_partition_exit_post {α : Type} (d : α) {cmp : α → α → Int}
    (hswo : IsSWO cmp) (piv : α) (l0 l : List α) (first last i j i2 j2 : Nat)
    (hfl : first + 1 < last)
    (hlen : l.length = l0.length)
    (hperm : List.Perm l l0)
    (hout : ∀ m, m < first ∨ last ≤ m → l[m]? = l0[m]?)
    (hjlast : j ≤ last - 1)
    (hp1 : ∀ m, first ≤ m → m < i → cmp (gd d l m) piv ≤ 0)
    (hp2 : ∀ m, j < m → m < last → cmp piv (gd d l m) ≤ 0)
    (hex : j ≤ last - 2 ∨ ∃ q, i ≤ q ∧ q ≤ last - 2 ∧ cmp (gd d l q) piv ≥ 0)
    (hi2a : i ≤ i2)
    (hskipUp : ∀ m, i ≤ m → m < i2 → cmp (gd d l m) piv < 0)
    (hstopUp : cmp (gd d l i2) piv ≥ 0)
    (hj2r : first ≤ j2) (hj2b : j2 ≤ j)
    (hskipDown : ∀ m, j2 < m → m ≤ j → cmp piv (gd d l m) < 0)
    (hstopDown : cmp piv (gd d l j2) ≥ 0)
    (hcross : i2 ≥ j2) :
    l.length = l0.length ∧ List.Perm l l0 ∧
      (∀ m, m < first ∨ last ≤ m → l[m]? = l0[m]?) ∧
      first < j2 + 1 ∧ j2 + 1 ≤ last - 1 ∧
      (∀ m, first ≤ m → m < j2 + 1 → cmp (gd d l m) piv ≤ 0) ∧
      (∀ m, j2 + 1 ≤ m → m < last → cmp piv (gd d l m) ≤ 0) := by
  refine ⟨hlen, hperm, hout, by omega, ?_, ?_, ?_⟩
  · -- j2 ≤ last - 2
    rcases hex with hex | ⟨q, hq1, hq2, hq3⟩
    · omega
    · have hi2q : i2 ≤ q := by
        by_contra hc
        exact absurd hq3 (by have := hskipUp q hq1 (by omega); omega)
      omega
  · intro m hm1 hm2
    by_cases hmi : m < i
    · exact hp1 m hm1 hmi
    · by_cases hmi2 : m < i2
      · exact le_of_lt (hskipUp m (by omega) hmi2)
      · have hmj2 : m = j2 := by omega
        rw [hmj2]
        exact hswo.le_of_ge _ _ hstopDown
  · intro m hm1 hm2
    by_cases hmj : m ≤ j
    · exact le_of_lt (hskipDown m (by omega) hmj)
    · exact hp2 m (by omega) hm2

theorem sort_partition_loop_spec {α : Type} (d : α) {cmp : α → α → Int}
    (hswo : IsSWO cmp) (piv : α) (l0 : List α) (first last : Nat)
    (hfl : first + 1 < last) (hll : last ≤ l0.length) :
    ∀ fuel (l : List α) (i j : Nat),
      j + 1 - i ≤ fuel →
      l.length = l0.length →
      List.Perm l l0 →
      (∀ m, m < first ∨ last ≤ m → l[m]? = l0[m]?) →
      first ≤ i → i ≤ j + 1 → j ≤ last - 1 →
      (∀ m, first ≤ m → m < i → cmp (gd d l m) piv ≤ 0) →
      (∀ m, j < m → m < last → cmp piv (gd d l m) ≤ 0) →
      (∃ q, i ≤ q ∧ q ≤ j + 1 ∧ q ≤ last - 1 ∧ cmp (gd d l q) piv ≥ 0) →
      (∃ r, first ≤ r ∧ r ≤ j ∧ cmp piv (gd d l r) ≥ 0) →
      (j ≤ last - 2 ∨ ∃ q, i ≤ q ∧ q ≤ last - 2 ∧ cmp (gd d l q) piv ≥ 0) →
      ∃ l' p, sort_partition_loop cmp piv l i j = some (l', p) ∧
        l'.length = l0.length ∧ List.Perm l' l0 ∧
        (∀ m, m < first ∨ last ≤ m → l'[m]? = l0[m]?) ∧
        first < p ∧ p ≤ last - 1 ∧
        (∀ m, first ≤ m → m < p → cmp (gd d l' m) piv ≤ 0) ∧
        (∀ m, p ≤ m → m < last → cmp piv (gd d l' m) ≤ 0) := by
  intro fuel
  induction fuel with
  | zero =>
    intro l i j hf hlen hperm hout hfi hij hjl hp1 hp2 hs1 hs2 hex
    obtain ⟨q, hq1, hq2, hq3, hq4⟩ := hs1
    obtain ⟨r, hr1, hr2, hr3⟩ := hs2
    obtain ⟨i2, heqU, hU1, hU2, hU3, hU4⟩ :=
      sort_partition_scan_up_spec d cmp piv l l.length i q (by omega) hq1
        (by omega) hq4
    obtain ⟨j2, heqD, hD1, hD2, hD3, hD4⟩ :=
      sort_partition_scan_down_spec d cmp piv l l.length j r (by omega) hr2
        (by omega) hr3
    rw [sort_partition_loop_step cmp piv l i j i2 j2 heqU heqD]
    have hcross : i2 ≥ j2 := by omega
    rw [if_pos hcross]
    exact ⟨l, j2 + 1, rfl,
      sort_partition_exit_post d hswo piv l0 l first last i j i2 j2 hfl hlen
        hperm hout hjl hp1 hp2 hex hU1 hU3 hU4 (by omega) hD2 hD3 hD4 hcross⟩
  | succ fuel ih =>
    intro l i j hf hlen hperm hout hfi hij hjl hp1 hp2 hs1 hs2 hex
    obtain ⟨q, hq1, hq2, hq3, hq4⟩ := hs1
    obtain ⟨r, hr1, hr2, hr3⟩ := hs2
    obtain ⟨i2, heqU, hU1, hU2, hU3, hU4⟩ :=
      sort_partition_scan_up_spec d cmp piv l l.length i q (by omega) hq1
        (by omega) hq4
    obtain ⟨j2, heqD, hD1, hD2, hD3, hD4⟩ :=
      sort_partition_scan_down_spec d cmp piv l l.length j r (by omega) hr2
        (by omega) hr3
    rw [sort_partition_loop_step cmp piv l i j i2 j2 heqU heqD]
    by_cases hcross : i2 ≥ j2
    · rw [if_pos hcross]
      exact ⟨l, j2 + 1, rfl,
        sort_partition_exit_post d hswo piv l0 l first last i j i2 j2 hfl hlen
          hperm hout hjl hp1 hp2 hex hU1 hU3 hU4 (by omega) hD2 hD3 hD4 hcross⟩
    · rw [if_neg hcross]
      have hij2 : i2 < j2 := by omega
      have hi2len : i2 < l.length := by omega
      have hj2len : j2 < l.length := by omega
      have hs := swap_eq l i2 j2 hi2len hj2len
      rw [hs]
      have hs2 : swap l i2 j2 = some ((l.set i2 l[j2]).set j2 l[i2]) := hs
      set l1 := (l.set i2 l[j2]).set j2 l[i2] with hl1
      have hgd1 := gd_of_swap d hs2
      have hlen1 : l1.length = l.length := swap_length hs2
      have hperm1 : List.Perm l1 l := swap_perm hs2
      have huti2 : gd d l1 i2 = gd d l j2 := by
        rw [hgd1 i2, if_neg (by omega), if_pos rfl]
      have hutj2 : gd d l1 j2 = gd d l i2 := by
        rw [hgd1 j2, if_pos rfl]
      have hutm : ∀ m, m ≠ i2 → m ≠ j2 → gd d l1 m = gd d l m := by
        intro m h1 h2
        rw [hgd1 m, if_neg h2, if_neg h1]
      obtain ⟨l', p, heq, post⟩ := ih l1 (i2 + 1) (j2 - 1) (by omega)
        (by omega) (hperm1.trans hperm)
        (fun m hm => by
          rw [swap_getElem?_ne hs2 m (by omega) (by omega)]
          exact hout m hm)
        (by omega) (by omega) (by omega)
        (fun m hm1 hm2 => by
          by_cases hmi2 : m = i2
          · rw [hmi2, huti2]
            exact hswo.le_of_ge _ _ hD4
          · rw [hutm m hmi2 (by omega)]
            by_cases hmi : m < i
            · exact hp1 m hm1 hmi
            · exact le_of_lt (hU3 m (by omega) (by omega)))
        (fun m hm1 hm2 => by
          by_cases hmj2 : m = j2
          · rw [hmj2, hutj2]
            exact hswo.le_of_ge _ _ hU4
          · rw [hutm m (by omega) hmj2]
            by_cases hmj : m ≤ j
            · exact le_of_lt (hD3 m (by omega) hmj)
            · exact hp2 m (by omega) hm2)
        ⟨j2, by omega, by omega, by omega, by rw [hutj2]; exact hU4⟩
        ⟨i2, by omega, by omega, by rw [huti2]; exact hD4⟩
        (Or.inl (by omega))
      exact ⟨l', p, heq, post⟩

theorem gd_of_getElem? {α : Type} (d : α) {l : List α} {m : Nat} {x : α}
    (h : l[m]? = some x) : gd d l m = x := by
  rw [gd, h]
  rfl

/-- `_sort_partition` on a span of at least two elements: succeeds, permutes
only the span, and returns a crossing point strictly inside the span such
that every element before it compares `≤` every element from it on (the
contract documented at array_alg.h:738-746). -/
theorem sort_partition_spec {α : Type} (d : α) {cmp : α → α → Int}
    (hswo : IsSWO cmp) (l : List α) (first last : Nat)
    (hfl : first + 1 < last) (hll : last ≤ l.length) :
    ∃ l' p, sort_partition cmp l first last = some (l', p) ∧
      l'.length = l.length ∧ List.Perm l' l ∧
      (∀ m, m < first ∨ last ≤ m → l'[m]? = l[m]?) ∧
      first < p ∧ p ≤ last - 1 ∧
      (∀ m, first ≤ m → m < p → cmp (gd d l' m) (gd d l (first + (last - first - 1) / 2)) ≤ 0) ∧
      (∀ m, p ≤ m → m < last → cmp (gd d l (first + (last - first - 1) / 2)) (gd d l' m) ≤ 0) ∧
      (∀ x ∈ slice l' first p, ∀ y ∈ slice l' p last, cmp x y ≤ 0) := by
  have hn : last - first ≠ 0 := by omega
  have hmid : first + (last - first - 1) / 2 < l.length := by omega
  set piv := gd d l (first + (last - first - 1) / 2) with hpiv
  obtain ⟨l', p, heq, hlen, hperm, hout, hp1, hp2, hpre, hsuf⟩ :=
    sort_partition_loop_spec d hswo piv l first last hfl hll (last - first) l
      first (last - 1) (by omega) rfl (List.Perm.refl l)
      (fun m hm => rfl) (Nat.le_refl first) (by omega) (by omega)
      (fun m hm1 hm2 => by omega)
      (fun m hm1 hm2 => by omega)
      ⟨first + (last - first - 1) / 2, by omega, by omega, by omega,
        by rw [← hpiv, hswo.self_eq piv]⟩
      ⟨first + (last - first - 1) / 2, by omega, by omega,
        by rw [← hpiv, hswo.self_eq piv]⟩
      (Or.inr ⟨first + (last - first - 1) / 2, by omega, by omega,
        by rw [← hpiv, hswo.self_eq piv]⟩)
  refine ⟨l', p, ?_, hlen, hperm, hout, hp1, hp2, hpre, hsuf, ?_⟩
  · rw [sort_partition]
    rw [if_neg hn, getElem?_eq_gd d hmid]
    exact heq
  · intro x hx y hy
    obtain ⟨mx, hmx1, hmx2, hmx3⟩ := mem_slice.mp hx
    obtain ⟨my, hmy1, hmy2, hmy3⟩ := mem_slice.mp hy
    have h1 := hpre mx hmx1 hmx2
    have h2 := hsuf my hmy1 hmy2
    rw [gd_of_getElem? d hmx3] at h1
    rw [gd_of_getElem? d hmy3] at h2
    exact hswo.le_trans x piv y h1 h2

theorem slice_length {α : Type} (l : List α) (a b : Nat) (hb : b ≤ l.length) :
    (slice l a b).length = b - a := by
  rw [slice, List.length_take, List.length_drop]
  omega

theorem slice_split {α : Type} (l : List α) (a b c : Nat)
    (hab : a ≤ b) (hbc : b ≤ c) (hc : c ≤ l.length) :
    slice l a c = slice l a b ++ slice l b c := by
  apply List.ext_getElem?
  intro k
  rw [slice_getElem?]
  rcases Nat.lt_or_ge k (b - a) with hk | hk
  · rw [List.getElem?_append_left (by rw [slice_length l a b (by omega)]; omega),
      slice_getElem?, if_pos hk, if_pos (by omega)]
  · rw [List.getElem?_append_right (by rw [slice_length l a b (by omega)]; omega),
      slice_getElem?, slice_length l a b (by omega)]
    split
    · rw [if_pos (by omega), show b + (k - (b - a)) = a + k by omega]
    · rw [if_neg (by omega)]

theorem slice_eq_of_outside_eq {α : Type} {l l' : List α} (a b : Nat)
    (h : ∀ m, a ≤ m → m < b → l'[m]? = l[m]?) :
    slice l' a b = slice l a b := by
  apply List.ext_getElem?
  intro k
  rw [slice_getElem?, slice_getElem?]
  split
  · exact h (a + k) (by omega) (by omega)
  · rfl

/-- `_quick_sort_early_stop` under the comparator contract: with fuel at
least the span it succeeds, permutes only the span, and returns the end `p0`
of the leftmost surviving partition, with every element of `[first, p0)`
comparing `≤` every element of `[p0, last)`. -/
theorem quick_sort_early_stop_spec {α : Type} (d : α) {cmp : α → α → Int}
    (hswo : IsSWO cmp) :
    ∀ fuel (l : List α) (first last : Nat), first ≤ last → last ≤ l.length →
      last - first ≤ fuel →
      ∃ l' p0, quick_sort_early_stop cmp fuel l first last = some (l', p0) ∧
        l'.length = l.length ∧ List.Perm l' l ∧
        (∀ m, m < first ∨ last ≤ m → l'[m]? = l[m]?) ∧
        first ≤ p0 ∧ p0 ≤ last ∧ (first < last → first < p0) ∧
        (∀ x ∈ slice l' first p0, ∀ y ∈ slice l' p0 last, cmp x y ≤ 0) := by
  intro fuel
  induction fuel with
  | zero =>
    intro l first last h1 h2 h3
    have hfl : first = last := by omega
    rw [quick_sort_early_stop, if_neg (by omega)]
    refine ⟨l, last, rfl, rfl, List.Perm.refl l, fun m hm => rfl, by omega,
      Nat.le_refl last, by omega, ?_⟩
    intro x hx y hy
    rw [hfl] at hx
    rw [show slice l last last = [] by rw [slice]; simp] at hx
    exact absurd hx (List.not_mem_nil x)
  | succ fuel ih =>
    intro l first last h1 h2 h3
    rw [quick_sort_early_stop]
    by_cases hbig : last - first > 32
    · rw [if_pos hbig]
      obtain ⟨l1, p, heqP, hlen1, hperm1, hout1, hpf, hpl, hpre, hsuf, hpairs1⟩ :=
        sort_partition_spec d hswo l first last (by omega) h2
      obtain ⟨l2, p2, heqR, hlen2, hperm2, hout2, _, _, _, _⟩ :=
        ih l1 p last (by omega) (by omega) (by omega)
      obtain ⟨l3, p0, heqL, hlen3, hperm3, hout3, hq1, hq2, hq3, hpairs3⟩ :=
        ih l2 first p (by omega) (by omega) (by omega)
      simp only [heqP, heqR, heqL]
      -- transfer the partition's pairwise bound through the recursive calls
      have hsliceL2 : slice l2 first p = slice l1 first p :=
        slice_eq_of_outside_eq first p (fun m hm1 hm2 => hout2 m (Or.inl hm2))
      have hsliceR2 : List.Perm (slice l2 p last) (slice l1 p last) :=
        slice_perm_of_perm_outside_eq hperm2 p last
          (fun m hm => hout2 m (by omega)) (by omega)
      have hpairs2 : ∀ x ∈ slice l2 first p, ∀ y ∈ slice l2 p last,
          cmp x y ≤ 0 := by
        intro x hx y hy
        rw [hsliceL2] at hx
        rw [hsliceR2.mem_iff] at hy
        exact hpairs1 x hx y hy
      have hsliceL3 : List.Perm (slice l3 first p) (slice l2 first p) :=
        slice_perm_of_perm_outside_eq hperm3 first p
          (fun m hm => hout3 m (by omega)) (by omega)
      have hsliceR3 : slice l3 p last = slice l2 p last :=
        slice_eq_of_outside_eq p last (fun m hm1 hm2 => hout3 m (Or.inr hm1))
      have hpairs4 : ∀ x ∈ slice l3 first p, ∀ y ∈ slice l3 p last,
          cmp x y ≤ 0 := by
        intro x hx y hy
        rw [hsliceL3.mem_iff] at hx
        rw [hsliceR3] at hy
        exact hpairs2 x hx y hy
      refine ⟨l3, p0, rfl, by omega, (hperm3.trans hperm2).trans hperm1,
        ?_, hq1, by omega, fun _ => hq3 (by omega), ?_⟩
      · intro m hm
        rw [hout3 m (by omega), hout2 m (by omega), hout1 m hm]
      · intro x hx y hy
        have hlen3' : last ≤ l3.length := by omega
        rw [slice_split l3 p0 p last hq2 (by omega) hlen3'] at hy
        rcases List.mem_append.mp hy with hy | hy
        · exact hpairs3 x hx y hy
        · have hx2 : x ∈ slice l3 first p := by
            rw [slice_split l3 first p0 p hq1 hq2 (by omega)]
            exact List.mem_append.mpr (Or.inl hx)
          exact hpairs4 x hx2 y hy
    · rw [if_neg hbig]
      refine ⟨l, last, rfl, rfl, List.Perm.refl l, fun m hm => rfl, h1,
        Nat.le_refl last, by omega, ?_⟩
      intro x hx y hy
      rw [show slice l last last = [] by rw [slice]; simp] at hy
      exact absurd hy (List.not_mem_nil y)

theorem writeA_getElem? {α : Type} {l l1 : List α} {i : Nat} {v : α}
    (h : writeA l i v = some l1) (m : Nat) :
    l1[m]? = if m = i then some v else l[m]? := by
  rw [writeA] at h
  split at h
  · rename_i hi
    obtain rfl := Option.some.inj h
    rcases eq_or_ne m i with rfl | hne
    · rw [if_pos rfl, List.getElem?_set_self hi]
    · rw [if_neg hne, List.getElem?_set_ne (fun he => hne he.symm)]
  · exact Option.noConfusion h

theorem writeA_length {α : Type} {l l1 : List α} {i : Nat} {v : α}
    (h : writeA l i v = some l1) : l1.length = l.length := by
  rw [writeA] at h
  split at h
  · obtain rfl := Option.some.inj h
    exact List.length_set l i v
  · exact Option.noConfusion h

theorem writeA_some {α : Type} (l : List α) (i : Nat) (v : α)
    (hi : i < l.length) : writeA l i v = some (l.set i v) := by
  rw [writeA, if_pos hi]

theorem slice_single {α : Type} (d : α) (l : List α) (c : Nat)
    (hc : c < l.length) : slice l c (c + 1) = [gd d l c] := by
  apply List.ext_getElem?
  intro k
  rw [slice_getElem?]
  match k with
  | 0 => rw [if_pos (by omega), getElem?_eq_gd d (by omega)]; rfl
  | k + 1 => rw [if_neg (by omega)]; rfl

theorem perm_of_eq_outside_slice_perm {α : Type} {l l' : List α} (a b : Nat)
    (hlen : l'.length = l.length)
    (hout : ∀ m, m < a ∨ b ≤ m → l'[m]? = l[m]?)
    (hslice : List.Perm (slice l' a b) (slice l a b))
    (hab : a ≤ b) (hb : b ≤ l.length) : List.Perm l' l := by
  have htake : l'.take a = l.take a := by
    apply List.ext_getElem?
    intro n
    rw [List.getElem?_take, List.getElem?_take]
    split
    · exact hout n (Or.inl (by omega))
    · rfl
  have hdrop : l'.drop b = l.drop b := by
    apply List.ext_getElem?
    intro n
    rw [List.getElem?_drop, List.getElem?_drop]
    exact hout (b + n) (Or.inr (by omega))
  conv_lhs => rw [slice_decomp l' a b hab]
  conv_rhs => rw [slice_decomp l a b hab]
  rw [htake, hdrop, List.append_assoc, List.append_assoc]
  exact ((hslice.append_right (l.drop b)).append_left (l.take a))

/-- The loop of `min_element`: starting with current best index `best` and
cursor `i`, it returns an index of a minimum of `[first, last)`. -/
theorem min_element_loop_spec {α : Type} (d : α) {cmp : α → α → Int}
    (hswo : IsSWO cmp) (l : List α) (first last : Nat) (hlast : last ≤ l.length) :
    ∀ fuel best i, last - i ≤ fuel → first ≤ best → best < i → i ≤ last →
      (∀ m, first ≤ m → m < i → cmp (gd d l best) (gd d l m) ≤ 0) →
      ∃ b, min_element_loop cmp l best i last = some b ∧ first ≤ b ∧ b < last ∧
        ∀ m, first ≤ m → m < last → cmp (gd d l b) (gd d l m) ≤ 0 := by
  intro fuel
  induction fuel with
  | zero =>
    intro best i h0 h1 h2 h3 h4
    have hil : i = last := by omega
    subst hil
    rw [min_element_loop, if_pos rfl]
    exact ⟨best, rfl, h1, by omega, h4⟩
  | succ fuel ih =>
    intro best i h0 h1 h2 h3 h4
    by_cases hil : i = last
    · subst hil
      rw [min_element_loop, if_pos rfl]
      exact ⟨best, rfl, h1, by omega, h4⟩
    · rw [min_element_loop, if_neg hil, if_neg (by omega)]
      have hi : i < l.length := by omega
      have hb : best < l.length := by omega
      simp only [getElem?_eq_gd d hi, getElem?_eq_gd d hb]
      by_cases hc : cmp (gd d l i) (gd d l best) < 0
      · rw [if_pos hc]
        refine ih i (i + 1) (by omega) (by omega) (by omega) (by omega) ?_
        intro m hm1 hm2
        by_cases hmi : m = i
        · subst hmi
          rw [hswo.self_eq]
        · exact hswo.le_trans _ _ _ (le_of_lt hc) (h4 m hm1 (by omega))
      · rw [if_neg hc]
        refine ih best (i + 1) (by omega) h1 (by omega) (by omega) ?_
        intro m hm1 hm2
        by_cases hmi : m = i
        · subst hmi
          exact hswo.le_of_ge _ _ (by omega)
        · exact h4 m hm1 (by omega)

/-- `min_element` on a nonempty range returns an index of a minimum. -/
theorem min_element_spec {α : Type} (d : α) {cmp : α → α → Int}
    (hswo : IsSWO cmp) (l : List α) (first last : Nat)
    (hfl : first < last) (hlast : last ≤ l.length) :
    ∃ b, min_element cmp l first last = some b ∧ first ≤ b ∧ b < last ∧
      ∀ m, first ≤ m → m < last → cmp (gd d l b) (gd d l m) ≤ 0 := by
  rw [min_element, if_neg (by omega)]
  refine min_element_loop_spec d hswo l first last hlast (last - (first + 1))
    first (first + 1) (by omega) (by omega) (by omega) (by omega) ?_
  intro m hm1 hm2
  have hmf : m = first := by omega
  subst hmf
  rw [hswo.self_eq]

/-- The unguarded shift loop of the insertion sort: relative to the original
list `l` (of which `li` is the partially shifted copy), it terminates before
running off the front as soon as some position at or below the cursor holds a
value `x` compares `>=` to, and it places `x` at the stop position with the
skipped values shifted up by one. -/
theorem insertion_shift_spec {α : Type} (d : α) {cmp : α → α → Int}
    (x : α) (c : Nat) (l : List α) (hc : c < l.length) :
    ∀ prev (li : List α), li.length = l.length → prev < c →
      (∀ m, m ≤ prev → li[m]? = l[m]?) →
      (∀ m, c < m → li[m]? = l[m]?) →
      (∀ m, prev + 1 < m → m ≤ c → li[m]? = l[m - 1]?) →
      (∃ s, s ≤ prev ∧ cmp x (gd d l s) ≥ 0) →
      ∃ l1 pos, insertion_shift cmp x li prev = some l1 ∧
        l1.length = l.length ∧ 1 ≤ pos ∧ pos ≤ prev + 1 ∧
        cmp x (gd d l (pos - 1)) ≥ 0 ∧
        (∀ m, m < pos → l1[m]? = l[m]?) ∧
        l1[pos]? = some x ∧
        (∀ m, pos < m → m ≤ c → l1[m]? = l[m - 1]?) ∧
        (∀ m, c < m → l1[m]? = l[m]?) ∧
        (∀ m, pos ≤ m → m ≤ prev → cmp x (gd d l m) < 0) := by
  intro prev
  induction prev using Nat.strong_induction_on with
  | _ prev ih =>
    intro li hlen hprevc hlow hhigh hmid hstop
    have hprevl : prev < li.length := by omega
    have hv : li[prev]? = some (gd d l prev) := by
      rw [hlow prev (Nat.le_refl prev), getElem?_eq_gd d (by omega)]
    rw [insertion_shift]
    simp only [hv]
    by_cases hcase : cmp x (gd d l prev) < 0
    · rw [if_pos hcase]
      have hw := writeA_some li (prev + 1) (gd d l prev) (by omega)
      simp only [hw]
      obtain ⟨s, hs1, hs2⟩ := hstop
      have hsp : s ≠ prev := fun he => by rw [he] at hs2; omega
      rw [dif_neg (show ¬ prev = 0 by omega)]
      have hget := writeA_getElem? hw
      refine ih (prev - 1) (by omega) _ (by rw [writeA_length hw]; omega)
        (by omega) ?_ ?_ ?_ ⟨s, by omega, hs2⟩ |>.imp ?_
      · intro m hm
        rw [hget m, if_neg (by omega), hlow m (by omega)]
      · intro m hm
        rw [hget m, if_neg (by omega), hhigh m hm]
      · intro m hm1 hm2
        by_cases hmp : m = prev + 1
        · rw [hget m, if_pos hmp, hmp, getElem?_eq_gd d (by omega)]
          rfl
        · rw [hget m, if_neg hmp, hmid m (by omega) hm2]
      · intro l1 hl1
        obtain ⟨pos, h1, h2, h3, h4, h5, h6, h7, h8, h9, h10⟩ := hl1
        refine ⟨pos, h1, h2, h3, by omega, h5, h6, h7, h8, h9, ?_⟩
        intro m hm1 hm2
        by_cases hmp : m = prev
        · rw [hmp]; exact hcase
        · exact h10 m hm1 (by omega)
    · rw [if_neg hcase]
      have hw := writeA_some li (prev + 1) x (by omega)
      rw [hw]
      have hget := writeA_getElem? hw
      refine ⟨_, prev + 1, rfl, by rw [writeA_length hw]; omega, by omega,
        by omega, by simpa using by omega, ?_, ?_, ?_, ?_, by omega⟩
      · intro m hm
        rw [hget m, if_neg (by omega), hlow m (by omega)]
      · rw [hget (prev + 1), if_pos rfl]
      · intro m hm1 hm2
        rw [hget m, if_neg (by omega), hmid m (by omega) hm2]
      · intro m hm
        rw [hget m, if_neg (by omega), hhigh m hm]

theorem gd_congr {α : Type} (d : α) {l1 l2 : List α} {m k : Nat}
    (h : l1[m]? = l2[k]?) : gd d l1 m = gd d l2 k := by
  rw [gd, gd, h]

/-- Outer loop of the unguarded insertion sort: if the element at index 0 is
a minimum of the whole list (the sentinel) and the prefix `[0, c)` is already
sorted, the loop terminates without under-running the array and sorts
`[0, n)`, leaving `[n, length)` untouched. -/
theorem insertion_sort_unguarded_loop_spec {α : Type} (d : α)
    {cmp : α → α → Int} (hswo : IsSWO cmp) :
    ∀ fuel (l : List α) (c n : Nat), n - c ≤ fuel → 1 ≤ c → c ≤ n →
      n ≤ l.length →
      (∀ y ∈ l, cmp (gd d l 0) y ≤ 0) →
      (∀ i j, i ≤ j → j < c → cmp (gd d l i) (gd d l j) ≤ 0) →
      ∃ l', insertion_sort_unguarded_loop cmp l c n = some l' ∧
        l'.length = l.length ∧ List.Perm l' l ∧
        (∀ m, n ≤ m → l'[m]? = l[m]?) ∧
        (∀ i j, i ≤ j → j < n → cmp (gd d l' i) (gd d l' j) ≤ 0) := by
  intro fuel
  induction fuel with
  | zero =>
    intro l c n h0 h1 h2 h3 hmin hsorted
    have hcn : c = n := by omega
    subst hcn
    rw [insertion_sort_unguarded_loop, if_pos rfl]
    exact ⟨l, rfl, rfl, List.Perm.refl l, fun m hm => rfl, hsorted⟩
  | succ fuel ih =>
    intro l c n h0 h1 h2 h3 hmin hsorted
    by_cases hcn : c = n
    · subst hcn
      rw [insertion_sort_unguarded_loop, if_pos rfl]
      exact ⟨l, rfl, rfl, List.Perm.refl l, fun m hm => rfl, hsorted⟩
    · rw [insertion_sort_unguarded_loop, if_neg hcn, if_neg (by omega)]
      have hcl : c < l.length := by omega
      simp only [getElem?_eq_gd d hcl]
      have hxmem : gd d l c ∈ l :=
        List.mem_iff_getElem?.mpr ⟨c, getElem?_eq_gd d hcl⟩
      obtain ⟨l1, pos, heqS, hlen1, hpos1, hpos2, hstop2, hfL, hfx, hfmid,
          hfhigh, hskip⟩ :=
        insertion_shift_spec d (gd d l c) c l hcl (c - 1) l rfl (by omega)
          (fun m hm => rfl) (fun m hm => rfl)
          (fun m hm1 hm2 => absurd hm2 (by omega))
          ⟨0, by omega, hswo.ge_of_le _ _ (hmin (gd d l c) hxmem)⟩
      simp only [heqS]
      have hposc : pos ≤ c := by omega
      have hS1 : slice l1 pos (c + 1) = (gd d l c) :: slice l pos c := by
        apply List.ext_getElem?
        intro k
        match k with
        | 0 =>
          rw [slice_getElem?, if_pos (by omega), List.getElem?_cons_zero,
            Nat.add_zero]
          exact hfx
        | k + 1 =>
          rw [slice_getElem?, List.getElem?_cons_succ, slice_getElem?]
          by_cases hk : k < c - pos
          · rw [if_pos (by omega), if_pos hk,
              hfmid (pos + (k + 1)) (by omega) (by omega),
              show pos + (k + 1) - 1 = pos + k by omega]
          · rw [if_neg (by omega), if_neg hk]
      have hS2 : slice l pos (c + 1) = slice l pos c ++ [gd d l c] := by
        rw [slice_split l pos c (c + 1) (by omega) (by omega) (by omega),
          slice_single d l c hcl]
      have hperm1 : List.Perm l1 l := by
        refine perm_of_eq_outside_slice_perm pos (c + 1) hlen1 ?_ ?_
          (by omega) (by omega)
        · intro m hm
          rcases hm with hm | hm
          · exact hfL m hm
          · exact hfhigh m (by omega)
        · rw [hS1, hS2]
          exact (List.perm_append_singleton _ _).symm
      have hval : ∀ m, m ≤ c → gd d l1 m =
          if m < pos then gd d l m
          else if m = pos then gd d l c else gd d l (m - 1) := by
        intro m hm
        by_cases hm1 : m < pos
        · rw [if_pos hm1]
          exact gd_congr d (hfL m hm1)
        · rw [if_neg hm1]
          by_cases hm2 : m = pos
          · rw [if_pos hm2, hm2, gd, hfx]
            rfl
          · rw [if_neg hm2]
            exact gd_congr d (hfmid m (by omega) hm)
      have hsort1 : ∀ i j, i ≤ j → j < c + 1 →
          cmp (gd d l1 i) (gd d l1 j) ≤ 0 := by
        intro i j hij hj
        have hvi := hval i (by omega)
        have hvj := hval j (by omega)
        by_cases hi1 : i < pos
        · rw [if_pos hi1] at hvi
          by_cases hj1 : j < pos
          · rw [if_pos hj1] at hvj
            rw [hvi, hvj]
            exact hsorted i j hij (by omega)
          · rw [if_neg hj1] at hvj
            by_cases hj2 : j = pos
            · rw [if_pos hj2] at hvj
              rw [hvi, hvj]
              exact hswo.le_trans _ _ _
                (hsorted i (pos - 1) (by omega) (by omega))
                (hswo.le_of_ge _ _ hstop2)
            · rw [if_neg hj2] at hvj
              rw [hvi, hvj]
              exact hsorted i (j - 1) (by omega) (by omega)
        · by_cases hi2 : i = pos
          · rw [if_neg hi1, if_pos hi2] at hvi
            by_cases hj2 : j = pos
            · rw [if_neg (by omega), if_pos hj2] at hvj
              rw [hvi, hvj, hswo.self_eq]
            · rw [if_neg (by omega), if_neg hj2] at hvj
              rw [hvi, hvj]
              exact le_of_lt (hskip (j - 1) (by omega) (by omega))
          · rw [if_neg hi1, if_neg hi2] at hvi
            rw [if_neg (by omega), if_neg (by omega)] at hvj
            rw [hvi, hvj]
            exact hsorted (i - 1) (j - 1) (by omega) (by omega)
      have h0eq : gd d l1 0 = gd d l 0 := gd_congr d (hfL 0 (by omega))
      have hmin1 : ∀ y ∈ l1, cmp (gd d l1 0) y ≤ 0 := by
        intro y hy
        rw [h0eq]
        exact hmin y (hperm1.mem_iff.mp hy)
      obtain ⟨l2, heq2, hlen2, hperm2, hout2, hsort2⟩ :=
        ih l1 (c + 1) n (by omega) (by omega) (by omega) (by omega)
          hmin1 hsort1
      refine ⟨l2, heq2, by omega, hperm2.trans hperm1, ?_, hsort2⟩
      intro m hm
      rw [hout2 m hm, hfhigh m (by omega)]

/-- C1 (amended: nonempty range): on every nonempty range, under a
strict-weak-ordering comparator, `sort` succeeds and returns a permutation of
its input that is non-decreasing under the comparator.  (On the empty range
`sort` reads one past the end; see the companion counterexample.) -/
theorem sort_correct {α : Type} (d : α) {cmp : α → α → Int} (hswo : IsSWO cmp)
    (l : List α) (hne : l ≠ []) :
    ∃ l', sort cmp l = some l' ∧ List.Perm l' l ∧ SortedLe cmp l' := by
  have hn : 0 < l.length := List.length_pos.mpr hne
  obtain ⟨l1, p0, heqQ, hlen1, hperm1, hout1, _, hp0n, hp0pos, hpairs⟩ :=
    quick_sort_early_stop_spec d hswo l.length l 0 l.length (by omega)
      (Nat.le_refl _) (by omega)
  have hp01 : 0 < p0 := hp0pos hn
  obtain ⟨mi, heqM, _, hmp0, hminm⟩ :=
    min_element_spec d hswo l1 0 p0 hp01 (by omega)
  obtain ⟨l2, hswapEq⟩ : ∃ l2, swap l1 0 mi = some l2 :=
    ⟨_, swap_eq l1 0 mi (by omega) (by omega)⟩
  have hlen2 : l2.length = l1.length := swap_length hswapEq
  have hperm2 : List.Perm l2 l1 := swap_perm hswapEq
  have h20 : gd d l2 0 = gd d l1 mi := by
    have h := gd_of_swap d hswapEq 0
    rcases eq_or_ne (0 : Nat) mi with he | he
    · rw [h, if_pos he, ← he]
    · rw [h, if_neg he, if_pos rfl]
  have hmin2 : ∀ y ∈ l2, cmp (gd d l2 0) y ≤ 0 := by
    intro y hy
    have hy1 : y ∈ l1 := hperm2.mem_iff.mp hy
    obtain ⟨k, hk⟩ := List.mem_iff_getElem?.mp hy1
    have hkl : k < l1.length := by
      by_contra hkl
      rw [List.getElem?_eq_none (by omega)] at hk
      exact Option.noConfusion hk
    have hky : gd d l1 k = y := gd_of_getElem? d hk
    rw [h20, ← hky]
    by_cases hkp : k < p0
    · exact hminm k (by omega) hkp
    · refine hpairs (gd d l1 mi) (gd_mem_slice d (by omega) hmp0 (by omega))
        (gd d l1 k) (gd_mem_slice d (by omega) (by omega) (by omega))
  rw [sort]
  simp only [heqQ, heqM, hswapEq]
  rw [insertion_sort_unguarded, if_neg (by omega)]
  have hsorted1 : ∀ i j, i ≤ j → j < 1 → cmp (gd d l2 i) (gd d l2 j) ≤ 0 := by
    intro i j hij hj
    have hi0 : i = 0 := by omega
    have hj0 : j = 0 := by omega
    subst hi0
    subst hj0
    rw [hswo.self_eq]
  obtain ⟨l3, heqL, hlen3, hperm3, hout3, hsort3⟩ :=
    insertion_sort_unguarded_loop_spec d hswo l.length l2 1 l.length
      (by omega) (Nat.le_refl 1) (by omega) (by omega) hmin2 hsorted1
  refine ⟨l3, heqL, (hperm3.trans hperm2).trans hperm1, ?_⟩
  refine List.pairwise_iff_getElem.mpr ?_
  intro i j hi hj hij
  rw [← gd_eq_getElem d hi, ← gd_eq_getElem d hj]
  exact hsort3 i j (le_of_lt hij) (by omega)

/-- C1 counterexample to the unrestricted claim: on the empty range, `sort`
dereferences one past the end (the sentinel swap), so it does not return the
(trivially sorted) empty range. -/
theorem sort_empty_counterexample : sort intCmp ([] : List Int) = none := by
  simp [sort, quick_sort_early_stop, min_element, swap]

/-- Witness for C1 at a concrete input. -/
theorem sort_correct_witness :
    ∃ l', sort intCmp [(3 : Int), 1, 2] = some l' ∧
      List.Perm l' [(3 : Int), 1, 2] ∧ SortedLe intCmp l' :=
  sort_correct (0 : Int) intCmp_isSWO [(3 : Int), 1, 2] (by simp)


theorem IsSWO.lt_of_le_of_lt {α : Type} {cmp : α → α → Int} (h : IsSWO cmp)
    (a b c : α) (hab : cmp a b ≤ 0) (hbc : cmp b c < 0) : cmp a c < 0 := by
  by_contra hac
  have h1 : cmp c a ≤ 0 := h.le_of_ge a c (by omega)
  have h2 : cmp c b ≤ 0 := h.le_trans c a b h1 hab
  have h3 : cmp c b > 0 := (h.asym b c).mp hbc
  omega

theorem countP_le_of_high_false {α : Type} (p : α → Bool) (l : List α)
    (k : Nat) (d : α)
    (h : ∀ j, k ≤ j → j < l.length → p (gd d l j) = false) :
    l.countP p ≤ k := by
  have hc : l.countP p = (l.take k).countP p + (l.drop k).countP p := by
    conv_lhs => rw [← List.take_append_drop k l]
    rw [List.countP_append]
  have h2 : (l.drop k).countP p = 0 := by
    rw [List.countP_eq_zero]
    intro a ha
    obtain ⟨i, hi⟩ := List.mem_iff_getElem?.mp ha
    rw [List.getElem?_drop] at hi
    have hik : k + i < l.length := by
      by_contra hik
      rw [List.getElem?_eq_none (by omega)] at hi
      exact Option.noConfusion hi
    have hfalse := h (k + i) (by omega) hik
    rw [gd_of_getElem? d hi] at hfalse
    simp [hfalse]
  rw [hc, h2, Nat.add_zero]
  refine le_trans (List.countP_le_length p) ?_
  rw [List.length_take]
  omega

theorem le_countP_of_low_true {α : Type} (p : α → Bool) (l : List α)
    (k : Nat) (d : α) (hk : k ≤ l.length)
    (h : ∀ i, i < k → p (gd d l i) = true) : k ≤ l.countP p := by
  have hc : l.countP p = (l.take k).countP p + (l.drop k).countP p := by
    conv_lhs => rw [← List.take_append_drop k l]
    rw [List.countP_append]
  have h1 : (l.take k).countP p = (l.take k).length := by
    rw [List.countP_eq_length]
    intro a ha
    obtain ⟨i, hi⟩ := List.mem_iff_getElem?.mp ha
    rw [List.getElem?_take] at hi
    split at hi
    · rw [← gd_of_getElem? d hi]
      exact h i (by omega)
    · exact Option.noConfusion hi
  rw [hc, h1, List.length_take]
  omega

/-- A fence of the window `[a, b)` (everything left of `k` compares `<=`
everything right of it, `k` outside the permuted window) transfers from the
old list to the new one. -/
theorem fence_transfer {α : Type} {cmp : α → α → Int} {l l1 : List α}
    (hperm : List.Perm l1 l) (hlen : l1.length = l.length) (a b : Nat)
    (hout : ∀ m, m < a ∨ b ≤ m → l1[m]? = l[m]?) (k n : Nat)
    (hk : k ≤ a ∨ b ≤ k) (hkn : k ≤ n) (hn : n = l.length) (hb : b ≤ n)
    (hfence : ∀ x ∈ slice l 0 k, ∀ y ∈ slice l k n, cmp x y ≤ 0) :
    ∀ x ∈ slice l1 0 k, ∀ y ∈ slice l1 k n, cmp x y ≤ 0 := by
  rcases hk with hk | hk
  · have hx : slice l1 0 k = slice l 0 k :=
      slice_eq_of_outside_eq 0 k (fun m h1 h2 => hout m (Or.inl (by omega)))
    have hy : List.Perm (slice l1 k n) (slice l k n) :=
      slice_perm_of_perm_outside_eq hperm k n
        (fun m hm => hout m (by omega)) hkn
    intro x hxm y hym
    rw [hx] at hxm
    rw [hy.mem_iff] at hym
    exact hfence x hxm y hym
  · have hx : List.Perm (slice l1 0 k) (slice l 0 k) :=
      slice_perm_of_perm_outside_eq hperm 0 k
        (fun m hm => hout m (by omega)) (by omega)
    have hy : slice l1 k n = slice l k n :=
      slice_eq_of_outside_eq k n (fun m h1 h2 => hout m (Or.inr (by omega)))
    intro x hxm y hym
    rw [hx.mem_iff] at hxm
    rw [hy] at hym
    exact hfence x hxm y hym

/-- Loop of `nth_element`: the window `[first, last)` always contains `nth`,
shrinks every iteration, and keeps the two fences (left of the window
compares `<=` everything at or after `first`; everything before `last`
compares `<=` the region right of the window); at exit the window is exactly
`\x7bnth\x7d`, so both fences meet at `nth`. -/
theorem nth_element_loop_spec {α : Type} (d : α) {cmp : α → α → Int}
    (hswo : IsSWO cmp) (N : Nat) :
    ∀ fuel (l : List α) (first last nth : Nat), l.length = N →
      last - first ≤ fuel → first ≤ nth → nth < last → last ≤ N →
      (∀ x ∈ slice l 0 first, ∀ y ∈ slice l first N, cmp x y ≤ 0) →
      (∀ x ∈ slice l 0 last, ∀ y ∈ slice l last N, cmp x y ≤ 0) →
      ∃ l', nth_element_loop cmp l nth first last fuel = some l' ∧
        l'.length = N ∧ List.Perm l' l ∧
        (∀ x ∈ slice l' 0 nth, ∀ y ∈ slice l' nth N, cmp x y ≤ 0) ∧
        (∀ x ∈ slice l' 0 (nth + 1), ∀ y ∈ slice l' (nth + 1) N,
          cmp x y ≤ 0) := by
  intro fuel
  induction fuel with
  | zero =>
    intro l first last nth hN h0 h1 h2 h3 hLf hRf
    have hfl : first = nth ∧ last = nth + 1 := by omega
    obtain ⟨rfl, rfl⟩ := hfl
    rw [nth_element_loop, if_neg (by omega)]
    exact ⟨l, rfl, hN, List.Perm.refl l, hLf, hRf⟩
  | succ fuel ih =>
    intro l first last nth hN h0 h1 h2 h3 hLf hRf
    by_cases hwin : last - first > 1
    · rw [nth_element_loop, if_pos hwin]
      obtain ⟨l1, m, heqP, hlen1, hperm1, hout1, hmf, hml, hpre, hsuf,
          hpairs⟩ :=
        sort_partition_spec d hswo l first last (by omega) (by omega)
      simp only [heqP]
      have hLf1 : ∀ x ∈ slice l1 0 first, ∀ y ∈ slice l1 first N,
          cmp x y ≤ 0 :=
        fence_transfer hperm1 hlen1 first last hout1 first N (Or.inl
          (Nat.le_refl first)) (by omega) hN.symm (by omega) hLf
      have hRf1 : ∀ x ∈ slice l1 0 last, ∀ y ∈ slice l1 last N,
          cmp x y ≤ 0 :=
        fence_transfer hperm1 hlen1 first last hout1 last N
          (Or.inr (Nat.le_refl last)) (by omega) hN.symm (by omega) hRf
      have hFm : ∀ x ∈ slice l1 0 m, ∀ y ∈ slice l1 m N, cmp x y ≤ 0 := by
        intro x hx y hy
        rw [slice_split l1 0 first m (by omega) (by omega) (by omega),
          List.mem_append] at hx
        rw [slice_split l1 m last N (by omega) (by omega) (by omega),
          List.mem_append] at hy
        rcases hx with hx | hx
        · refine hLf1 x hx y ?_
          rw [slice_split l1 first m N (by omega) (by omega) (by omega),
            List.mem_append]
          rcases hy with hy | hy
          · refine Or.inr ?_
            rw [slice_split l1 m last N (by omega) (by omega) (by omega),
              List.mem_append]
            exact Or.inl hy
          · refine Or.inr ?_
            rw [slice_split l1 m last N (by omega) (by omega) (by omega),
              List.mem_append]
            exact Or.inr hy
        · rcases hy with hy | hy
          · exact hpairs x hx y hy
          · refine hRf1 x ?_ y hy
            rw [slice_split l1 0 first last (by omega) (by omega) (by omega),
              List.mem_append]
            refine Or.inr ?_
            rw [slice_split l1 first m last (by omega) (by omega) (by omega),
              List.mem_append]
            exact Or.inl hx
      by_cases hcase : m ≤ nth
      · rw [if_pos hcase]
        obtain ⟨l', heq', hlen', hperm', hf1, hf2⟩ :=
          ih l1 m last nth (by omega) (by omega) hcase h2 h3 hFm hRf1
        exact ⟨l', heq', hlen', hperm'.trans hperm1, hf1, hf2⟩
      · rw [if_neg hcase]
        obtain ⟨l', heq', hlen', hperm', hf1, hf2⟩ :=
          ih l1 first m nth (by omega) (by omega) h1 (by omega) (by omega)
            hLf1 hFm
        exact ⟨l', heq', hlen', hperm'.trans hperm1, hf1, hf2⟩
    · rw [nth_element_loop, if_neg hwin]
      have hfl : first = nth ∧ last = nth + 1 := by omega
      obtain ⟨rfl, rfl⟩ := hfl
      exact ⟨l, rfl, hN, List.Perm.refl l, hLf, hRf⟩

/-- The nth value after the fences hold is comparator-equal to the value any
sorted permutation has at that position. -/
theorem rank_eq_of_fences {α : Type} (d : α) {cmp : α → α → Int}
    (hswo : IsSWO cmp) (l' l2 : List α) (hperm : List.Perm l' l2)
    (nth : Nat) (hn : nth < l'.length)
    (hle : ∀ i, i < nth → cmp (gd d l' i) (gd d l' nth) ≤ 0)
    (hge : ∀ j, nth ≤ j → j < l'.length → cmp (gd d l' nth) (gd d l' j) ≤ 0)
    (hsorted : ∀ i j, i ≤ j → j < l2.length →
      cmp (gd d l2 i) (gd d l2 j) ≤ 0) :
    cmp (gd d l' nth) (gd d l2 nth) = 0 := by
  have hlen : l'.length = l2.length := hperm.length_eq
  have h1 : ¬ cmp (gd d l' nth) (gd d l2 nth) < 0 := by
    intro hvw
    have hcount1 : nth + 1 ≤
        l'.countP (fun z => decide (cmp z (gd d l2 nth) < 0)) := by
      refine le_countP_of_low_true _ l' (nth + 1) d (by omega) ?_
      intro i hi
      rcases Nat.lt_or_ge i nth with hi2 | hi2
      · simpa using hswo.lt_of_le_of_lt _ _ _ (hle i hi2) hvw
      · have hin : i = nth := by omega
        subst hin
        simpa using hvw
    have hcount2 :
        l2.countP (fun z => decide (cmp z (gd d l2 nth) < 0)) ≤ nth := by
      refine countP_le_of_high_false _ l2 nth d ?_
      intro j hj1 hj2
      have hge2 : cmp (gd d l2 j) (gd d l2 nth) ≥ 0 :=
        hswo.ge_of_le _ _ (hsorted nth j hj1 hj2)
      simpa using by omega
    rw [hperm.countP_eq] at hcount1
    omega
  have h2 : ¬ cmp (gd d l2 nth) (gd d l' nth) < 0 := by
    intro hwv
    have hcount1 : nth + 1 ≤
        l2.countP (fun z => decide (cmp z (gd d l' nth) < 0)) := by
      refine le_countP_of_low_true _ l2 (nth + 1) d (by omega) ?_
      intro i hi
      simpa using hswo.lt_of_le_of_lt _ _ _
        (hsorted i nth (by omega) (by omega)) hwv
    have hcount2 :
        l'.countP (fun z => decide (cmp z (gd d l' nth) < 0)) ≤ nth := by
      refine countP_le_of_high_false _ l' nth d ?_
      intro j hj1 hj2
      have hge2 : cmp (gd d l' j) (gd d l' nth) ≥ 0 :=
        hswo.ge_of_le _ _ (hge j hj1 hj2)
      simpa using by omega
    rw [← hperm.countP_eq] at hcount1
    omega
  have h3 : cmp (gd d l' nth) (gd d l2 nth) ≤ 0 :=
    hswo.le_of_ge _ _ (by omega)
  omega

/-- C6: `nth_element` permutes the range, places at `nth` a value every
earlier element compares `<=` to and every later element compares `>=` to,
and that value is comparator-equal to the one a full sort puts at `nth`. -/
theorem nth_element_correct {α : Type} (d : α) {cmp : α → α → Int}
    (hswo : IsSWO cmp) (l : List α) (nth : Nat) (h : nth < l.length) :
    ∃ l', nth_element cmp l nth = some l' ∧ l'.length = l.length ∧
      List.Perm l' l ∧
      (∀ i, i < nth → cmp (gd d l' i) (gd d l' nth) ≤ 0) ∧
      (∀ j, nth ≤ j → j < l.length →
        cmp (gd d l' nth) (gd d l' j) ≤ 0) ∧
      (∀ l2, List.Perm l2 l → SortedLe cmp l2 →
        cmp (gd d l' nth) (gd d l2 nth) = 0) := by
  obtain ⟨l', heq, hlen, hperm, hf1, hf2⟩ :=
    nth_element_loop_spec d hswo l.length l.length l 0 l.length nth rfl
      (Nat.le_refl _) (by omega) h (Nat.le_refl _)
      (by intro x hx; rw [show slice l 0 0 = [] from by rw [slice]; simp] at hx
          exact absurd hx (List.not_mem_nil x))
      (by intro x hx y hy
          rw [show slice l l.length l.length = [] from by rw [slice]; simp]
            at hy
          exact absurd hy (List.not_mem_nil y))
  rw [nth_element]
  have hle : ∀ i, i < nth → cmp (gd d l' i) (gd d l' nth) ≤ 0 := by
    intro i hi
    exact hf1 (gd d l' i) (gd_mem_slice d (by omega) hi (by omega))
      (gd d l' nth) (gd_mem_slice d (Nat.le_refl nth) h (by omega))
  have hge : ∀ j, nth ≤ j → j < l.length →
      cmp (gd d l' nth) (gd d l' j) ≤ 0 := by
    intro j hj1 hj2
    rcases Nat.lt_or_ge nth j with hj3 | hj3
    · exact hf2 (gd d l' nth) (gd_mem_slice d (by omega) (by omega)
        (by omega)) (gd d l' j) (gd_mem_slice d hj3 hj2 (by omega))
    · have hjn : j = nth := by omega
      subst hjn
      rw [hswo.self_eq]
  refine ⟨l', heq, hlen, hperm, hle, hge, ?_⟩
  intro l2 hperm2 hsort2
  refine rank_eq_of_fences d hswo l' l2 (hperm.trans hperm2.symm) nth
    (by omega) hle (by rw [hlen]; exact hge) ?_
  intro i j hij hj
  rcases Nat.lt_or_ge i j with hij2 | hij2
  · have := List.pairwise_iff_getElem.mp hsort2 i j (by omega) hj hij2
    rwa [gd_eq_getElem d (by omega), gd_eq_getElem d hj]
  · have hieq : i = j := by omega
    subst hieq
    rw [hswo.self_eq]

/-- Witness for C6 at a concrete input. -/
theorem nth_element_correct_witness :
    ∃ l', nth_element intCmp [(3 : Int), 1, 2] 1 = some l' ∧
      l'.length = 3 ∧ List.Perm l' [(3 : Int), 1, 2] ∧
      (∀ i, i < 1 → intCmp (gd 0 l' i) (gd 0 l' 1) ≤ 0) ∧
      (∀ j, 1 ≤ j → j < 3 →
        intCmp (gd 0 l' 1) (gd 0 l' j) ≤ 0) ∧
      (∀ l2, List.Perm l2 [(3 : Int), 1, 2] → SortedLe intCmp l2 →
        intCmp (gd 0 l' 1) (gd 0 l2 1) = 0) := by
  have h := nth_element_correct (0 : Int) intCmp_isSWO [(3 : Int), 1, 2] 1
    (by simp)
  simpa using h


/-- Strict lexicographic comparison of two lists under a three-way
comparator, as used to state the enumeration order of `next_permutation`. -/
def lexLtB {α : Type} (cmp : α → α → Int) : List α → List α → Bool
  | _, [] => false
  | [], _ :: _ => true
  | a :: as, b :: bs =>
    if cmp a b < 0 then true
    else if cmp a b = 0 then lexLtB cmp as bs
    else false

theorem IsSWO.eq_symm {α : Type} {cmp : α → α → Int} (h : IsSWO cmp)
    (a b : α) (hab : cmp a b = 0) : cmp b a = 0 := by
  rcases lt_trichotomy (cmp b a) 0 with h1 | h1 | h1
  · have := (h.asym b a).mp h1
    omega
  · exact h1
  · have := (h.asym a b).mpr h1
    omega

theorem IsSWO.eq_trans {α : Type} {cmp : α → α → Int} (h : IsSWO cmp)
    (a b c : α) (hab : cmp a b = 0) (hbc : cmp b c = 0) : cmp a c = 0 := by
  have hcb : cmp c b = 0 := h.eq_symm b c hbc
  have hba : cmp b a = 0 := h.eq_symm a b hab
  have h1 : cmp a c ≤ 0 := h.le_trans a b c (by omega) (by omega)
  have h2 : cmp c a ≤ 0 := h.le_trans c b a (by omega) (by omega)
  have h3 := h.ge_of_le c a h2
  omega

theorem IsSWO.lt_of_lt_of_le {α : Type} {cmp : α → α → Int} (h : IsSWO cmp)
    (a b c : α) (hab : cmp a b < 0) (hbc : cmp b c ≤ 0) : cmp a c < 0 := by
  by_contra hac
  have h1 : cmp c a ≤ 0 := h.le_of_ge a c (by omega)
  have h2 : cmp b a ≤ 0 := h.le_trans b c a hbc h1
  have h3 : cmp b a > 0 := (h.asym a b).mp hab
  omega

theorem gd_cons_zero {α : Type} (d : α) (a : α) (l : List α) :
    gd d (a :: l) 0 = a := by
  rw [gd, List.getElem?_cons_zero]
  rfl

theorem gd_cons_succ {α : Type} (d : α) (a : α) (l : List α) (i : Nat) :
    gd d (a :: l) (i + 1) = gd d l i := by
  rw [gd, gd, List.getElem?_cons_succ]

/-- Index characterisation of `lexLtB` on equal-length lists: there is a
first position where the two differ, and there the left compares `<`. -/
theorem lexLtB_iff {α : Type} (d : α) (cmp : α → α → Int) :
    ∀ (l m : List α), l.length = m.length →
      (lexLtB cmp l m = true ↔ ∃ k, k < l.length ∧
        (∀ i, i < k → cmp (gd d l i) (gd d m i) = 0) ∧
        cmp (gd d l k) (gd d m k) < 0) := by
  intro l
  induction l with
  | nil =>
    intro m hm
    match m with
    | [] =>
      rw [lexLtB]
      simp
    | b :: bs => simp at hm
  | cons a as ih =>
    intro m hm
    match m with
    | [] => simp at hm
    | b :: bs =>
      rw [lexLtB]
      by_cases h1 : cmp a b < 0
      · rw [if_pos h1]
        simp only [true_iff]
        exact ⟨0, by simp, fun i hi => absurd hi (by omega),
          by rw [gd_cons_zero, gd_cons_zero]; exact h1⟩
      · rw [if_neg h1]
        by_cases h2 : cmp a b = 0
        · rw [if_pos h2]
          rw [ih bs (by simpa using hm)]
          constructor
          · rintro ⟨k, hk, hpre, hlt⟩
            refine ⟨k + 1, by simp only [List.length_cons]; omega, ?_, ?_⟩
            · intro i hi
              match i with
              | 0 => rw [gd_cons_zero, gd_cons_zero]; exact h2
              | i + 1 =>
                rw [gd_cons_succ, gd_cons_succ]
                exact hpre i (by omega)
            · rw [gd_cons_succ, gd_cons_succ]
              exact hlt
          · rintro ⟨k, hk, hpre, hlt⟩
            match k with
            | 0 =>
              rw [gd_cons_zero, gd_cons_zero] at hlt
              omega
            | k + 1 =>
              rw [gd_cons_succ, gd_cons_succ] at hlt
              refine ⟨k, by simp only [List.length_cons] at hk; omega, ?_, hlt⟩
              intro i hi
              have := hpre (i + 1) (by omega)
              rwa [gd_cons_succ, gd_cons_succ] at this
        · rw [if_neg h2]
          refine iff_of_false (by simp) ?_
          rintro ⟨k, hk, hpre, hlt⟩
          match k with
          | 0 =>
            rw [gd_cons_zero, gd_cons_zero] at hlt
            omega
          | k + 1 =>
            have := hpre 0 (by omega)
            rw [gd_cons_zero, gd_cons_zero] at this
            omega

theorem lexLtB_self {α : Type} {cmp : α → α → Int} (hswo : IsSWO cmp) :
    ∀ l : List α, lexLtB cmp l l = false := by
  intro l
  induction l with
  | nil => rfl
  | cons a as ih =>
    rw [lexLtB, if_neg (by have := hswo.self_eq a; omega),
      if_pos (hswo.self_eq a)]
    exact ih

theorem lexLtB_asymm {α : Type} {cmp : α → α → Int} (hswo : IsSWO cmp) :
    ∀ l m : List α, lexLtB cmp l m = true → lexLtB cmp m l = true → False := by
  intro l
  induction l with
  | nil =>
    intro m h1 h2
    match m with
    | [] => exact Bool.noConfusion h1
    | b :: bs => rw [lexLtB] at h2; exact Bool.noConfusion h2
  | cons a as ih =>
    intro m h1 h2
    match m with
    | [] => rw [lexLtB] at h1; exact Bool.noConfusion h1
    | b :: bs =>
      rw [lexLtB] at h1 h2
      by_cases hab : cmp a b < 0
      · have hba : cmp b a > 0 := (hswo.asym a b).mp hab
        rw [if_neg (by omega), if_neg (by omega)] at h2
        exact Bool.noConfusion h2
      · by_cases heq : cmp a b = 0
        · have heq2 := hswo.eq_symm a b heq
          rw [if_neg hab, if_pos heq] at h1
          rw [if_neg (by omega), if_pos heq2] at h2
          exact ih bs h1 h2
        · rw [if_neg hab, if_neg heq] at h1
          exact Bool.noConfusion h1

theorem lexLtB_cotrans {α : Type} {cmp : α → α → Int} (hswo : IsSWO cmp) :
    ∀ c a b : List α, lexLtB cmp c a = true →
      lexLtB cmp c b = true ∨ lexLtB cmp b a = true := by
  intro c
  induction c with
  | nil =>
    intro a b h1
    match a with
    | [] => exact Bool.noConfusion h1
    | aa :: as =>
      match b with
      | [] => exact Or.inr rfl
      | bb :: bs => exact Or.inl rfl
  | cons cc cs ih =>
    intro a b h1
    match a with
    | [] => rw [lexLtB] at h1; exact Bool.noConfusion h1
    | aa :: as =>
      match b with
      | [] => exact Or.inr rfl
      | bb :: bs =>
        rw [lexLtB] at h1
        rcases lt_trichotomy (cmp cc bb) 0 with hccbb | hccbb | hccbb
        · refine Or.inl ?_
          rw [lexLtB, if_pos hccbb]
        · have hbbcc : cmp bb cc = 0 := hswo.eq_symm cc bb hccbb
          by_cases hccaa : cmp cc aa < 0
          · refine Or.inr ?_
            rw [lexLtB, if_pos (hswo.lt_of_le_of_lt bb cc aa (by omega) hccaa)]
          · by_cases heq : cmp cc aa = 0
            · rw [if_neg hccaa, if_pos heq] at h1
              have hbbaa : cmp bb aa = 0 := hswo.eq_trans bb cc aa hbbcc heq
              rcases ih as bs h1 with hl | hr
              · refine Or.inl ?_
                rw [lexLtB, if_neg (by omega), if_pos hccbb]
                exact hl
              · refine Or.inr ?_
                rw [lexLtB, if_neg (by omega), if_pos hbbaa]
                exact hr
            · rw [if_neg hccaa, if_neg heq] at h1
              exact Bool.noConfusion h1
        · have hbbcc : cmp bb cc < 0 := (hswo.asym bb cc).mpr hccbb
          by_cases hccaa : cmp cc aa < 0
          · refine Or.inr ?_
            rw [lexLtB, if_pos (hswo.lt_trans bb cc aa hbbcc hccaa)]
          · by_cases heq : cmp cc aa = 0
            · refine Or.inr ?_
              rw [lexLtB, if_pos (hswo.lt_of_lt_of_le bb cc aa hbbcc (by omega))]
            · rw [if_neg hccaa, if_neg heq] at h1
              exact Bool.noConfusion h1

theorem exists_first_diff {α : Type} (l m : List α)
    (hlen : l.length = m.length) (hne : l ≠ m) :
    ∃ k, k < l.length ∧ (∀ i, i < k → l[i]? = m[i]?) ∧ ¬ l[k]? = m[k]? := by
  have hex : ∃ k : Nat, ¬ l[k]? = m[k]? := by
    by_contra hc
    push_neg at hc
    exact hne (List.ext_getElem? hc)
  classical
  refine ⟨Nat.find hex, ?_, ?_, Nat.find_spec hex⟩
  · by_contra hk
    have h1 : l[Nat.find hex]? = none := List.getElem?_eq_none (by omega)
    have h2 : m[Nat.find hex]? = none := List.getElem?_eq_none (by omega)
    exact Nat.find_spec hex (h1.trans h2.symm)
  · intro i hi
    have := Nat.find_min hex hi
    simpa using this

/-- A strictly ascending list is lexicographically least among its
permutations. -/
theorem asc_lex_min {α : Type} (d : α) {cmp : α → α → Int} (hswo : IsSWO cmp)
    (s m : List α) (hs : s.Pairwise (fun a b => cmp a b < 0))
    (hperm : List.Perm m s) (hne : m ≠ s) : lexLtB cmp s m = true := by
  have hlen : m.length = s.length := hperm.length_eq
  obtain ⟨k, hk, hpre, hdiff⟩ :=
    exists_first_diff s m (by omega) (fun he => hne he.symm)
  refine (lexLtB_iff d cmp s m (by omega)).mpr ⟨k, hk, ?_, ?_⟩
  · intro i hi
    rw [gd_congr d (hpre i hi)]
    exact hswo.self_eq _
  · have hsl : List.Perm (slice m k s.length) (slice s k s.length) := by
      refine slice_perm_of_perm_outside_eq hperm k s.length ?_ (by omega)
      intro j hj
      rcases hj with hj | hj
      · exact (hpre j hj).symm
      · rw [List.getElem?_eq_none (by omega), List.getElem?_eq_none (by omega)]
    have hmk : gd d m k ∈ slice s k s.length := by
      rw [← hsl.mem_iff]
      exact gd_mem_slice d (Nat.le_refl k) (by omega) (by omega)
    rw [slice_split s k (k + 1) s.length (by omega) (by omega) (Nat.le_refl _),
      slice_single d s k (by omega), List.mem_append] at hmk
    have hne2 : gd d m k ≠ gd d s k := by
      intro he
      refine hdiff ?_
      rw [getElem?_eq_gd d (show k < s.length by omega),
        getElem?_eq_gd d (show k < m.length by omega), he]
    rcases hmk with hmk | hmk
    · simp only [List.mem_singleton] at hmk
      exact absurd hmk hne2
    · obtain ⟨j, hj1, hj2, hj3⟩ := mem_slice.mp hmk
      have hps := List.pairwise_iff_getElem.mp hs k j (by omega) (by omega)
        (by omega)
      rw [← gd_eq_getElem d (show k < s.length by omega),
        ← gd_eq_getElem d (show j < s.length by omega)] at hps
      rw [← gd_of_getElem? d hj3]
      exact hps

/-- A strictly descending list is lexicographically greatest among its
permutations. -/
theorem desc_lex_max {α : Type} (d : α) {cmp : α → α → Int} (hswo : IsSWO cmp)
    (s m : List α) (hs : s.Pairwise (fun a b => cmp b a < 0))
    (hperm : List.Perm m s) (hne : m ≠ s) : lexLtB cmp m s = true := by
  have hlen : m.length = s.length := hperm.length_eq
  obtain ⟨k, hk, hpre, hdiff⟩ :=
    exists_first_diff s m (by omega) (fun he => hne he.symm)
  refine (lexLtB_iff d cmp m s (by omega)).mpr ⟨k, by omega, ?_, ?_⟩
  · intro i hi
    rw [gd_congr d (hpre i hi).symm]
    exact hswo.self_eq _
  · have hsl : List.Perm (slice m k s.length) (slice s k s.length) := by
      refine slice_perm_of_perm_outside_eq hperm k s.length ?_ (by omega)
      intro j hj
      rcases hj with hj | hj
      · exact (hpre j hj).symm
      · rw [List.getElem?_eq_none (by omega), List.getElem?_eq_none (by omega)]
    have hmk : gd d m k ∈ slice s k s.length := by
      rw [← hsl.mem_iff]
      exact gd_mem_slice d (Nat.le_refl k) (by omega) (by omega)
    rw [slice_split s k (k + 1) s.length (by omega) (by omega) (Nat.le_refl _),
      slice_single d s k (by omega), List.mem_append] at hmk
    have hne2 : gd d m k ≠ gd d s k := by
      intro he
      refine hdiff ?_
      rw [getElem?_eq_gd d (show k < s.length by omega),
        getElem?_eq_gd d (show k < m.length by omega), he]
    rcases hmk with hmk | hmk
    · simp only [List.mem_singleton] at hmk
      exact absurd hmk hne2
    · obtain ⟨j, hj1, hj2, hj3⟩ := mem_slice.mp hmk
      have hps := List.pairwise_iff_getElem.mp hs k j (by omega) (by omega)
        (by omega)
      rw [← gd_eq_getElem d (show k < s.length by omega),
        ← gd_eq_getElem d (show j < s.length by omega)] at hps
      rw [← gd_of_getElem? d hj3]
      exact hps

/-- The ascending arrangement of pairwise comparator-distinct elements is
unique among permutations. -/
theorem perm_asc_unique {α : Type} (d : α) {cmp : α → α → Int}
    (hswo : IsSWO cmp) (s m : List α)
    (hs : s.Pairwise (fun a b => cmp a b < 0))
    (hm : m.Pairwise (fun a b => cmp a b < 0)) (hperm : List.Perm m s) :
    m = s := by
  by_contra hne
  exact lexLtB_asymm hswo s m (asc_lex_min d hswo s m hs hperm hne)
    (asc_lex_min d hswo m s hm hperm.symm (fun he => hne he.symm))

theorem perm_desc_unique {α : Type} (d : α) {cmp : α → α → Int}
    (hswo : IsSWO cmp) (s m : List α)
    (hs : s.Pairwise (fun a b => cmp b a < 0))
    (hm : m.Pairwise (fun a b => cmp b a < 0)) (hperm : List.Perm m s) :
    m = s := by
  by_contra hne
  exact lexLtB_asymm hswo m s (desc_lex_max d hswo s m hs hperm hne)
    (desc_lex_max d hswo m s hm hperm.symm (fun he => hne he.symm))


theorem gd_mem {α : Type} (d : α) {l : List α} {i : Nat} (h : i < l.length) :
    gd d l i ∈ l :=
  List.mem_iff_getElem?.mpr ⟨i, getElem?_eq_gd d h⟩

/-- Transitive closure of adjacent strict descents. -/
theorem desc_chain {α : Type} (d : α) {cmp : α → α → Int} (hswo : IsSWO cmp)
    (l : List α) (a b : Nat)
    (h : ∀ k, a ≤ k → k + 1 < b → cmp (gd d l (k + 1)) (gd d l k) < 0) :
    ∀ i j, a ≤ i → i < j → j < b → cmp (gd d l j) (gd d l i) < 0 := by
  have key : ∀ t i, a ≤ i → i + t + 1 < b →
      cmp (gd d l (i + t + 1)) (gd d l i) < 0 := by
    intro t
    induction t with
    | zero =>
      intro i h1 h2
      exact h i h1 h2
    | succ t ih =>
      intro i h1 h2
      refine hswo.lt_trans _ _ _ ?_ (ih i h1 (by omega))
      have := h (i + t + 1) (by omega) (by omega)
      rwa [show i + t + 1 + 1 = i + (t + 1) + 1 by omega] at this
  intro i j h1 h2 h3
  have := key (j - i - 1) i h1 (by omega)
  rwa [show i + (j - i - 1) + 1 = j by omega] at this

theorem pairwise_slice_of_gd {α : Type} (d : α) {R : α → α → Prop}
    {l : List α} {a b : Nat} (hb : b ≤ l.length)
    (h : ∀ i j, a ≤ i → i < j → j < b → R (gd d l i) (gd d l j)) :
    (slice l a b).Pairwise R := by
  refine List.pairwise_iff_getElem.mpr ?_
  intro i j hi hj hij
  rw [slice_length l a b hb] at hi hj
  have h1 : (slice l a b)[i]? = l[a + i]? := by
    rw [slice_getElem?, if_pos (by omega)]
  have h2 : (slice l a b)[j]? = l[a + j]? := by
    rw [slice_getElem?, if_pos (by omega)]
  rw [← gd_eq_getElem d, ← gd_eq_getElem d, gd_congr d h1, gd_congr d h2]
  exact h (a + i) (a + j) (by omega) (by omega) (by omega)

/-- Spec of the suffix scan of `next_permutation`. -/
theorem np_find_suffix_spec {α : Type} (d : α) (cmp : α → α → Int)
    (l : List α) :
    ∀ li, li < l.length →
      np_find_suffix cmp l li ≤ li ∧
      (∀ k, np_find_suffix cmp l li ≤ k → k < li →
        cmp (gd d l k) (gd d l (k + 1)) ≥ 0) ∧
      (np_find_suffix cmp l li ≠ 0 →
        cmp (gd d l (np_find_suffix cmp l li - 1))
          (gd d l (np_find_suffix cmp l li)) < 0) := by
  intro li
  induction li using Nat.strong_induction_on with
  | _ li ih =>
    intro hli
    by_cases h0 : li = 0
    · subst h0
      rw [np_find_suffix, dif_pos rfl]
      exact ⟨Nat.le_refl 0, fun k hk1 hk2 => absurd hk2 (by omega),
        fun h => absurd rfl h⟩
    · rw [np_find_suffix, dif_neg h0]
      simp only [getElem?_eq_gd d (show li - 1 < l.length by omega),
        getElem?_eq_gd d hli]
      by_cases hc : cmp (gd d l (li - 1)) (gd d l li) ≥ 0
      · rw [if_pos hc]
        obtain ⟨ha, hb2, hc2⟩ := ih (li - 1) (by omega) (by omega)
        refine ⟨by omega, ?_, hc2⟩
        intro k hk1 hk2
        by_cases hkl : k = li - 1
        · subst hkl
          rwa [show li - 1 + 1 = li by omega]
        · exact hb2 k hk1 (by omega)
      · rw [if_neg hc]
        exact ⟨Nat.le_refl li, fun k hk1 hk2 => absurd hk1 (by omega),
          fun h => by omega⟩

/-- Spec of the swap-target scan of `next_permutation`. -/
theorem np_find_swap_spec {α : Type} (d : α) (cmp : α → α → Int)
    (l : List α) (pivot : Nat) :
    ∀ f, f < l.length →
      (∃ s, pivot < s ∧ s ≤ f ∧ cmp (gd d l pivot) (gd d l s) < 0) →
      pivot < np_find_swap cmp l pivot f ∧
      np_find_swap cmp l pivot f ≤ f ∧
      cmp (gd d l pivot) (gd d l (np_find_swap cmp l pivot f)) < 0 ∧
      (∀ k, np_find_swap cmp l pivot f < k → k ≤ f →
        cmp (gd d l pivot) (gd d l k) ≥ 0) := by
  intro f
  induction f using Nat.strong_induction_on with
  | _ f ih =>
    intro hf hstop
    obtain ⟨s, hs1, hs2, hs3⟩ := hstop
    rw [np_find_swap, dif_neg (show ¬ f = pivot by omega),
      dif_neg (show ¬ f = 0 by omega)]
    simp only [getElem?_eq_gd d (show pivot < l.length by omega),
      getElem?_eq_gd d hf]
    by_cases hc : cmp (gd d l pivot) (gd d l f) ≥ 0
    · rw [if_pos hc]
      have hsf : s ≠ f := by
        intro he
        rw [he] at hs3
        omega
      obtain ⟨ha, hb2, hc2, hd2⟩ := ih (f - 1) (by omega) (by omega)
        ⟨s, hs1, by omega, hs3⟩
      refine ⟨ha, by omega, hc2, ?_⟩
      intro k hk1 hk2
      by_cases hkf : k = f
      · subst hkf
        exact hc
      · exact hd2 k hk1 (by omega)
    · rw [if_neg hc]
      exact ⟨by omega, Nat.le_refl f, by omega,
        fun k hk1 hk2 => absurd hk1 (by omega)⟩

/-- Case analysis of `next_permutation` on a strictly descending range: it
reverses the range (restoring ascending order) and reports `false`. -/
theorem next_permutation_desc {α : Type} (d : α) {cmp : α → α → Int}
    (hswo : IsSWO cmp) (l : List α) (hne : l ≠ [])
    (hdesc : l.Pairwise (fun a b => cmp b a < 0)) :
    next_permutation cmp l = some (l.reverse, false) := by
  have hn : 0 < l.length := List.length_pos.mpr hne
  have hli : np_find_suffix cmp l (l.length - 1) = 0 := by
    by_contra hli0
    obtain ⟨h1, h2, h3⟩ := np_find_suffix_spec d cmp l (l.length - 1)
      (by omega)
    have h4 := h3 hli0
    set li := np_find_suffix cmp l (l.length - 1) with hlidef
    have h5 := List.pairwise_iff_getElem.mp hdesc (li - 1) li
      (by omega) (by omega) (by omega)
    rw [← gd_eq_getElem d, ← gd_eq_getElem d] at h5
    have h6 := (hswo.asym (gd d l li) (gd d l (li - 1))).mp h5
    omega
  have hrev : reverse l 0 l.length = some l.reverse := by
    rw [reverse, if_pos ⟨by omega, Nat.le_refl _⟩]
    simp
  rw [next_permutation, if_neg (by omega)]
  simp only [hli, hrev]
  simp

/-- Case analysis of `next_permutation` on a not-fully-descending range of
pairwise comparator-distinct elements: it returns `true` and replaces the
range with its immediate lexicographic successor among its permutations. -/
theorem next_permutation_succ {α : Type} (d : α) {cmp : α → α → Int}
    (hswo : IsSWO cmp) (l : List α) (hne : l ≠ [])
    (hcomp : ∀ x ∈ l, ∀ y ∈ l, cmp x y = 0 → x = y) (hnodup : l.Nodup)
    (hnotdesc : ¬ l.Pairwise (fun a b => cmp b a < 0)) :
    ∃ l', next_permutation cmp l = some (l', true) ∧ List.Perm l' l ∧
      lexLtB cmp l l' = true ∧
      ∀ m, List.Perm m l → lexLtB cmp l m = true →
        m = l' ∨ lexLtB cmp l' m = true := by
  have hn : 0 < l.length := List.length_pos.mpr hne
  have hdist : ∀ i j, i < j → j < l.length →
      cmp (gd d l i) (gd d l j) ≠ 0 := by
    intro i j hij hj he
    have heq : gd d l i = gd d l j :=
      hcomp _ (gd_mem d (by omega)) _ (gd_mem d hj) he
    rw [gd_eq_getElem d (by omega), gd_eq_getElem d hj] at heq
    have := (List.Nodup.getElem_inj_iff hnodup).mp heq
    omega
  obtain ⟨hs1, hs2, hs3⟩ := np_find_suffix_spec d cmp l (l.length - 1)
    (by omega)
  set LI := np_find_suffix cmp l (l.length - 1) with hLIdef
  have hLI0 : LI ≠ 0 := by
    intro h0
    refine hnotdesc (List.pairwise_iff_getElem.mpr ?_)
    intro i j hi hj hij
    rw [← gd_eq_getElem d hj, ← gd_eq_getElem d hi]
    refine desc_chain d hswo l 0 l.length ?_ i j (by omega) hij hj
    intro k hk1 hk2
    have hge := hs2 k (by omega) (by omega)
    have hne2 := hdist k (k + 1) (by omega) (by omega)
    exact (hswo.asym (gd d l (k + 1)) (gd d l k)).mpr (by omega)
  set pivot := LI - 1 with hpivdef
  have hLIpiv : pivot + 1 = LI := by omega
  have hLIn : LI ≤ l.length - 1 := hs1
  have hpv : cmp (gd d l pivot) (gd d l LI) < 0 := hs3 hLI0
  obtain ⟨hF1, hF2, hF3, hF4⟩ := np_find_swap_spec d cmp l pivot
    (l.length - 1) (by omega) ⟨LI, by omega, by omega, hpv⟩
  set F := np_find_swap cmp l pivot (l.length - 1) with hFdef
  have hadj : ∀ k, LI ≤ k → k + 1 < l.length →
      cmp (gd d l (k + 1)) (gd d l k) < 0 := by
    intro k hk1 hk2
    have hge := hs2 k hk1 (by omega)
    have hne2 := hdist k (k + 1) (by omega) (by omega)
    exact (hswo.asym (gd d l (k + 1)) (gd d l k)).mpr (by omega)
  have hdescl : ∀ i j, LI ≤ i → i < j → j < l.length →
      cmp (gd d l j) (gd d l i) < 0 :=
    desc_chain d hswo l LI l.length hadj
  obtain ⟨l1, hswap⟩ : ∃ l1, swap l pivot F = some l1 :=
    ⟨_, swap_eq l pivot F (by omega) (by omega)⟩
  have hlen1 : l1.length = l.length := swap_length hswap
  have hperm1 : List.Perm l1 l := swap_perm hswap
  have hgd1 := gd_of_swap d hswap
  have hrev : reverse l1 LI l.length =
      some (l1.take LI ++ (slice l1 LI l.length).reverse) := by
    rw [reverse, if_pos ⟨by omega, by omega⟩, slice,
      show l1.drop l.length = [] from by rw [← hlen1, List.drop_length],
      List.append_nil]
  set L2 := l1.take LI ++ (slice l1 LI l.length).reverse with hL2def
  have htakelen : (l1.take LI).length = LI := by
    rw [List.length_take]
    omega
  have hslicelen : (slice l1 LI l.length).length = l.length - LI :=
    slice_length l1 LI l.length (by omega)
  have hlen2 : L2.length = l.length := by
    rw [hL2def, List.length_append, htakelen, List.length_reverse,
      hslicelen]
    omega
  have hL2low : ∀ m, m < LI → L2[m]? = l1[m]? := by
    intro m hm
    rw [hL2def, List.getElem?_append_left (by rw [htakelen]; omega),
      List.getElem?_take, if_pos hm]
  have hL2high : ∀ m, LI ≤ m → m < l.length →
      L2[m]? = l1[l.length - 1 - (m - LI)]? := by
    intro m hm1 hm2
    rw [hL2def, List.getElem?_append_right (by rw [htakelen]; omega),
      htakelen, List.getElem?_reverse (by rw [hslicelen]; omega),
      hslicelen, slice_getElem?, if_pos (by omega),
      show LI + (l.length - LI - 1 - (m - LI)) = l.length - 1 - (m - LI)
        by omega]
  have hv_low : ∀ m, m < pivot → gd d L2 m = gd d l m := by
    intro m hm
    rw [gd_congr d (hL2low m (by omega)), hgd1 m, if_neg (by omega),
      if_neg (by omega)]
  have hv_piv : gd d L2 pivot = gd d l F := by
    rw [gd_congr d (hL2low pivot (by omega)), hgd1 pivot,
      if_neg (by omega), if_pos rfl]
  have hv_suf : ∀ m, LI ≤ m → m < l.length →
      gd d L2 m = gd d l1 (l.length - 1 - (m - LI)) := by
    intro m hm1 hm2
    exact gd_congr d (hL2high m hm1 hm2)
  have hadj1 : ∀ k, LI ≤ k → k + 1 < l.length →
      cmp (gd d l1 (k + 1)) (gd d l1 k) < 0 := by
    intro k hk1 hk2
    by_cases hkf1 : k + 1 = F
    · rw [hgd1 (k + 1), if_pos hkf1, hgd1 k, if_neg (by omega),
        if_neg (by omega)]
      exact hswo.lt_trans _ _ _ hF3 (hdescl k F hk1 (by omega) (by omega))
    · by_cases hkf : k = F
      · rw [hgd1 (k + 1), if_neg hkf1, if_neg (by omega), hgd1 k,
          if_pos hkf]
        have hge := hF4 (k + 1) (by omega) (by omega)
        have hne2 := hdist pivot (k + 1) (by omega) (by omega)
        exact (hswo.asym (gd d l (k + 1)) (gd d l pivot)).mpr (by omega)
      · rw [hgd1 (k + 1), if_neg hkf1, if_neg (by omega), hgd1 k,
          if_neg hkf, if_neg (by omega)]
        exact hadj k hk1 hk2
  have hdesc1 : ∀ i j, LI ≤ i → i < j → j < l.length →
      cmp (gd d l1 j) (gd d l1 i) < 0 :=
    desc_chain d hswo l1 LI l.length hadj1
  have hasc2 : ∀ i j, LI ≤ i → i < j → j < l.length →
      cmp (gd d L2 i) (gd d L2 j) < 0 := by
    intro i j h1 h2 h3
    rw [hv_suf i h1 (by omega), hv_suf j (by omega) h3]
    exact hdesc1 (l.length - 1 - (j - LI)) (l.length - 1 - (i - LI))
      (by omega) (by omega) (by omega)
  have hperm2 : List.Perm L2 l1 := by
    rw [hL2def]
    conv_rhs => rw [slice_decomp l1 LI l.length (by omega)]
    rw [show l1.drop l.length = [] from by rw [← hlen1, List.drop_length],
      List.append_nil]
    exact (List.reverse_perm (slice l1 LI l.length)).append_left
      (l1.take LI)
  have hperm2l : List.Perm L2 l := hperm2.trans hperm1
  have hmain : next_permutation cmp l = some (L2, true) := by
    rw [next_permutation, if_neg (by omega)]
    simp only [← hLIdef, ← hpivdef, ← hFdef, hswap, hrev, ← hL2def]
    rw [if_pos hLI0]
  have hlex : lexLtB cmp l L2 = true := by
    refine (lexLtB_iff d cmp l L2 (by omega)).mpr ⟨pivot, by omega, ?_, ?_⟩
    · intro i hi
      rw [hv_low i hi]
      exact hswo.self_eq _
    · rw [hv_piv]
      exact hF3
  refine ⟨L2, hmain, hperm2l, hlex, ?_⟩
  intro m hpermm hlm
  have hlenm : m.length = l.length := hpermm.length_eq
  obtain ⟨k, hk, hpre, hklt⟩ := (lexLtB_iff d cmp l m (by omega)).mp hlm
  have hmem_m : ∀ i, i < l.length → gd d m i ∈ l := fun i hi =>
    hpermm.mem_iff.mp (gd_mem d (by omega))
  have hprefix_eq : ∀ i, i < k → m[i]? = l[i]? := by
    intro i hi
    have he := hcomp (gd d l i) (gd_mem d (by omega)) (gd d m i)
      (hmem_m i (by omega)) (hpre i hi)
    rw [getElem?_eq_gd d (show i < m.length by omega),
      getElem?_eq_gd d (show i < l.length by omega), he]
  rcases lt_trichotomy k pivot with hkp | hkp | hkp
  · refine Or.inr ((lexLtB_iff d cmp L2 m (by omega)).mpr
      ⟨k, by omega, ?_, ?_⟩)
    · intro i hi
      rw [hv_low i (by omega)]
      exact hpre i hi
    · rw [hv_low k (by omega)]
      exact hklt
  · subst hkp
    have hxslice : gd d m pivot ∈ slice l pivot l.length := by
      have h1 : gd d m pivot ∈ slice m pivot l.length :=
        gd_mem_slice d (Nat.le_refl pivot) (by omega) (by omega)
      have h2 : List.Perm (slice m pivot l.length) (slice l pivot l.length) := by
        refine slice_perm_of_perm_outside_eq hpermm pivot l.length ?_ (by omega)
        intro j hj
        rcases hj with hj | hj
        · exact hprefix_eq j hj
        · rw [List.getElem?_eq_none (by omega),
            List.getElem?_eq_none (by omega)]
      exact h2.mem_iff.mp h1
    obtain ⟨jx, hjx1, hjx2, hjx3⟩ := mem_slice.mp hxslice
    have hjxg : gd d l jx = gd d m pivot := gd_of_getElem? d hjx3
    have hjxne : jx ≠ pivot := by
      intro he
      rw [he] at hjxg
      rw [← hjxg, hswo.self_eq] at hklt
      omega
    have hjxF : jx ≤ F := by
      by_contra hjf
      have hge := hF4 jx (by omega) (by omega)
      rw [hjxg] at hge
      omega
    have hminx : cmp (gd d l F) (gd d m pivot) ≤ 0 := by
      rcases eq_or_lt_of_le hjxF with hj | hj
      · rw [← hj, hjxg]
        exact le_of_eq (hswo.self_eq _)
      · rw [← hjxg]
        exact le_of_lt (hdescl jx F (by omega) hj (by omega))
    by_cases hstrict : cmp (gd d l F) (gd d m pivot) < 0
    · refine Or.inr ((lexLtB_iff d cmp L2 m (by omega)).mpr
        ⟨pivot, by omega, ?_, ?_⟩)
      · intro i hi
        rw [hv_low i hi]
        exact hpre i hi
      · rw [hv_piv]
        exact hstrict
    · have heqx : gd d l F = gd d m pivot :=
        hcomp _ (gd_mem d (by omega)) _ (hmem_m pivot (by omega)) (by omega)
      have hagree : ∀ i, i < LI → m[i]? = L2[i]? := by
        intro i hi
        by_cases hip : i < pivot
        · rw [hprefix_eq i hip, hL2low i hi,
            swap_getElem?_ne hswap i (by omega) (by omega)]
        · have hik : i = pivot := by omega
          rw [hik, getElem?_eq_gd d (show pivot < m.length by omega),
            getElem?_eq_gd d (show pivot < L2.length by omega), hv_piv, heqx]
      have hpermmL2 : List.Perm m L2 := hpermm.trans hperm2l.symm
      have hslperm : List.Perm (slice m LI l.length)
          (slice L2 LI l.length) := by
        refine slice_perm_of_perm_outside_eq hpermmL2 LI l.length ?_
          (by omega)
        intro j hj
        rcases hj with hj | hj
        · exact hagree j hj
        · rw [List.getElem?_eq_none (by omega),
            List.getElem?_eq_none (by omega)]
      by_cases heqsl : slice m LI l.length = slice L2 LI l.length
      · refine Or.inl (List.ext_getElem? ?_)
        intro i
        by_cases hi1 : i < LI
        · exact hagree i hi1
        · by_cases hi2 : i < l.length
          · have h1 : (slice m LI l.length)[i - LI]? =
                (slice L2 LI l.length)[i - LI]? := by rw [heqsl]
            rw [slice_getElem?, slice_getElem?, if_pos (by omega),
              if_pos (by omega), show LI + (i - LI) = i by omega] at h1
            exact h1
          · rw [List.getElem?_eq_none (by omega),
              List.getElem?_eq_none (by omega)]
      · have hsl2asc : (slice L2 LI l.length).Pairwise
            (fun a b => cmp a b < 0) := by
          refine pairwise_slice_of_gd d (by omega) ?_
          intro i j h1 h2 h3
          exact hasc2 i j h1 h2 h3
        have hlt2 := asc_lex_min d hswo (slice L2 LI l.length)
          (slice m LI l.length) hsl2asc hslperm heqsl
        obtain ⟨k2, hk2, hpre2, hklt2⟩ :=
          (lexLtB_iff d cmp (slice L2 LI l.length) (slice m LI l.length)
            (by rw [slice_length L2 LI l.length (by omega),
              slice_length m LI l.length (by omega)])).mp hlt2
        rw [slice_length L2 LI l.length (by omega)] at hk2
        have hgds : ∀ t, t < l.length - LI →
            gd d (slice L2 LI l.length) t = gd d L2 (LI + t) := by
          intro t ht
          refine gd_congr d ?_
          rw [slice_getElem?, if_pos (by omega)]
        have hgdm : ∀ t, t < l.length - LI →
            gd d (slice m LI l.length) t = gd d m (LI + t) := by
          intro t ht
          refine gd_congr d ?_
          rw [slice_getElem?, if_pos (by omega)]
        refine Or.inr ((lexLtB_iff d cmp L2 m (by omega)).mpr
          ⟨LI + k2, by omega, ?_, ?_⟩)
        · intro i hi
          by_cases hi1 : i < LI
          · have := hagree i hi1
            rw [gd_congr d this.symm]
            exact hswo.self_eq _
          · have := hpre2 (i - LI) (by omega)
            rw [hgds (i - LI) (by omega), hgdm (i - LI) (by omega),
              show LI + (i - LI) = i by omega] at this
            exact this
        · have := hklt2
          rw [hgds k2 (by omega), hgdm k2 (by omega)] at this
          exact this
  · exfalso
    have hslperm2 : List.Perm (slice m LI l.length)
        (slice l LI l.length) := by
      refine slice_perm_of_perm_outside_eq hpermm LI l.length ?_ (by omega)
      intro j hj
      rcases hj with hj | hj
      · exact hprefix_eq j (by omega)
      · rw [List.getElem?_eq_none (by omega),
          List.getElem?_eq_none (by omega)]
    have hsldesc : (slice l LI l.length).Pairwise
        (fun a b => cmp b a < 0) := by
      refine pairwise_slice_of_gd d (by omega) ?_
      intro i j h1 h2 h3
      exact hdescl i j h1 h2 h3
    by_cases heqsl : slice m LI l.length = slice l LI l.length
    · have hml : m = l := by
        refine List.ext_getElem? ?_
        intro i
        by_cases hi1 : i < LI
        · exact hprefix_eq i (by omega)
        · by_cases hi2 : i < l.length
          · have h1 : (slice m LI l.length)[i - LI]? =
                (slice l LI l.length)[i - LI]? := by rw [heqsl]
            rw [slice_getElem?, slice_getElem?, if_pos (by omega),
              if_pos (by omega), show LI + (i - LI) = i by omega] at h1
            exact h1
          · rw [List.getElem?_eq_none (by omega),
              List.getElem?_eq_none (by omega)]
      rw [hml] at hlm
      rw [lexLtB_self hswo l] at hlm
      exact Bool.noConfusion hlm
    · have hmax := desc_lex_max d hswo (slice l LI l.length)
        (slice m LI l.length) hsldesc hslperm2 heqsl
      have hlt3 : lexLtB cmp (slice l LI l.length)
          (slice m LI l.length) = true := by
        refine (lexLtB_iff d cmp (slice l LI l.length)
          (slice m LI l.length)
          (by rw [slice_length l LI l.length (by omega),
            slice_length m LI l.length (by omega)])).mpr
          ⟨k - LI, ?_, ?_, ?_⟩
        · rw [slice_length l LI l.length (by omega)]
          omega
        · intro i hi
          have h1 : gd d (slice l LI l.length) i = gd d l (LI + i) := by
            refine gd_congr d ?_
            rw [slice_getElem?, if_pos (by omega)]
          have h2 : gd d (slice m LI l.length) i = gd d m (LI + i) := by
            refine gd_congr d ?_
            rw [slice_getElem?, if_pos (by omega)]
          rw [h1, h2]
          exact hpre (LI + i) (by omega)
        · have h1 : gd d (slice l LI l.length) (k - LI) = gd d l k := by
            refine gd_congr d ?_
            rw [slice_getElem?, if_pos (by omega),
              show LI + (k - LI) = k by omega]
          have h2 : gd d (slice m LI l.length) (k - LI) = gd d m k := by
            refine gd_congr d ?_
            rw [slice_getElem?, if_pos (by omega),
              show LI + (k - LI) = k by omega]
          rw [h1, h2]
          exact hklt
      exact lexLtB_asymm hswo _ _ hlt3 hmax

/-- Non-strict lexicographic order used to enumerate the permutations. -/
def lexLeB {α : Type} (cmp : α → α → Int) (a b : List α) : Bool :=
  ! lexLtB cmp b a

theorem lexLeB_trans {α : Type} {cmp : α → α → Int} (hswo : IsSWO cmp) :
    ∀ a b c : List α, lexLeB cmp a b → lexLeB cmp b c → lexLeB cmp a c := by
  intro a b c h1 h2
  rw [lexLeB, Bool.not_eq_true'] at h1 h2 ⊢
  cases h3 : lexLtB cmp c a
  · rfl
  · rcases lexLtB_cotrans hswo c a b h3 with h | h
    · rw [h] at h2
      exact Bool.noConfusion h2
    · rw [h] at h1
      exact Bool.noConfusion h1

theorem lexLeB_total {α : Type} {cmp : α → α → Int} (hswo : IsSWO cmp) :
    ∀ a b : List α, lexLeB cmp a b || lexLeB cmp b a := by
  intro a b
  rw [lexLeB, lexLeB]
  cases h1 : lexLtB cmp b a
  · simp
  · cases h2 : lexLtB cmp a b
    · simp
    · exact (lexLtB_asymm hswo a b h2 h1).elim

theorem lexLtB_of_ne {α : Type} (d : α) {cmp : α → α → Int}
    (hswo : IsSWO cmp) {l0 a b : List α}
    (hcomp : ∀ x ∈ l0, ∀ y ∈ l0, cmp x y = 0 → x = y)
    (ha : List.Perm a l0) (hb : List.Perm b l0) (hne : a ≠ b) :
    lexLtB cmp a b = true ∨ lexLtB cmp b a = true := by
  have hlen : a.length = b.length := by rw [ha.length_eq, hb.length_eq]
  obtain ⟨k, hk, hpre, hdiff⟩ := exists_first_diff a b hlen hne
  have hkb : k < b.length := by omega
  have hga : gd d a k ∈ l0 := ha.mem_iff.mp (gd_mem d hk)
  have hgb : gd d b k ∈ l0 := hb.mem_iff.mp (gd_mem d hkb)
  have hne2 : cmp (gd d a k) (gd d b k) ≠ 0 := by
    intro he
    refine hdiff ?_
    rw [getElem?_eq_gd d hk, getElem?_eq_gd d hkb, hcomp _ hga _ hgb he]
  have hpre2 : ∀ i, i < k → cmp (gd d a i) (gd d b i) = 0 := by
    intro i hi
    rw [gd_congr d (hpre i hi)]
    exact hswo.self_eq _
  rcases lt_or_gt_of_ne hne2 with h | h
  · exact Or.inl ((lexLtB_iff d cmp a b hlen).mpr ⟨k, hk, hpre2, h⟩)
  · refine Or.inr ((lexLtB_iff d cmp b a hlen.symm).mpr ⟨k, hkb, ?_, ?_⟩)
    · intro i hi
      exact hswo.eq_symm _ _ (hpre2 i hi)
    · exact (hswo.asym _ _).mpr h

/-- C7: starting from a strictly ascending range, `next_permutation` steps
through all `n!` permutations in strictly increasing lexicographic order
(hence returns `true` exactly `n! - 1` times), and the call on the final
(descending) permutation returns `false` and restores the ascending order. -/
theorem next_permutation_enumerates {α : Type} (d : α) {cmp : α → α → Int}
    (hswo : IsSWO cmp) (l0 : List α)
    (hasc : l0.Pairwise (fun a b => cmp a b < 0)) :
    ∃ states : List (List α),
      states.length = Nat.factorial l0.length ∧
      states[0]? = some l0 ∧
      (∀ (i : Nat) (a b : List α), states[i]? = some a → states[i + 1]? = some b →
        next_permutation cmp a = some (b, true)) ∧
      (∀ a, states[states.length - 1]? = some a →
        next_permutation cmp a = some (l0, false)) ∧
      (∀ m, m ∈ states ↔ List.Perm m l0) ∧
      (∀ (i j : Nat) (a b : List α), i < j → states[i]? = some a → states[j]? = some b →
        lexLtB cmp a b = true) := by
  have hcomp : ∀ x ∈ l0, ∀ y ∈ l0, cmp x y = 0 → x = y := by
    intro x hx y hy he
    obtain ⟨i, hi⟩ := List.mem_iff_getElem?.mp hx
    obtain ⟨j, hj⟩ := List.mem_iff_getElem?.mp hy
    have hil : i < l0.length := by
      by_contra hc
      rw [List.getElem?_eq_none (by omega)] at hi
      exact Option.noConfusion hi
    have hjl : j < l0.length := by
      by_contra hc
      rw [List.getElem?_eq_none (by omega)] at hj
      exact Option.noConfusion hj
    have hgi : gd d l0 i = x := gd_of_getElem? d hi
    have hgj : gd d l0 j = y := gd_of_getElem? d hj
    rcases lt_trichotomy i j with hij | hij | hij
    · have hp := List.pairwise_iff_getElem.mp hasc i j hil hjl hij
      rw [← gd_eq_getElem d hil, ← gd_eq_getElem d hjl, hgi, hgj] at hp
      omega
    · rw [← hgi, ← hgj, hij]
    · have hp := List.pairwise_iff_getElem.mp hasc j i hjl hil hij
      rw [← gd_eq_getElem d hjl, ← gd_eq_getElem d hil, hgi, hgj] at hp
      have := hswo.eq_symm x y he
      omega
  have hnodup0 : l0.Nodup := by
    refine hasc.imp ?_
    intro a b hab he
    rw [he, hswo.self_eq] at hab
    omega
  set states := (l0.permutations).mergeSort (lexLeB cmp) with hstdef
  have hpermst : List.Perm states l0.permutations := List.mergeSort_perm _ _
  have hlenst : states.length = Nat.factorial l0.length := by
    rw [hpermst.length_eq, List.length_permutations]
  have hmemst : ∀ m, m ∈ states ↔ List.Perm m l0 := by
    intro m
    rw [hpermst.mem_iff, List.mem_permutations]
  have hnodupst : states.Nodup :=
    hpermst.nodup_iff.mpr (List.nodup_permutations l0 hnodup0)
  have hsorted : states.Pairwise (fun a b => lexLeB cmp a b) :=
    List.sorted_mergeSort (lexLeB_trans hswo) (lexLeB_total hswo) _
  have hbound : ∀ (i : Nat) (x : List α), states[i]? = some x →
      i < states.length := by
    intro i x hx
    by_contra hc
    rw [List.getElem?_eq_none (by omega)] at hx
    exact Option.noConfusion hx
  have hmem_of : ∀ (i : Nat) (x : List α), states[i]? = some x →
      x ∈ states := fun i x h => List.mem_iff_getElem?.mpr ⟨i, h⟩
  have hinj : ∀ (i j : Nat) (x : List α), states[i]? = some x →
      states[j]? = some x → i = j := by
    intro i j x hi hj
    have h1 := hbound i x hi
    have h2 := hbound j x hj
    rw [List.getElem?_eq_getElem h1] at hi
    rw [List.getElem?_eq_getElem h2] at hj
    have he : states[i] = states[j] := by
      rw [Option.some.inj hi, Option.some.inj hj]
    exact (List.Nodup.getElem_inj_iff hnodupst).mp he
  have hchain : ∀ (i j : Nat) (a b : List α), i < j → states[i]? = some a →
      states[j]? = some b → lexLtB cmp a b = true := by
    intro i j a b hij ha hb
    have hj := hbound j b hb
    have hi : i < states.length := by omega
    have hle := List.pairwise_iff_getElem.mp hsorted i j hi hj hij
    rw [List.getElem?_eq_getElem hi] at ha
    rw [List.getElem?_eq_getElem hj] at hb
    obtain rfl := Option.some.inj ha
    obtain rfl := Option.some.inj hb
    have hne : states[i] ≠ states[j] := by
      intro he
      have := (List.Nodup.getElem_inj_iff hnodupst).mp he
      omega
    have hpi : List.Perm states[i] l0 :=
      (hmemst _).mp (List.getElem_mem hi)
    have hpj : List.Perm states[j] l0 :=
      (hmemst _).mp (List.getElem_mem hj)
    rcases lexLtB_of_ne d hswo hcomp hpi hpj hne with h | h
    · exact h
    · rw [lexLeB, Bool.not_eq_true', h] at hle
      exact Bool.noConfusion hle
  have hpos : 0 < states.length := by
    rw [hlenst]
    exact Nat.factorial_pos l0.length
  have hhead : states[0]? = some l0 := by
    have hmem : l0 ∈ states := (hmemst l0).mpr (List.Perm.refl l0)
    obtain ⟨j, hj⟩ := List.mem_iff_getElem?.mp hmem
    rcases Nat.eq_zero_or_pos j with hj0 | hj0
    · rwa [hj0] at hj
    · exfalso
      obtain ⟨s0, hs0⟩ : ∃ s0, states[0]? = some s0 := by
        rw [List.getElem?_eq_getElem hpos]
        exact ⟨_, rfl⟩
      have hlt := hchain 0 j s0 l0 hj0 hs0 hj
      have hps0 : List.Perm s0 l0 := (hmemst s0).mp (hmem_of 0 s0 hs0)
      have hne : s0 ≠ l0 := by
        intro he
        rw [he] at hs0
        have := hinj 0 j l0 hs0 hj
        omega
      exact lexLtB_asymm hswo l0 s0
        (asc_lex_min d hswo l0 s0 hasc hps0 hne) hlt
  have hdescrev : l0.reverse.Pairwise (fun a b => cmp b a < 0) := by
    rw [List.pairwise_reverse]
    exact hasc
  have hlast : states[states.length - 1]? = some l0.reverse := by
    have hmem : l0.reverse ∈ states :=
      (hmemst l0.reverse).mpr (List.reverse_perm l0)
    obtain ⟨j, hj⟩ := List.mem_iff_getElem?.mp hmem
    have hjb := hbound j l0.reverse hj
    rcases Nat.lt_or_ge j (states.length - 1) with hj0 | hj0
    · exfalso
      obtain ⟨sl, hsl⟩ : ∃ sl, states[states.length - 1]? = some sl := by
        rw [List.getElem?_eq_getElem (by omega)]
        exact ⟨_, rfl⟩
      have hlt := hchain j (states.length - 1) l0.reverse sl hj0 hj hsl
      have hpsl : List.Perm sl l0.reverse := by
        refine ((hmemst sl).mp (hmem_of _ sl hsl)).trans ?_
        exact (List.reverse_perm l0).symm
      have hne : sl ≠ l0.reverse := by
        intro he
        rw [he] at hsl
        have := hinj j (states.length - 1) l0.reverse hj hsl
        omega
      exact lexLtB_asymm hswo sl l0.reverse
        (desc_lex_max d hswo l0.reverse sl hdescrev hpsl hne) hlt
    · have hjeq : j = states.length - 1 := by omega
      rwa [hjeq] at hj
  have hfact_ge : ∀ n : Nat, 2 ≤ Nat.factorial n → 2 ≤ n := by
    intro n hn
    match n with
    | 0 => simp [Nat.factorial] at hn
    | 1 => simp [Nat.factorial] at hn
    | n + 2 => omega
  have hstep : ∀ (i : Nat) (a b : List α), states[i]? = some a →
      states[i + 1]? = some b →
      next_permutation cmp a = some (b, true) := by
    intro i a b ha hb
    have hi1 := hbound (i + 1) b hb
    have hn2 : 2 ≤ l0.length := by
      refine hfact_ge l0.length ?_
      rw [← hlenst]
      omega
    have hpa : List.Perm a l0 := (hmemst a).mp (hmem_of i a ha)
    have hpb : List.Perm b l0 := (hmemst b).mp (hmem_of (i + 1) b hb)
    have hnea : a ≠ [] := by
      intro he
      have := hpa.length_eq
      rw [he] at this
      simp at this
      omega
    have hcompa : ∀ x ∈ a, ∀ y ∈ a, cmp x y = 0 → x = y := by
      intro x hx y hy
      exact hcomp x (hpa.mem_iff.mp hx) y (hpa.mem_iff.mp hy)
    have hnodupa : a.Nodup := hpa.nodup_iff.mpr hnodup0
    have hnotdesc : ¬ a.Pairwise (fun x y => cmp y x < 0) := by
      intro hdesc
      have heq : a = l0.reverse :=
        perm_desc_unique d hswo l0.reverse a hdescrev hdesc
          (hpa.trans (List.reverse_perm l0).symm)
      rw [heq] at ha
      have := hinj i (states.length - 1) l0.reverse ha hlast
      omega
    obtain ⟨l', hmain, hperm', hlex, hmin⟩ :=
      next_permutation_succ d hswo a hnea hcompa hnodupa hnotdesc
    have hpl' : List.Perm l' l0 := hperm'.trans hpa
    obtain ⟨jl, hjl⟩ := List.mem_iff_getElem?.mp ((hmemst l').mpr hpl')
    have hjlgt : i < jl := by
      rcases Nat.lt_or_ge i jl with h | h
      · exact h
      · exfalso
        rcases Nat.eq_or_lt_of_le h with he | hlt
        · rw [he] at hjl
          rw [hjl] at ha
          obtain rfl := Option.some.inj ha
          rw [lexLtB_self hswo] at hlex
          exact Bool.noConfusion hlex
        · exact lexLtB_asymm hswo a l' hlex (hchain jl i l' a hlt hjl ha)
    have hlexab := hchain i (i + 1) a b (by omega) ha hb
    rcases hmin b (hpb.trans hpa.symm) hlexab with he | hlt
    · rw [hmain, he]
    · rcases Nat.eq_or_lt_of_le hjlgt with he2 | hlt2
      · have he3 : i + 1 = jl := he2
        rw [he3, hjl] at hb
        obtain rfl := Option.some.inj hb
        rw [hmain]
      · exfalso
        exact lexLtB_asymm hswo l' b hlt (hchain (i + 1) jl b l' hlt2 hb hjl)
  have hfinal : ∀ a, states[states.length - 1]? = some a →
      next_permutation cmp a = some (l0, false) := by
    intro a ha
    rw [hlast] at ha
    obtain rfl := (Option.some.inj ha).symm
    by_cases h0 : l0 = []
    · subst h0
      rw [List.reverse_nil, next_permutation,
        if_pos (show List.length ([] : List α) = 0 from rfl)]
    · have hrevne : l0.reverse ≠ [] := by
        intro he
        refine h0 ?_
        rw [← List.reverse_reverse l0, he]
        rfl
      rw [next_permutation_desc d hswo l0.reverse hrevne hdescrev,
        List.reverse_reverse]
  exact ⟨states, hlenst, hhead, hstep, hfinal, hmemst, hchain⟩

/-- Witness for C7 at a concrete input. -/
theorem next_permutation_enumerates_witness :
    ∃ states : List (List Int),
      states.length = Nat.factorial 2 ∧
      states[0]? = some [(1 : Int), 2] ∧
      (∀ (i : Nat) (a b : List Int), states[i]? = some a →
        states[i + 1]? = some b →
        next_permutation intCmp a = some (b, true)) ∧
      (∀ a, states[states.length - 1]? = some a →
        next_permutation intCmp a = some ([(1 : Int), 2], false)) ∧
      (∀ m, m ∈ states ↔ List.Perm m [(1 : Int), 2]) ∧
      (∀ (i j : Nat) (a b : List Int), i < j → states[i]? = some a →
        states[j]? = some b → lexLtB intCmp a b = true) := by
  have h := next_permutation_enumerates (0 : Int) intCmp_isSWO
    [(1 : Int), 2] (by decide)
  simpa using h

end ArrayAlg
